import Mathlib

/-!
Connected components by label propagation.

A shallow embedding of the four label-propagation drivers
(`cc_sequential.cpp`, `cc_pthreads.cpp`, `cc_openmp.cpp`, `cc_opencilk.cpp`), of the
component counter and argument checks of their `main` functions, and of the Matrix
Market loader `load_mtx_as_csr` (`conversion_graph.cpp`).

Conventions of the embedding.

* `std::vector<int>` is a `List Nat`.  Every value the engine stores is a vertex id
  or an offset into `colind`, so no `int` of the engine ever goes negative; the only
  arithmetic that can leave the 32-bit range is the chunk computation of
  `cc_pthreads`, which is therefore carried out in `Int` with an explicit
  two's-complement wrap (`wrap32`).
* An indexing `a[i]` outside the vector is undefined behaviour in the source; here
  it is the error `Err.outOfBounds`.
* `for (int v = lo; v < hi; v++)` is a recursion over the index list `forRange lo hi`.
* `while (changed)` is a recursion on a fuel argument; running out of fuel is the
  error `Err.outOfFuel`.  The pass counter (`iterations` in the OpenMP and OpenCilk
  drivers) is returned next to the labels by every driver.
* The loader reads a file given as its list of characters; `getline` and
  `operator>>(int&)` are modelled on that list.  The `int` arithmetic of the loader
  (`i--`, `2 * nnz`, `n + 1`, `int M = edges.size()`) goes through `wrap32`; the calls
  `exit(1)` and the exceptions of `std::vector` are the errors `LoadErr`.
-/

namespace CC

/-- Ways in which a run of the embedded program can fail to return. -/
inductive Err where
  | outOfBounds
  | outOfFuel
  | badThreadCount
  deriving DecidableEq, Repr

/-- The `CSRGraph` struct: `n` vertices, `rowptr` of size `n+1`, `colind` holding the
neighbour lists back to back. -/
structure CSRGraph where
  n : Nat
  rowptr : List Nat
  colind : List Nat
  deriving DecidableEq, Repr

/-- The read `a[i]` of a vector. -/
def readAt (a : List Nat) (i : Nat) : Except Err Nat :=
  match a[i]? with
  | some x => .ok x
  | none => .error .outOfBounds

/-- The write `a[i] = x` of a vector. -/
def writeAt (a : List Nat) (i : Nat) (x : Nat) : Except Err (List Nat) :=
  if i < a.length then .ok (a.set i x) else .error .outOfBounds

/-- The indices visited by `for (int v = lo; v < hi; v++)`. -/
def forRange (lo hi : Nat) : List Nat := List.range' lo (hi - lo)

/-- The call `vec.resize(n)`: truncate, or pad with value-initialised (zero) entries. -/
def vecResize (a : List Nat) (n : Nat) : List Nat :=
  a.take n ++ List.replicate (n - a.length) 0

/-- The constructor `vector<int> new_label(n)`. -/
def vecNew (n : Nat) : List Nat := List.replicate n 0

/-- The initialisation loop `label[v] = v` over the given index list. -/
def initLabels : List Nat → List Nat → Except Err (List Nat)
  | [], label => .ok label
  | v :: vs, label =>
    match writeAt label v v with
    | .error e => .error e
    | .ok label1 => initLabels vs label1

/-- The neighbour scan of `cc_sequential` (lines 42-47), identical in `cc_openmp` and
`cc_opencilk`: for each `e` of the index list, `u = colind[e]` and
`if (label[u] < best) best = label[u]`. -/
def scanNeighbors (g : CSRGraph) (label : List Nat) : List Nat → Nat → Except Err Nat
  | [], best => .ok best
  | e :: es, best =>
    match readAt g.colind e with
    | .error err => .error err
    | .ok u =>
      match readAt label u with
      | .error err => .error err
      | .ok lu => scanNeighbors g label es (if lu < best then lu else best)

/-- The body of the per-vertex loop of `cc_sequential` (lines 39-52), identical in
`cc_openmp` (lines 45-59) and `cc_opencilk` (lines 41-56).  Returns the `new_label`
buffer after the write and whether `best != label[v]`. -/
def updateVertex (g : CSRGraph) (label new_label : List Nat) (v : Nat) :
    Except Err (List Nat × Bool) :=
  match readAt label v with
  | .error err => .error err
  | .ok best0 =>
    match readAt g.rowptr v with
    | .error err => .error err
    | .ok lo =>
      match readAt g.rowptr (v + 1) with
      | .error err => .error err
      | .ok hi =>
        match scanNeighbors g label (forRange lo hi) best0 with
        | .error err => .error err
        | .ok best =>
          match writeAt new_label v best with
          | .error err => .error err
          | .ok new_label1 =>
            match readAt label v with
            | .error err => .error err
            | .ok lv => .ok (new_label1, best != lv)

/-- One pass of the per-vertex loop over the vertices in the given order, reading
`label`, writing `new_label`, and or-ing the change flags into `changed`. -/
def passOver (g : CSRGraph) (label : List Nat) :
    List Nat → List Nat → Bool → Except Err (List Nat × Bool)
  | [], new_label, changed => .ok (new_label, changed)
  | v :: vs, new_label, changed =>
    match updateVertex g label new_label v with
    | .error err => .error err
    | .ok (new_label1, c) => passOver g label vs new_label1 (changed || c)

/-- The `while (changed)` loop shared by the four drivers.  `pass k label new_label`
is the body of pass number `k` (counted from 0); on return the buffers are swapped,
so the labels handed back are the buffer written by the last pass. -/
def convergenceLoop (pass : Nat → List Nat → List Nat → Except Err (List Nat × Bool)) :
    Nat → Nat → List Nat → List Nat → Except Err (List Nat × Nat)
  | 0, _, _, _ => .error .outOfFuel
  | fuel + 1, iterations, label, new_label =>
    match pass iterations label new_label with
    | .error err => .error err
    | .ok (new_label1, changed) =>
      if changed then convergenceLoop pass fuel (iterations + 1) new_label1 label
      else .ok (new_label1, iterations + 1)

/-- The function `cc_sequential`: resize, initialise, iterate in index order.
Returns the final `label` and the number of passes executed. -/
def cc_sequential (g : CSRGraph) (label : List Nat) (fuel : Nat) :
    Except Err (List Nat × Nat) :=
  match initLabels (forRange 0 g.n) (vecResize label g.n) with
  | .error err => .error err
  | .ok label0 =>
    convergenceLoop (fun _ l nl => passOver g l (forRange 0 g.n) nl false)
      fuel 0 label0 (vecNew g.n)

/-- Two's-complement wrap of a mathematical integer into the range of a 32-bit `int`. -/
def wrap32 (x : Int) : Int := (x + 2147483648) % 4294967296 - 2147483648

/-- The neighbour scan of `worker` (lines 47-53): `u = colind[idx]`, `lu = label_old[u]`,
`if (lu < lv) lv = lu`. -/
def workerScan (g : CSRGraph) (label_old : List Nat) : List Nat → Nat → Except Err Nat
  | [], lv => .ok lv
  | idx :: rest, lv =>
    match readAt g.colind idx with
    | .error err => .error err
    | .ok u =>
      match readAt label_old u with
      | .error err => .error err
      | .ok lu => workerScan g label_old rest (if lu < lv then lu else lv)

/-- The loop of `worker` over its vertices (lines 40-59), carrying `a->changed`. -/
def workerLoop (g : CSRGraph) (label_old : List Nat) :
    List Nat → List Nat → Bool → Except Err (List Nat × Bool)
  | [], label_new, changed => .ok (label_new, changed)
  | v :: vs, label_new, changed =>
    match readAt label_old v with
    | .error err => .error err
    | .ok lv0 =>
      match readAt g.rowptr v with
      | .error err => .error err
      | .ok row_start =>
        match readAt g.rowptr (v + 1) with
        | .error err => .error err
        | .ok row_end =>
          match workerScan g label_old (forRange row_start row_end) lv0 with
          | .error err => .error err
          | .ok lv =>
            match writeAt label_new v lv with
            | .error err => .error err
            | .ok label_new1 =>
              match readAt label_old v with
              | .error err => .error err
              | .ok old =>
                workerLoop g label_old vs label_new1 (if lv != old then true else changed)

/-- The function `worker` on the vertex range `[start, stop)` (`stop` is the field `end`
of `ThreadArgs`).  A non-empty range with a negative `start` indexes before the
buffers. -/
def worker (g : CSRGraph) (label_old label_new : List Nat) (start stop : Int) :
    Except Err (List Nat × Bool) :=
  if start < stop ∧ start < 0 then .error .outOfBounds
  else workerLoop g label_old (forRange start.toNat stop.toNat) label_new false

/-- The spawn loop and the join loop of `cc_pthreads` (lines 93-124) for the thread ids
of the given list: thread `t` gets `[t*chunk, t*chunk+chunk)` clamped to `n`, is skipped
when that range is empty, and otherwise runs `worker`; the change flags of the created
threads are or-ed into `changed`.  The workers write disjoint slices of `label_new`
and only read `label_old`, so they are run one after the other. -/
def spawnJoin (g : CSRGraph) (label_old : List Nat) (chunk : Int) :
    List Nat → List Nat → Bool → Except Err (List Nat × Bool)
  | [], label_new, changed => .ok (label_new, changed)
  | t :: ts, label_new, changed =>
    let start0 := wrap32 ((t : Int) * chunk)
    let end0 := wrap32 (start0 + chunk)
    let start := if start0 > (g.n : Int) then (g.n : Int) else start0
    let stop := if end0 > (g.n : Int) then (g.n : Int) else end0
    if start ≥ stop then spawnJoin g label_old chunk ts label_new changed
    else
      match worker g label_old label_new start stop with
      | .error err => .error err
      | .ok (label_new1, c) =>
        spawnJoin g label_old chunk ts label_new1 (if c then true else changed)

/-- The value `chunk = (n + num_threads - 1) / num_threads` in 32-bit `int` arithmetic
(C++ division truncates toward zero). -/
def chunkSize (n : Nat) (num_threads : Int) : Int :=
  Int.tdiv (wrap32 (wrap32 ((n : Int) + num_threads) - 1)) num_threads

/-- One pass of the `while` loop of `cc_pthreads` (lines 83-124).  A thread count that
is not positive divides by zero or asks for vectors of negative size. -/
def pthreadsPass (g : CSRGraph) (num_threads : Int) (label new_label : List Nat) :
    Except Err (List Nat × Bool) :=
  if num_threads ≤ 0 then .error .badThreadCount
  else
    spawnJoin g label (chunkSize g.n num_threads) (forRange 0 num_threads.toNat)
      new_label false

/-- The function `cc_pthreads`.  Returns the final `label` and the number of passes. -/
def cc_pthreads (g : CSRGraph) (label : List Nat) (num_threads : Int) (fuel : Nat) :
    Except Err (List Nat × Nat) :=
  match initLabels (forRange 0 g.n) (vecResize label g.n) with
  | .error err => .error err
  | .ok label0 =>
    convergenceLoop (fun _ l nl => pthreadsPass g num_threads l nl) fuel 0 label0 (vecNew g.n)

/-- The function `cc_openmp`.  `init_order` is the order in which the parallel
initialisation loop visits the vertices and `sched k` the order in which the
parallel-for of pass `k` does; `thread_changed` and the atomic `any_changed |= ...`
amount to or-ing the per-vertex flags.  Returns the final `label` and `iterations`. -/
def cc_openmp (g : CSRGraph) (label : List Nat) (init_order : List Nat)
    (sched : Nat → List Nat) (fuel : Nat) : Except Err (List Nat × Nat) :=
  match initLabels init_order (vecResize label g.n) with
  | .error err => .error err
  | .ok label0 =>
    convergenceLoop (fun k l nl => passOver g l (sched k) nl false) fuel 0 label0 (vecNew g.n)

/-- The function `cc_opencilk`, with `cilk_for` in place of the OpenMP pragmas and
`__sync_fetch_and_or` setting `any_changed`.  Returns the final `label` and
`iterations`. -/
def cc_opencilk (g : CSRGraph) (label : List Nat) (init_order : List Nat)
    (sched : Nat → List Nat) (fuel : Nat) : Except Err (List Nat × Nat) :=
  match initLabels init_order (vecResize label g.n) with
  | .error err => .error err
  | .ok label0 =>
    convergenceLoop (fun k l nl => passOver g l (sched k) nl false) fuel 0 label0 (vecNew g.n)

/-- The tail of `std::unique`: drop every element equal to the last element kept. -/
def uniqueFrom {α : Type} [DecidableEq α] (prev : α) : List α → List α
  | [] => []
  | y :: rest => if prev = y then uniqueFrom prev rest else y :: uniqueFrom y rest

/-- The call `tmp.erase(unique(tmp.begin(), tmp.end()), tmp.end())`: keep the first
element of every run of equal consecutive elements. -/
def unique {α : Type} [DecidableEq α] : List α → List α
  | [] => []
  | x :: rest => x :: uniqueFrom x rest

/-- The component counter of `main` (lines 78-83 of `cc_sequential.cpp`): copy, sort,
unique, erase, size.  `std::sort` and `std::unique` are templates; the counter is
stated for any linearly ordered element type and used at `Int` and at `Nat`. -/
def componentCount {α : Type} [LinearOrder α] (label : List α) : Nat :=
  (unique (List.insertionSort (· ≤ ·) label)).length

/-! ## The graph loader `load_mtx_as_csr`

The file is the list of its characters.  `getline` and the formatted extraction
`stream >> int` of the standard library are modelled on that list; an `int` that is
read before it was assigned has an arbitrary value, supplied as a parameter.  The sizes
of the vectors are converted to `int` with a 32-bit wrap. -/

/-- Ways in which `load_mtx_as_csr` fails to return a graph: the three `exit(1)` paths,
an uncaught `std::length_error` (a vector asked for a negative size), and an indexing
outside a vector. -/
inductive LoadErr where
  | cannotOpen
  | fileEndedBeforeHeader
  | notSquare
  | lengthError
  | outOfBounds
  deriving DecidableEq, Repr

/-- The characters of the first line of a stream. -/
def takeLine : List Char → List Char
  | [] => []
  | c :: cs => if c = '\n' then [] else c :: takeLine cs

/-- The stream after its first line and the newline that ends it. -/
def dropLine : List Char → List Char
  | [] => []
  | c :: cs => if c = '\n' then cs else dropLine cs

/-- The call `getline(fin, line)`: fails on an exhausted stream, otherwise yields the
line and the stream after it. -/
def getline (s : List Char) : Option (List Char × List Char) :=
  match s with
  | [] => none
  | _ :: _ => some (takeLine s, dropLine s)

/-- The `do ... while` loop of lines 31-36: read lines until one is empty or does not
start with `%`.  Every repetition consumes a character, so the fuel `s.length + 1`
given by the caller is never exhausted; that case is mapped to the end-of-file error. -/
def findHeader : Nat → List Char → Except LoadErr (List Char × List Char)
  | 0, _ => .error .fileEndedBeforeHeader
  | fuel + 1, s =>
    match getline s with
    | none => .error .fileEndedBeforeHeader
    | some (line, rest) =>
      if !line.isEmpty ∧ line.head? = some '%' then findHeader fuel rest
      else .ok (line, rest)

/-- An input stream: the characters not yet consumed and the fail bit. -/
structure IStream where
  chars : List Char
  fail : Bool
  deriving DecidableEq, Repr

/-- The whitespace of the "C" locale. -/
def isSpace (c : Char) : Bool :=
  c = ' ' ∨ c = '\t' ∨ c = '\n' ∨ c = '\r' ∨ c.toNat = 11 ∨ c.toNat = 12

/-- Skip leading whitespace. -/
def skipWs : List Char → List Char
  | [] => []
  | c :: cs => if isSpace c then skipWs cs else c :: cs

/-- Accumulate the decimal digits at the front of a stream. -/
def readDigits (acc : Nat) : List Char → Nat × List Char
  | [] => (acc, [])
  | c :: cs => if c.isDigit then readDigits (acc * 10 + (c.toNat - 48)) cs else (acc, c :: cs)

/-- The extraction `stream >> x` for an `int x` holding `old`: nothing happens on a
failed stream; at end of input the stream fails and `x` keeps its value; a field
without digits fails and writes 0; a value outside the range of `int` fails and writes
the nearest bound; otherwise the value is written. -/
def extractInt (st : IStream) (old : Int) : IStream × Int :=
  if st.fail then (st, old)
  else
    match skipWs st.chars with
    | [] => (⟨[], true⟩, old)
    | c :: cs =>
      let neg := decide (c = '-')
      let body := if c = '-' ∨ c = '+' then cs else c :: cs
      match body with
      | [] => (⟨[], true⟩, 0)
      | d :: ds =>
        if d.isDigit then
          let r := readDigits 0 (d :: ds)
          let v : Int := if neg then -(r.1 : Int) else (r.1 : Int)
          if v > 2147483647 then (⟨r.2, true⟩, 2147483647)
          else if v < -2147483648 then (⟨r.2, true⟩, -2147483648)
          else (⟨r.2, false⟩, v)
        else (⟨d :: ds, true⟩, 0)

/-- The successive pairs delivered by `while (fin >> i >> j)` (line 57).  Every
repetition consumes a character, so the fuel `chars.length + 1` given by the caller is
never exhausted. -/
def readPairs : Nat → IStream → List (Int × Int)
  | 0, _ => []
  | fuel + 1, st =>
    let r1 := extractInt st 0
    let r2 := extractInt r1.1 0
    if r2.1.fail then [] else (r1.2, r2.2) :: readPairs fuel r2.1

/-- The body of the reading loop (lines 58-63) over the pairs read: convert to 0-based,
skip self-loops, push the edge and its reverse. -/
def pushEdges : List (Int × Int) → List (Int × Int)
  | [] => []
  | (i, j) :: rest =>
    let i0 := wrap32 (i - 1)
    let j0 := wrap32 (j - 1)
    if i0 = j0 then pushEdges rest else (i0, j0) :: (j0, i0) :: pushEdges rest

/-- The counting loop (lines 70-73): `v = edges[k].first; rowcount[v]++`. -/
def countLoop (edges : List (Int × Int)) : List Nat → List Nat → Except LoadErr (List Nat)
  | [], rowcount => .ok rowcount
  | k :: ks, rowcount =>
    match edges[k]? with
    | none => .error .outOfBounds
    | some (v, _) =>
      if 0 ≤ v then
        match rowcount[v.toNat]? with
        | none => .error .outOfBounds
        | some c => countLoop edges ks (rowcount.set v.toNat (c + 1))
      else .error .outOfBounds

/-- The prefix-sum loop (lines 81-83): `rowptr[v+1] = rowptr[v] + rowcount[v]`. -/
def prefixLoop (rowcount : List Nat) : List Nat → List Nat → Except LoadErr (List Nat)
  | [], rowptr => .ok rowptr
  | v :: vs, rowptr =>
    match rowptr[v]?, rowcount[v]? with
    | some a, some c =>
      if v + 1 < rowptr.length then prefixLoop rowcount vs (rowptr.set (v + 1) (a + c))
      else .error .outOfBounds
    | _, _ => .error .outOfBounds

/-- The loop of lines 89-91: `cur_pos[v] = rowptr[v]`. -/
def copyLoop (rowptr : List Nat) : List Nat → List Nat → Except LoadErr (List Nat)
  | [], cur_pos => .ok cur_pos
  | v :: vs, cur_pos =>
    match rowptr[v]? with
    | none => .error .outOfBounds
    | some a =>
      if v < cur_pos.length then copyLoop rowptr vs (cur_pos.set v a)
      else .error .outOfBounds

/-- The filling loop (lines 94-100): `v = edges[k].first; u = edges[k].second;
p = cur_pos[v]++; colind[p] = u`. -/
def fillLoop (edges : List (Int × Int)) :
    List Nat → List Nat → List Int → Except LoadErr (List Int)
  | [], _, colind => .ok colind
  | k :: ks, cur_pos, colind =>
    match edges[k]? with
    | none => .error .outOfBounds
    | some (v, u) =>
      if 0 ≤ v then
        match cur_pos[v.toNat]? with
        | none => .error .outOfBounds
        | some p =>
          if p < colind.length then
            fillLoop edges ks (cur_pos.set v.toNat (p + 1)) (colind.set p u)
          else .error .outOfBounds
      else .error .outOfBounds

/-- Lines 68-102 of `load_mtx_as_csr` for the header value `n`, the edge vector and the
value `M` of `int M = edges.size()`: the arrays `rowptr` and `colind`. -/
def buildFrom (n : Int) (edges : List (Int × Int)) (M : Int) :
    Except LoadErr (List Nat × List Int) :=
  if n < 0 then .error .lengthError
  else
    match countLoop edges (forRange 0 M.toNat) (List.replicate n.toNat 0) with
    | .error e => .error e
    | .ok rowcount =>
      if wrap32 (n + 1) < 0 then .error .lengthError
      else
        match prefixLoop rowcount (forRange 0 n.toNat)
            ((List.replicate (wrap32 (n + 1)).toNat 0).set 0 0) with
        | .error e => .error e
        | .ok rowptr =>
          if M < 0 then .error .lengthError
          else
            match copyLoop rowptr (forRange 0 n.toNat) (List.replicate n.toNat 0) with
            | .error e => .error e
            | .ok cur_pos =>
              match fillLoop edges (forRange 0 M.toNat) cur_pos
                  (List.replicate M.toNat 0) with
              | .error e => .error e
              | .ok colind => .ok (rowptr, colind)

/-- Lines 52-102 of `load_mtx_as_csr` for the header values `n`, `nnz` and the pairs
read: `edges.reserve(2 * nnz)`, the reading loop, `int M = edges.size()`, and the
construction of the arrays `rowptr` and `colind` of the graph returned. -/
def buildArrays (n nnz : Int) (pairs : List (Int × Int)) :
    Except LoadErr (List Nat × List Int) :=
  if wrap32 (2 * nnz) < 0 then .error .lengthError
  else buildFrom n (pushEdges pairs) (wrap32 ((pushEdges pairs).length : Int))

/-- The graph built from the header values and the pairs read.  The entries of `colind`
are vertex ids whenever the graph is returned, so they are read as naturals. -/
def buildCSR (n nnz : Int) (pairs : List (Int × Int)) : Except LoadErr CSRGraph :=
  match buildArrays n nnz pairs with
  | .error e => .error e
  | .ok (rowptr, colind) => .ok ⟨n.toNat, rowptr, colind.map Int.toNat⟩

/-- The header values `nrows`, `ncols`, `nnz` after `ss >> nrows >> ncols >> nnz`
(lines 39-43); `garbage` holds the values of the three variables before the read. -/
def parseHeader (line : List Char) (garbage : Int × Int × Int) : Int × Int × Int :=
  let r1 := extractInt ⟨line, false⟩ garbage.1
  let r2 := extractInt r1.1 garbage.2.1
  let r3 := extractInt r2.1 garbage.2.2
  (r1.2, r2.2, r3.2)

/-- The function `load_mtx_as_csr`.  `file` is `none` when the file cannot be opened
and otherwise its content. -/
def load_mtx_as_csr (file : Option (List Char)) (garbage : Int × Int × Int) :
    Except LoadErr CSRGraph :=
  match file with
  | none => .error .cannotOpen
  | some content =>
    match findHeader (content.length + 1) content with
    | .error e => .error e
    | .ok (line, rest) =>
      let h := parseHeader line garbage
      if h.1 ≠ h.2.1 then .error .notSquare
      else buildCSR h.1 h.2.2 (readPairs (rest.length + 1) ⟨rest, false⟩)

/-! ## The `main` functions -/

/-- The C library call `atoi(s)`, that is `(int) strtol(s, nullptr, 10)`: skip leading
whitespace, read an optional sign and the decimal digits that follow (0 when there are
none), clamp to the range of `long` and convert to `int`. -/
def atoi (s : List Char) : Int :=
  match skipWs s with
  | [] => 0
  | c :: cs =>
    let body := if c = '-' ∨ c = '+' then cs else c :: cs
    let v : Int := ((readDigits 0 body).1 : Int)
    let signed : Int := if c = '-' then -v else v
    wrap32 (max (-9223372036854775808) (min signed 9223372036854775807))

/-- How a run of a driver ends: with the usage message and `return 1`; with the message
`num_threads must be > 0` and `return 1` (pthreads driver); inside the loader; inside
the engine (an out-of-range access, or the fuel of the model ran out); or with the label
array computed, the component count printed and `return 0`. -/
inductive MainResult where
  | usageError
  | badThreadCount
  | loadFailed (e : LoadErr)
  | engineFailed (e : Err)
  | finished (label : List Nat) (components : Nat)
  deriving DecidableEq, Repr

/-- The driver returned 1 from `main` itself, before the loader was called. -/
def MainResult.earlyReturn : MainResult → Bool
  | .usageError => true
  | .badThreadCount => true
  | _ => false

/-- The exit status of the process, when it ends with one: 1 for the two early returns
and for the `exit(1)` calls of the loader, 0 after a completed run. -/
def MainResult.exitCode : MainResult → Option Nat
  | .usageError => some 1
  | .badThreadCount => some 1
  | .loadFailed .cannotOpen => some 1
  | .loadFailed .fileEndedBeforeHeader => some 1
  | .loadFailed .notSquare => some 1
  | .loadFailed _ => none
  | .engineFailed _ => none
  | .finished _ _ => some 0

/-- The `main` of `cc_sequential.cpp`.  `argv` holds the `argc` argument strings, `fs`
maps a file name to the content of the file when it can be opened, `garbage` holds the
indeterminate initial values of the header variables. -/
def main_sequential (argv : List (List Char)) (fs : List Char → Option (List Char))
    (garbage : Int × Int × Int) (fuel : Nat) : MainResult :=
  if argv.length < 2 then .usageError
  else
    match load_mtx_as_csr (fs (argv.getD 1 [])) garbage with
    | .error e => .loadFailed e
    | .ok g =>
      match cc_sequential g [] fuel with
      | .error e => .engineFailed e
      | .ok (label, _) => .finished label (componentCount label)

/-- The `main` of `cc_pthreads.cpp`. -/
def main_pthreads (argv : List (List Char)) (fs : List Char → Option (List Char))
    (garbage : Int × Int × Int) (fuel : Nat) : MainResult :=
  if argv.length < 3 then .usageError
  else
    let num_threads := atoi (argv.getD 2 [])
    if num_threads ≤ 0 then .badThreadCount
    else
      match load_mtx_as_csr (fs (argv.getD 1 [])) garbage with
      | .error e => .loadFailed e
      | .ok g =>
        match cc_pthreads g [] num_threads fuel with
        | .error e => .engineFailed e
        | .ok (label, _) => .finished label (componentCount label)

/-- The `main` of `cc_openmp.cpp`.  The optional thread-count argument only selects the
size of the thread team, which the model sees through the visiting orders `init_order`
and `sched` of the parallel loops. -/
def main_openmp (argv : List (List Char)) (fs : List Char → Option (List Char))
    (garbage : Int × Int × Int) (init_order : CSRGraph → List Nat)
    (sched : CSRGraph → Nat → List Nat) (fuel : Nat) : MainResult :=
  if argv.length < 2 then .usageError
  else
    match load_mtx_as_csr (fs (argv.getD 1 [])) garbage with
    | .error e => .loadFailed e
    | .ok g =>
      match cc_openmp g [] (init_order g) (sched g) fuel with
      | .error e => .engineFailed e
      | .ok (label, _) => .finished label (componentCount label)

/-- The `main` of `cc_opencilk.cpp`. -/
def main_opencilk (argv : List (List Char)) (fs : List Char → Option (List Char))
    (garbage : Int × Int × Int) (init_order : CSRGraph → List Nat)
    (sched : CSRGraph → Nat → List Nat) (fuel : Nat) : MainResult :=
  if argv.length < 2 then .usageError
  else
    match load_mtx_as_csr (fs (argv.getD 1 [])) garbage with
    | .error e => .loadFailed e
    | .ok g =>
      match cc_opencilk g [] (init_order g) (sched g) fuel with
      | .error e => .engineFailed e
      | .ok (label, _) => .finished label (componentCount label)

/-! ## Data-model invariants and graph notions -/

/-- The slice `colind[rowptr[v] .. rowptr[v+1])`, the neighbours of `v` in stored order. -/
def nbrs (g : CSRGraph) (v : Nat) : List Nat :=
  (forRange (g.rowptr.getD v 0) (g.rowptr.getD (v + 1) 0)).map (fun e => g.colind.getD e 0)

/-- The structural invariants of the data model: `rowptr` has `n+1` entries, starts at
0, is non-decreasing, ends at the length of `colind`, and every `colind` entry is a
vertex. -/
def CSRGraph.Valid (g : CSRGraph) : Prop :=
  g.rowptr.length = g.n + 1 ∧ g.rowptr.getD 0 1 = 0 ∧
  (∀ v, v < g.n → g.rowptr.getD v 0 ≤ g.rowptr.getD (v + 1) 0) ∧
  g.rowptr.getD g.n 0 = g.colind.length ∧ ∀ u ∈ g.colind, u < g.n

instance (g : CSRGraph) : Decidable g.Valid := by
  unfold CSRGraph.Valid; infer_instance

/-- Edges are symmetrised: if `u` is stored as a neighbour of `v` then `v` is stored as
a neighbour of `u`. -/
def CSRGraph.Symmetric (g : CSRGraph) : Prop :=
  ∀ v, v < g.n → ∀ u ∈ nbrs g v, v ∈ nbrs g u

instance (g : CSRGraph) : Decidable g.Symmetric := by
  unfold CSRGraph.Symmetric; infer_instance

/-- There is an edge from vertex `v` to `u`. -/
def Adj (g : CSRGraph) (v u : Nat) : Prop := v < g.n ∧ u ∈ nbrs g v

/-- The vertices `v` and `w` are joined by a path (possibly of length 0). -/
def Connected (g : CSRGraph) (v w : Nat) : Prop := Relation.ReflTransGen (Adj g) v w

/-- The label array is converged: no vertex has a neighbour with a smaller label. -/
def Converged (g : CSRGraph) (label : List Nat) : Prop :=
  ∀ v, v < g.n → ∀ u ∈ nbrs g v, label.getD v 0 ≤ label.getD u 0

instance (g : CSRGraph) (label : List Nat) : Decidable (Converged g label) := by
  unfold Converged; infer_instance

/-- The empty graph: `n = 0`, `rowptr = [0]`, `colind = []`. -/
def emptyGraph : CSRGraph := ⟨0, [0], []⟩

/-- A single isolated vertex. -/
def singleVertex : CSRGraph := ⟨1, [0, 0], []⟩

/-- The path 0-1-2-3. -/
def pathGraph : CSRGraph := ⟨4, [0, 1, 3, 5, 6], [1, 0, 2, 1, 3, 2]⟩

/-- Two disjoint triangles 0-1-2 and 3-4-5. -/
def twoTriangles : CSRGraph :=
  ⟨6, [0, 2, 4, 6, 8, 10, 12], [1, 2, 0, 2, 0, 1, 4, 5, 3, 5, 3, 4]⟩

/-! ## The pure reading of one pass -/

/-- One comparison of the neighbour scan. -/
def minStep (label : List Nat) (b u : Nat) : Nat :=
  if label.getD u 0 < b then label.getD u 0 else b

/-- The value written for vertex `v` by a pass that reads `label`. -/
def bestOf (g : CSRGraph) (label : List Nat) (v : Nat) : Nat :=
  (nbrs g v).foldl (minStep label) (label.getD v 0)

/-- The buffer produced by a full pass that reads `label`. -/
def stepL (g : CSRGraph) (label : List Nat) : List Nat :=
  (List.range g.n).map (bestOf g label)

theorem readAt_of_lt (a : List Nat) (i : Nat) (h : i < a.length) :
    readAt a i = .ok (a.getD i 0) := by
  simp [readAt, List.getElem?_eq_getElem h, List.getD_eq_getElem a 0 h]

theorem writeAt_of_lt (a : List Nat) (i x : Nat) (h : i < a.length) :
    writeAt a i x = .ok (a.set i x) := by
  simp [writeAt, h]

theorem mem_forRange {lo hi e : Nat} : e ∈ forRange lo hi ↔ lo ≤ e ∧ e < hi := by
  simp only [forRange, List.mem_range'_1]; omega

theorem forRange_zero (n : Nat) : forRange 0 n = List.range n := by
  simp [forRange, List.range_eq_range']

theorem scanNeighbors_eq (g : CSRGraph) (label : List Nat) (es : List Nat) (best : Nat)
    (hes : ∀ e ∈ es, e < g.colind.length) (hcol : ∀ u ∈ g.colind, u < label.length) :
    scanNeighbors g label es best =
      .ok ((es.map (fun e => g.colind.getD e 0)).foldl (minStep label) best) := by
  induction es generalizing best with
  | nil => rfl
  | cons e es ih =>
    have he : e < g.colind.length := hes e (List.mem_cons_self _ _)
    have hu : g.colind.getD e 0 < label.length := by
      apply hcol; rw [List.getD_eq_getElem _ _ he]; exact List.getElem_mem _
    simp only [scanNeighbors, readAt_of_lt _ _ he, readAt_of_lt _ _ hu, List.map_cons,
      List.foldl_cons]
    rw [ih _ (fun e1 h1 => hes e1 (List.mem_cons_of_mem _ h1))]
    rfl

theorem workerScan_eq_scanNeighbors (g : CSRGraph) (label : List Nat) (es : List Nat)
    (best : Nat) : workerScan g label es best = scanNeighbors g label es best := by
  induction es generalizing best with
  | nil => rfl
  | cons e es ih =>
    simp only [workerScan, scanNeighbors]
    cases readAt g.colind e with
    | error err => rfl
    | ok u =>
      dsimp only
      cases readAt label u with
      | error err => rfl
      | ok lu => exact ih _

/-- Monotonicity of `rowptr` between two positions. -/
theorem valid_rowptr_mono {g : CSRGraph} (hg : g.Valid) {a b : Nat} (hab : a ≤ b)
    (hb : b ≤ g.n) : g.rowptr.getD a 0 ≤ g.rowptr.getD b 0 := by
  induction b with
  | zero => have : a = 0 := by omega
            subst this; exact le_refl _
  | succ b ih =>
    rcases Nat.eq_or_lt_of_le hab with h | h
    · subst h; exact le_refl _
    · exact le_trans (ih (by omega) (by omega)) (hg.2.2.1 b (by omega))

theorem valid_row_end_le {g : CSRGraph} (hg : g.Valid) {v : Nat} (hv : v < g.n) :
    g.rowptr.getD (v + 1) 0 ≤ g.colind.length := by
  rw [← hg.2.2.2.1]; exact valid_rowptr_mono hg (by omega) (le_refl _)

theorem valid_nbr_lt {g : CSRGraph} (hg : g.Valid) {v u : Nat} (hv : v < g.n)
    (hu : u ∈ nbrs g v) : u < g.n := by
  simp only [nbrs, List.mem_map, mem_forRange] at hu
  obtain ⟨e, ⟨_, he⟩, rfl⟩ := hu
  have hlt : e < g.colind.length := lt_of_lt_of_le he (valid_row_end_le hg hv)
  apply hg.2.2.2.2
  rw [List.getD_eq_getElem _ _ hlt]; exact List.getElem_mem _

theorem updateVertex_eq (g : CSRGraph) (hg : g.Valid) (label new_label : List Nat)
    (hl : label.length = g.n) (hnl : new_label.length = g.n) (v : Nat) (hv : v < g.n) :
    updateVertex g label new_label v =
      .ok (new_label.set v (bestOf g label v), bestOf g label v != label.getD v 0) := by
  have h1 : v < label.length := by omega
  have h2 : v < g.rowptr.length := by rw [hg.1]; omega
  have h3 : v + 1 < g.rowptr.length := by rw [hg.1]; omega
  have h4 : v < new_label.length := by omega
  have hes : ∀ e ∈ forRange (g.rowptr.getD v 0) (g.rowptr.getD (v + 1) 0),
      e < g.colind.length := by
    intro e he
    exact lt_of_lt_of_le (mem_forRange.1 he).2 (valid_row_end_le hg hv)
  have hcol : ∀ u ∈ g.colind, u < label.length := by
    intro u hu; rw [hl]; exact hg.2.2.2.2 u hu
  simp only [updateVertex, readAt_of_lt _ _ h1, readAt_of_lt _ _ h2, readAt_of_lt _ _ h3,
    scanNeighbors_eq g label _ _ hes hcol, writeAt_of_lt _ _ _ h4]
  rfl

/-- The buffer after the writes `buf[v] = f v` for the vertices of a list, in order. -/
def writeAll (f : Nat → Nat) : List Nat → List Nat → List Nat
  | [], buf => buf
  | v :: vs, buf => writeAll f vs (buf.set v (f v))

theorem writeAll_length (f : Nat → Nat) (vs buf : List Nat) :
    (writeAll f vs buf).length = buf.length := by
  induction vs generalizing buf with
  | nil => rfl
  | cons v vs ih => simp [writeAll, ih]

theorem writeAll_getElem? (f : Nat → Nat) (vs buf : List Nat) (i : Nat)
    (hi : i < buf.length) :
    (writeAll f vs buf)[i]? = if i ∈ vs then some (f i) else buf[i]? := by
  induction vs generalizing buf with
  | nil => simp [writeAll]
  | cons v vs ih =>
    have hi2 : i < (buf.set v (f v)).length := by simpa using hi
    rw [writeAll, ih _ hi2]
    by_cases hmem : i ∈ vs
    · simp [hmem]
    · by_cases hv : v = i
      · subst hv; simp [hmem, List.getElem?_set, hi]
      · have hne : i ≠ v := fun h => hv h.symm
        simp [hmem, List.getElem?_set_ne hv, hne]

theorem writeAll_full (f : Nat → Nat) (vs buf : List Nat) (n : Nat) (hbuf : buf.length = n)
    (hcover : ∀ i, i < n → i ∈ vs) : writeAll f vs buf = (List.range n).map f := by
  apply List.ext_getElem?
  intro i
  by_cases hi : i < n
  · rw [writeAll_getElem? f vs buf i (by omega), if_pos (hcover i hi)]
    simp [List.getElem?_range hi]
  · have h1 : (writeAll f vs buf).length ≤ i := by rw [writeAll_length]; omega
    have h2 : ((List.range n).map f).length ≤ i := by simp; omega
    rw [List.getElem?_eq_none h1, List.getElem?_eq_none h2]

theorem passOver_eq (g : CSRGraph) (hg : g.Valid) (label : List Nat)
    (hl : label.length = g.n) (vs new_label : List Nat) (changed : Bool)
    (hnl : new_label.length = g.n) (hvs : ∀ v ∈ vs, v < g.n) :
    passOver g label vs new_label changed =
      .ok (writeAll (bestOf g label) vs new_label,
        changed || vs.any (fun v => bestOf g label v != label.getD v 0)) := by
  induction vs generalizing new_label changed with
  | nil => simp [passOver, writeAll]
  | cons v vs ih =>
    have hv : v < g.n := hvs v (List.mem_cons_self _ _)
    simp only [passOver, updateVertex_eq g hg label new_label hl hnl v hv]
    rw [ih _ _ (by simpa using hnl) (fun u hu => hvs u (List.mem_cons_of_mem _ hu))]
    simp [writeAll, Bool.or_assoc]

theorem stepL_length (g : CSRGraph) (label : List Nat) : (stepL g label).length = g.n := by
  simp [stepL]

theorem stepL_getD (g : CSRGraph) (label : List Nat) (v : Nat) (hv : v < g.n) :
    (stepL g label).getD v 0 = bestOf g label v := by
  simp [stepL, List.getElem?_range hv]

theorem stepL_ne_iff (g : CSRGraph) (label : List Nat) (hl : label.length = g.n) :
    stepL g label ≠ label ↔ ∃ v, v < g.n ∧ bestOf g label v ≠ label.getD v 0 := by
  constructor
  · intro hne
    by_contra hcon
    push_neg at hcon
    apply hne
    apply List.ext_getElem?
    intro i
    by_cases hi : i < g.n
    · have h1 := hcon i hi
      have h2 : i < label.length := by omega
      simp only [stepL, List.getElem?_map, List.getElem?_range hi, Option.map_some']
      rw [h1, List.getD_eq_getElem _ _ h2, List.getElem?_eq_getElem h2]
    · rw [List.getElem?_eq_none (by rw [stepL_length]; omega),
        List.getElem?_eq_none (by omega)]
  · rintro ⟨v, hv, hne⟩ heq
    apply hne
    rw [← stepL_getD g label v hv, heq]

/-- A full pass in any order that covers exactly the vertices computes `stepL` and
reports whether the buffer changed. -/
theorem passOver_full (g : CSRGraph) (hg : g.Valid) (label new_label vs : List Nat)
    (hl : label.length = g.n) (hnl : new_label.length = g.n)
    (hvs : ∀ v, v ∈ vs ↔ v < g.n) :
    passOver g label vs new_label false =
      .ok (stepL g label, decide (stepL g label ≠ label)) := by
  rw [passOver_eq g hg label hl vs new_label false hnl (fun v hv => (hvs v).1 hv)]
  rw [writeAll_full (bestOf g label) vs new_label g.n hnl (fun i hi => (hvs i).2 hi)]
  congr 2
  rw [Bool.false_or]
  apply Bool.eq_iff_iff.2
  rw [List.any_eq_true, decide_eq_true_iff, stepL_ne_iff g label hl]
  constructor
  · rintro ⟨v, hv, hne⟩
    exact ⟨v, (hvs v).1 hv, by simpa using hne⟩
  · rintro ⟨v, hv, hne⟩
    exact ⟨v, (hvs v).2 hv, by simpa using hne⟩

theorem vecResize_length (a : List Nat) (n : Nat) : (vecResize a n).length = n := by
  simp [vecResize]; omega

theorem vecNew_length (n : Nat) : (vecNew n).length = n := by simp [vecNew]

theorem initLabels_eq (vs buf : List Nat) (hvs : ∀ v ∈ vs, v < buf.length) :
    initLabels vs buf = .ok (writeAll id vs buf) := by
  induction vs generalizing buf with
  | nil => rfl
  | cons v vs ih =>
    have hv : v < buf.length := hvs v (List.mem_cons_self _ _)
    simp only [initLabels, writeAt_of_lt _ _ _ hv]
    rw [ih _ (fun u hu => by simpa using hvs u (List.mem_cons_of_mem _ hu))]
    rfl

/-- The initialisation loop, in any order that covers exactly the vertices, leaves the
identity labelling. -/
theorem initLabels_full (vs label : List Nat) (n : Nat) (hvs : ∀ v, v ∈ vs ↔ v < n) :
    initLabels vs (vecResize label n) = .ok (List.range n) := by
  rw [initLabels_eq _ _ (fun v hv => by rw [vecResize_length]; exact (hvs v).1 hv)]
  rw [writeAll_full id vs _ n (vecResize_length _ _) (fun i hi => (hvs i).2 hi)]
  simp

/-- The labels after `k` full passes from the identity labelling. -/
def labelsAfter (g : CSRGraph) (k : Nat) : List Nat := (stepL g)^[k] (List.range g.n)

theorem iterate_stepL_length (g : CSRGraph) (k : Nat) (l : List Nat) (hl : l.length = g.n) :
    ((stepL g)^[k] l).length = g.n := by
  induction k generalizing l with
  | zero => simpa using hl
  | succ k ih => rw [Function.iterate_succ_apply]; exact ih _ (stepL_length g l)

theorem labelsAfter_length (g : CSRGraph) (k : Nat) : (labelsAfter g k).length = g.n :=
  iterate_stepL_length g k _ (by simp)

theorem labelsAfter_succ (g : CSRGraph) (k : Nat) :
    labelsAfter g (k + 1) = stepL g (labelsAfter g k) := by
  simp [labelsAfter, Function.iterate_succ_apply']

/-- A pass function that behaves as the pure pass on buffers of the right size. -/
def PurePass (g : CSRGraph)
    (pass : Nat → List Nat → List Nat → Except Err (List Nat × Bool)) : Prop :=
  ∀ k l nl, l.length = g.n → nl.length = g.n →
    pass k l nl = .ok (stepL g l, decide (stepL g l ≠ l))

/-- The loop stops at the first pass that changes nothing: if position `j` is the first
at which a further pass leaves the labels unchanged and the fuel exceeds `j`, the loop
returns the labels of position `j` after `j + 1` passes. -/
theorem convergenceLoop_first_stable (g : CSRGraph)
    (pass : Nat → List Nat → List Nat → Except Err (List Nat × Bool))
    (hpass : PurePass g pass) (j : Nat) :
    ∀ (fuel k : Nat) (l nl : List Nat), l.length = g.n → nl.length = g.n → j < fuel →
      stepL g ((stepL g)^[j] l) = (stepL g)^[j] l →
      (∀ i, i < j → stepL g ((stepL g)^[i] l) ≠ (stepL g)^[i] l) →
      convergenceLoop pass fuel k l nl = .ok ((stepL g)^[j] l, k + j + 1) := by
  induction j with
  | zero =>
    intro fuel k l nl hl hnl hf hst _
    obtain ⟨f, rfl⟩ : ∃ f, fuel = f + 1 := ⟨fuel - 1, by omega⟩
    have hfix : stepL g l = l := by simpa using hst
    simp [convergenceLoop, hpass k l nl hl hnl, hfix]
  | succ j ih =>
    intro fuel k l nl hl hnl hf hst hmin
    obtain ⟨f, rfl⟩ : ∃ f, fuel = f + 1 := ⟨fuel - 1, by omega⟩
    have hfix : stepL g l ≠ l := by simpa using hmin 0 (by omega)
    have hrun := ih f (k + 1) (stepL g l) l (stepL_length g l) hl (by omega)
      (by simpa [Function.iterate_succ_apply] using hst)
      (fun i hi => by simpa [Function.iterate_succ_apply] using hmin (i + 1) (by omega))
    simp only [convergenceLoop, hpass k l nl hl hnl]
    simp only [hfix, ne_eq, not_false_eq_true, decide_True, if_true]
    rw [hrun, Function.iterate_succ_apply]
    congr 2
    omega

/-! ## Properties of the value written for a vertex -/

theorem foldl_minStep_le_init (label us : List Nat) (b : Nat) :
    us.foldl (minStep label) b ≤ b := by
  induction us generalizing b with
  | nil => exact le_refl _
  | cons u us ih =>
    rw [List.foldl_cons]
    refine le_trans (ih _) ?_
    unfold minStep; split <;> omega

theorem foldl_minStep_le_mem (label us : List Nat) (b u : Nat) (hu : u ∈ us) :
    us.foldl (minStep label) b ≤ label.getD u 0 := by
  induction us generalizing b with
  | nil => cases hu
  | cons w us ih =>
    rw [List.foldl_cons]
    rcases List.mem_cons.1 hu with rfl | h
    · refine le_trans (foldl_minStep_le_init _ _ _) ?_
      unfold minStep; split <;> omega
    · exact ih _ h

theorem foldl_minStep_mem (label us : List Nat) (b : Nat) :
    us.foldl (minStep label) b = b ∨ ∃ u ∈ us, us.foldl (minStep label) b = label.getD u 0 := by
  induction us generalizing b with
  | nil => exact Or.inl rfl
  | cons w us ih =>
    rw [List.foldl_cons]
    rcases ih (minStep label b w) with h | ⟨u, hu, h⟩
    · rw [h]
      unfold minStep
      split
      · exact Or.inr ⟨w, List.mem_cons_self _ _, rfl⟩
      · exact Or.inl rfl
    · exact Or.inr ⟨u, List.mem_cons_of_mem _ hu, h⟩

theorem bestOf_le_self (g : CSRGraph) (label : List Nat) (v : Nat) :
    bestOf g label v ≤ label.getD v 0 :=
  foldl_minStep_le_init _ _ _

theorem bestOf_le_nbr (g : CSRGraph) (label : List Nat) (v u : Nat) (hu : u ∈ nbrs g v) :
    bestOf g label v ≤ label.getD u 0 :=
  foldl_minStep_le_mem _ _ _ _ hu

theorem bestOf_mem (g : CSRGraph) (label : List Nat) (v : Nat) :
    bestOf g label v = label.getD v 0 ∨
      ∃ u ∈ nbrs g v, bestOf g label v = label.getD u 0 :=
  foldl_minStep_mem _ _ _

/-! ## Walks of bounded length -/

/-- The vertex `w` is reached from `v` by a walk of at most `k` edges. -/
inductive Within (g : CSRGraph) : Nat → Nat → Nat → Prop
  | refl (k v : Nat) : Within g k v v
  | step {k v u w : Nat} : Adj g v u → Within g k u w → Within g (k + 1) v w

theorem within_succ {g : CSRGraph} {k v w : Nat} (h : Within g k v w) :
    Within g (k + 1) v w := by
  induction h with
  | refl k v => exact Within.refl _ _
  | step hadj _ ih => exact Within.step hadj ih

theorem within_mono {g : CSRGraph} {k m v w : Nat} (hkm : k ≤ m) (h : Within g k v w) :
    Within g m v w := by
  induction hkm with
  | refl => exact h
  | step _ ih => exact within_succ ih

theorem within_zero {g : CSRGraph} {v w : Nat} (h : Within g 0 v w) : w = v := by
  cases h; rfl

theorem within_lt {g : CSRGraph} (hg : g.Valid) {k v w : Nat} (h : Within g k v w)
    (hv : v < g.n) : w < g.n := by
  induction h with
  | refl k v => exact hv
  | step hadj _ ih => exact ih (valid_nbr_lt hg hadj.1 hadj.2)

theorem within_snoc {g : CSRGraph} {k v x w : Nat} (h : Within g k v x) (hadj : Adj g x w) :
    Within g (k + 1) v w := by
  induction h with
  | refl k v => exact Within.step hadj (Within.refl _ _)
  | step h1 _ ih => exact Within.step h1 (ih hadj)

theorem within_unsnoc {g : CSRGraph} (k : Nat) :
    ∀ {v w : Nat}, Within g (k + 1) v w →
      Within g k v w ∨ ∃ x, Within g k v x ∧ Adj g x w := by
  induction k with
  | zero =>
    intro v w h
    cases h with
    | refl => exact Or.inl (Within.refl _ _)
    | step hadj h2 =>
      have := within_zero h2
      subst this
      exact Or.inr ⟨v, Within.refl _ _, hadj⟩
  | succ k ih =>
    intro v w h
    cases h with
    | refl => exact Or.inl (Within.refl _ _)
    | step hadj h2 =>
      rcases ih h2 with h3 | ⟨x, h3, h4⟩
      · exact Or.inl (Within.step hadj h3)
      · exact Or.inr ⟨x, Within.step hadj h3, h4⟩

theorem connected_of_within {g : CSRGraph} {k v w : Nat} (h : Within g k v w) :
    Connected g v w := by
  induction h with
  | refl k v => exact Relation.ReflTransGen.refl
  | step hadj _ ih => exact Relation.ReflTransGen.head hadj ih

theorem within_of_connected {g : CSRGraph} {v w : Nat} (h : Connected g v w) :
    ∃ k, Within g k v w := by
  induction h using Relation.ReflTransGen.head_induction_on with
  | refl => exact ⟨0, Within.refl _ _⟩
  | head hadj _ ih =>
    obtain ⟨k, hk⟩ := ih
    exact ⟨k + 1, Within.step hadj hk⟩

/-- Once the ball around `v` stops growing it never grows again. -/
theorem within_stable {g : CSRGraph} {v j : Nat}
    (hst : ∀ w, Within g (j + 1) v w → Within g j v w) :
    ∀ m w, Within g m v w → Within g j v w := by
  intro m
  induction m with
  | zero => intro w h; exact within_mono (Nat.zero_le _) h
  | succ m ih =>
    intro w h
    rcases within_unsnoc m h with h1 | ⟨x, h1, hadj⟩
    · exact ih w h1
    · exact hst w (within_snoc (ih x h1) hadj)

open Classical in
/-- Either the ball around `v` has stopped growing before radius `k`, or it has more
than `k` vertices. -/
theorem within_grow {g : CSRGraph} (hg : g.Valid) {v : Nat} (hv : v < g.n) (k : Nat) :
    (∃ j, j < k ∧ ∀ w, Within g (j + 1) v w → Within g j v w) ∨
      k + 1 ≤ ((Finset.range g.n).filter (fun w => Within g k v w)).card := by
  induction k with
  | zero =>
    right
    apply Finset.card_pos.2
    exact ⟨v, by simp [hv, Within.refl]⟩
  | succ k ih =>
    rcases ih with ⟨j, hj, hst⟩ | hcard
    · exact Or.inl ⟨j, by omega, hst⟩
    · by_cases hst : ∀ w, Within g (k + 1) v w → Within g k v w
      · exact Or.inl ⟨k, by omega, hst⟩
      · right
        push_neg at hst
        obtain ⟨w, hw1, hw2⟩ := hst
        have hss : (Finset.range g.n).filter (fun w => Within g k v w) ⊂
            (Finset.range g.n).filter (fun w => Within g (k + 1) v w) := by
          rw [Finset.ssubset_iff_of_subset]
          · exact ⟨w, by simp [hw1, within_lt hg hw1 hv], by simp [hw2]⟩
          · intro x hx
            simp only [Finset.mem_filter] at hx ⊢
            exact ⟨hx.1, within_succ hx.2⟩
        have := Finset.card_lt_card hss
        omega

/-- Every vertex reached from `v` is reached by a walk of at most `n - 1` edges. -/
theorem within_bound {g : CSRGraph} (hg : g.Valid) {v w m : Nat} (hv : v < g.n)
    (h : Within g m v w) : Within g (g.n - 1) v w := by
  classical
  rcases within_grow hg hv g.n with ⟨j, hj, hst⟩ | hcard
  · exact within_mono (by omega) (within_stable hst m w h)
  · have hle : ((Finset.range g.n).filter (fun w => Within g g.n v w)).card ≤ g.n := by
      calc _ ≤ (Finset.range g.n).card := Finset.card_filter_le _ _
        _ = g.n := Finset.card_range _
    omega

/-! ## Labels after `k` passes -/

theorem list_eq_of_getD {l1 l2 : List Nat} {n : Nat} (h1 : l1.length = n) (h2 : l2.length = n)
    (h : ∀ i, i < n → l1.getD i 0 = l2.getD i 0) : l1 = l2 := by
  apply List.ext_getElem?
  intro i
  by_cases hi : i < n
  · have hi1 : i < l1.length := by omega
    have hi2 : i < l2.length := by omega
    have := h i hi
    rw [List.getD_eq_getElem _ _ hi1, List.getD_eq_getElem _ _ hi2] at this
    rw [List.getElem?_eq_getElem hi1, List.getElem?_eq_getElem hi2, this]
  · have hi1 : l1.length ≤ i := by omega
    have hi2 : l2.length ≤ i := by omega
    rw [List.getElem?_eq_none hi1, List.getElem?_eq_none hi2]

theorem getElem?_eq_some_getD {l : List Nat} {i : Nat} (hi : i < l.length) :
    l[i]? = some (l.getD i 0) := by
  rw [List.getD_eq_getElem _ _ hi, List.getElem?_eq_getElem hi]

theorem labelsAfter_zero_getD (g : CSRGraph) (v : Nat) (hv : v < g.n) :
    (labelsAfter g 0).getD v 0 = v := by
  simp [labelsAfter, List.getElem?_range hv]

theorem labelsAfter_succ_getD (g : CSRGraph) (k v : Nat) (hv : v < g.n) :
    (labelsAfter g (k + 1)).getD v 0 = bestOf g (labelsAfter g k) v := by
  rw [labelsAfter_succ, stepL_getD g _ v hv]

/-- After `k` passes the label of `v` is the least vertex id within `k` edges of `v`. -/
theorem labelsAfter_within {g : CSRGraph} (hg : g.Valid) (k : Nat) :
    ∀ v, v < g.n → Within g k v ((labelsAfter g k).getD v 0) ∧
      ∀ w, Within g k v w → (labelsAfter g k).getD v 0 ≤ w := by
  induction k with
  | zero =>
    intro v hv
    rw [labelsAfter_zero_getD g v hv]
    exact ⟨Within.refl _ _, fun w hw => le_of_eq (within_zero hw).symm⟩
  | succ k ih =>
    intro v hv
    rw [labelsAfter_succ_getD g k v hv]
    constructor
    · rcases bestOf_mem g (labelsAfter g k) v with h | ⟨u, hu, h⟩
      · rw [h]; exact within_succ (ih v hv).1
      · rw [h]; exact Within.step ⟨hv, hu⟩ (ih u (valid_nbr_lt hg hv hu)).1
    · intro w hw
      cases hw with
      | refl =>
        exact le_trans (bestOf_le_self g _ v) ((ih v hv).2 v (Within.refl _ _))
      | step hadj h2 =>
        exact le_trans (bestOf_le_nbr g _ v _ hadj.2)
          ((ih _ (valid_nbr_lt hg hv hadj.2)).2 w h2)

/-- Labels never increase from one pass to the next. -/
theorem labelsAfter_antitone (g : CSRGraph) (k v : Nat) (hv : v < g.n) :
    (labelsAfter g (k + 1)).getD v 0 ≤ (labelsAfter g k).getD v 0 := by
  rw [labelsAfter_succ_getD g k v hv]; exact bestOf_le_self g _ v

/-- The labels are stable from pass `n - 1` on. -/
theorem labelsAfter_stable {g : CSRGraph} (hg : g.Valid) :
    stepL g (labelsAfter g (g.n - 1)) = labelsAfter g (g.n - 1) := by
  rw [← labelsAfter_succ]
  apply list_eq_of_getD (labelsAfter_length g _) (labelsAfter_length g _)
  intro v hv
  apply le_antisymm (labelsAfter_antitone g _ v hv)
  have h1 := (labelsAfter_within hg (g.n - 1 + 1) v hv).1
  exact (labelsAfter_within hg (g.n - 1) v hv).2 _ (within_bound hg hv h1)

/-- The first position at which a further pass changes nothing exists and is at most
`n - 1`. -/
theorem exists_first_stable {g : CSRGraph} (hg : g.Valid) :
    ∃ j, j ≤ g.n - 1 ∧ stepL g (labelsAfter g j) = labelsAfter g j ∧
      ∀ i, i < j → stepL g (labelsAfter g i) ≠ labelsAfter g i := by
  classical
  have hex : ∃ j, stepL g (labelsAfter g j) = labelsAfter g j := ⟨_, labelsAfter_stable hg⟩
  exact ⟨Nat.find hex, Nat.find_min' hex (labelsAfter_stable hg), Nat.find_spec hex,
    fun i hi => Nat.find_min hex hi⟩

/-- Specification of the convergence loop started on the identity labelling, for any
body that behaves as the pure pass. -/
theorem convergenceLoop_spec {g : CSRGraph} (hg : g.Valid)
    (pass : Nat → List Nat → List Nat → Except Err (List Nat × Bool))
    (hpass : PurePass g pass) :
    ∃ j, j ≤ g.n - 1 ∧ stepL g (labelsAfter g j) = labelsAfter g j ∧
      (∀ i, i < j → stepL g (labelsAfter g i) ≠ labelsAfter g i) ∧
      ∀ fuel nl, nl.length = g.n → j < fuel →
        convergenceLoop pass fuel 0 (List.range g.n) nl = .ok (labelsAfter g j, j + 1) := by
  obtain ⟨j, hj, hfix, hmin⟩ := exists_first_stable hg
  refine ⟨j, hj, hfix, hmin, ?_⟩
  intro fuel nl hnl hf
  have := convergenceLoop_first_stable g pass hpass j fuel 0 (List.range g.n) nl (by simp)
    hnl hf hfix hmin
  simpa [labelsAfter] using this

/-! ## Converged labels -/

theorem converged_of_fixed {g : CSRGraph} {label : List Nat}
    (hfix : stepL g label = label) : Converged g label := by
  intro v hv u hu
  have h := stepL_getD g label v hv
  rw [hfix] at h
  rw [h]
  exact bestOf_le_nbr g label v u hu

theorem fixed_of_converged {g : CSRGraph} {label : List Nat} (hl : label.length = g.n)
    (hc : Converged g label) : stepL g label = label := by
  apply list_eq_of_getD (stepL_length g label) hl
  intro v hv
  rw [stepL_getD g label v hv]
  apply le_antisymm (bestOf_le_self g label v)
  rcases bestOf_mem g label v with h | ⟨u, hu, h⟩
  · exact le_of_eq h.symm
  · rw [h]; exact hc v hv u hu

theorem converged_le_of_connected {g : CSRGraph} {label : List Nat}
    (hc : Converged g label) {v w : Nat} (h : Connected g v w) :
    label.getD v 0 ≤ label.getD w 0 := by
  induction h using Relation.ReflTransGen.head_induction_on with
  | refl => exact le_refl _
  | head hadj _ ih => exact le_trans (hc _ hadj.1 _ hadj.2) ih

theorem connected_lt {g : CSRGraph} (hg : g.Valid) {v w : Nat} (h : Connected g v w)
    (hv : v < g.n) : w < g.n := by
  obtain ⟨k, hk⟩ := within_of_connected h
  exact within_lt hg hk hv

/-- A stable labelling reached from the identity gives every vertex the least vertex
id reachable from it. -/
theorem stable_labels_min {g : CSRGraph} (hg : g.Valid) {j : Nat}
    (hfix : stepL g (labelsAfter g j) = labelsAfter g j) {v : Nat} (hv : v < g.n) :
    Connected g v ((labelsAfter g j).getD v 0) ∧
      ∀ w, Connected g v w → (labelsAfter g j).getD v 0 ≤ w := by
  refine ⟨connected_of_within (labelsAfter_within hg j v hv).1, ?_⟩
  intro w hw
  have hwn := connected_lt hg hw hv
  exact le_trans (converged_le_of_connected (converged_of_fixed hfix) hw)
    ((labelsAfter_within hg j w hwn).2 w (Within.refl _ _))

theorem adj_symm {g : CSRGraph} (hg : g.Valid) (hs : g.Symmetric) {v u : Nat}
    (h : Adj g v u) : Adj g u v :=
  ⟨valid_nbr_lt hg h.1 h.2, hs v h.1 u h.2⟩

theorem connected_symm {g : CSRGraph} (hg : g.Valid) (hs : g.Symmetric) {v w : Nat}
    (h : Connected g v w) : Connected g w v :=
  Relation.ReflTransGen.symmetric (fun _ _ hab => adj_symm hg hs hab) h

/-- On a symmetric graph a stable labelling reached from the identity identifies
exactly the connected vertices. -/
theorem stable_labels_eq_iff {g : CSRGraph} (hg : g.Valid) (hs : g.Symmetric) {j : Nat}
    (hfix : stepL g (labelsAfter g j) = labelsAfter g j) {u v : Nat} (hu : u < g.n)
    (hv : v < g.n) :
    (labelsAfter g j).getD u 0 = (labelsAfter g j).getD v 0 ↔ Connected g u v := by
  have hmu := stable_labels_min hg hfix hu
  have hmv := stable_labels_min hg hfix hv
  constructor
  · intro heq
    have h1 := hmu.1
    rw [heq] at h1
    exact Relation.ReflTransGen.trans h1 (connected_symm hg hs hmv.1)
  · intro hc
    apply le_antisymm
    · exact hmu.2 _ (Relation.ReflTransGen.trans hc hmv.1)
    · exact hmv.2 _ (Relation.ReflTransGen.trans (connected_symm hg hs hc) hmu.1)

/-! ## The drivers in terms of the pure pass -/

theorem purePass_sequential {g : CSRGraph} (hg : g.Valid) :
    PurePass g (fun _ l nl => passOver g l (forRange 0 g.n) nl false) := by
  intro k l nl hl hnl
  exact passOver_full g hg l nl _ hl hnl (fun v => by simp [mem_forRange])

theorem purePass_schedule {g : CSRGraph} (hg : g.Valid) (sched : Nat → List Nat)
    (hsched : ∀ k, (sched k).Perm (List.range g.n)) :
    PurePass g (fun k l nl => passOver g l (sched k) nl false) := by
  intro k l nl hl hnl
  exact passOver_full g hg l nl _ hl hnl (fun v => by simp [(hsched k).mem_iff])

theorem cc_sequential_eq (g : CSRGraph) (label : List Nat) (fuel : Nat) :
    cc_sequential g label fuel =
      convergenceLoop (fun _ l nl => passOver g l (forRange 0 g.n) nl false)
        fuel 0 (List.range g.n) (vecNew g.n) := by
  simp [cc_sequential, initLabels_full (forRange 0 g.n) label g.n
    (fun v => by simp [mem_forRange])]

/-! ## The chunked worker pool -/

theorem workerLoop_eq_passOver (g : CSRGraph) (label : List Nat) (vs new_label : List Nat)
    (changed : Bool) :
    workerLoop g label vs new_label changed = passOver g label vs new_label changed := by
  induction vs generalizing new_label changed with
  | nil => rfl
  | cons v vs ih =>
    simp only [workerLoop, passOver, updateVertex, workerScan_eq_scanNeighbors]
    cases readAt label v with
    | error e => rfl
    | ok lv0 =>
      dsimp only
      cases readAt g.rowptr v with
      | error e => rfl
      | ok lo =>
        dsimp only
        cases readAt g.rowptr (v + 1) with
        | error e => rfl
        | ok hi =>
          dsimp only
          cases scanNeighbors g label (forRange lo hi) lv0 with
          | error e => rfl
          | ok best =>
            dsimp only
            cases writeAt new_label v best with
            | error e => rfl
            | ok nl1 =>
              dsimp only
              rw [ih]
              congr 1
              cases changed <;> cases (best != lv0) <;> rfl

theorem writeAll_append (f : Nat → Nat) (as bs buf : List Nat) :
    writeAll f (as ++ bs) buf = writeAll f bs (writeAll f as buf) := by
  induction as generalizing buf with
  | nil => rfl
  | cons a as ih => simp [writeAll, ih]

/-- The vertex range of thread `t` for chunk size `c`, clamped to `n`. -/
def chunkRange (n c t : Nat) : List Nat := forRange (min (t * c) n) (min (t * c + c) n)

theorem wrap32_natCast (m : Nat) (hm : m < 2147483648) : wrap32 (m : Int) = (m : Int) := by
  unfold wrap32; omega

theorem spawnJoin_eq (g : CSRGraph) (hg : g.Valid) (label : List Nat)
    (hl : label.length = g.n) (c : Nat) (ts : List Nat)
    (hts : ∀ t ∈ ts, t * c + c < 2147483648) :
    ∀ (new_label : List Nat) (changed : Bool), new_label.length = g.n →
      spawnJoin g label (c : Int) ts new_label changed =
        .ok (writeAll (bestOf g label) (ts.flatMap (chunkRange g.n c)) new_label,
          changed || (ts.flatMap (chunkRange g.n c)).any
            (fun v => bestOf g label v != label.getD v 0)) := by
  induction ts with
  | nil => intro nl ch _; simp [spawnJoin, writeAll]
  | cons t ts ih =>
    intro nl ch hnl
    have hb := hts t (List.mem_cons_self _ _)
    have hstart : wrap32 ((t : Int) * (c : Int)) = ((t * c : Nat) : Int) := by
      rw [← Nat.cast_mul]; exact wrap32_natCast _ (by omega)
    have hend : wrap32 (((t * c : Nat) : Int) + (c : Int)) = ((t * c + c : Nat) : Int) := by
      rw [← Nat.cast_add]; exact wrap32_natCast _ hb
    have hs : (if ((t * c : Nat) : Int) > (g.n : Int) then (g.n : Int)
        else ((t * c : Nat) : Int)) = ((min (t * c) g.n : Nat) : Int) := by
      split <;> omega
    have he : (if ((t * c + c : Nat) : Int) > (g.n : Int) then (g.n : Int)
        else ((t * c + c : Nat) : Int)) = ((min (t * c + c) g.n : Nat) : Int) := by
      split <;> omega
    rw [spawnJoin, hstart, hend, hs, he]
    have ih2 := ih (fun u hu => hts u (List.mem_cons_of_mem _ hu))
    by_cases hemp : min (t * c + c) g.n ≤ min (t * c) g.n
    · have hnil : chunkRange g.n c t = [] := by
        simp only [chunkRange, forRange, List.range'_eq_nil]; omega
      have hge : ((min (t * c) g.n : Nat) : Int) ≥ ((min (t * c + c) g.n : Nat) : Int) := by
        omega
      rw [if_pos hge, ih2 nl ch hnl]
      simp [List.flatMap_cons, hnil]
    · have hge : ¬ ((min (t * c) g.n : Nat) : Int) ≥ ((min (t * c + c) g.n : Nat) : Int) := by
        omega
      have hw : worker g label nl ((min (t * c) g.n : Nat) : Int)
          ((min (t * c + c) g.n : Nat) : Int) =
          .ok (writeAll (bestOf g label) (chunkRange g.n c t) nl,
            (chunkRange g.n c t).any (fun v => bestOf g label v != label.getD v 0)) := by
        have hneg : ¬ ((((min (t * c) g.n : Nat) : Int) < ((min (t * c + c) g.n : Nat) : Int)) ∧
            (((min (t * c) g.n : Nat) : Int) < 0)) := by omega
        rw [worker, if_neg hneg, Int.toNat_natCast, Int.toNat_natCast, workerLoop_eq_passOver,
          passOver_eq g hg label hl _ nl false hnl]
        · simp [chunkRange]
        · intro v hv
          have := (mem_forRange.1 hv).2
          omega
      rw [if_neg hge, hw]
      dsimp only
      rw [ih2 _ _ (by rw [writeAll_length]; exact hnl)]
      simp only [List.flatMap_cons, writeAll_append, List.any_append]
      generalize ((chunkRange g.n c t).any
        (fun v => bestOf g label v != label.getD v 0)) = b1
      generalize ((ts.flatMap (chunkRange g.n c)).any
        (fun v => bestOf g label v != label.getD v 0)) = b2
      cases ch <;> cases b1 <;> cases b2 <;> rfl

theorem chunkSize_natCast (n k : Nat) (hk : 1 ≤ k) (hb : n + k - 1 < 2147483648) :
    chunkSize n (k : Int) = (((n + k - 1) / k : Nat) : Int) := by
  have h : wrap32 (wrap32 ((n : Int) + (k : Int)) - 1) = ((n + k - 1 : Nat) : Int) := by
    unfold wrap32; omega
  rw [chunkSize, h]
  exact (Int.ofNat_tdiv _ _).symm

theorem ceil_mul_ge (n k : Nat) (hk : 1 ≤ k) : n ≤ k * ((n + k - 1) / k) := by
  have h1 := Nat.div_add_mod (n + k - 1) k
  have h2 : (n + k - 1) % k < k := Nat.mod_lt _ (by omega)
  omega

/-- The chunks of the threads `0 .. k-1` cover exactly the vertices. -/
theorem mem_chunks (n k : Nat) (hk : 1 ≤ k) (v : Nat) :
    v ∈ (forRange 0 k).flatMap (chunkRange n ((n + k - 1) / k)) ↔ v < n := by
  simp only [List.mem_flatMap, chunkRange, mem_forRange]
  constructor
  · rintro ⟨t, _, _, h⟩; omega
  · intro hv
    have hcov := ceil_mul_ge n k hk
    generalize (n + k - 1) / k = c at hcov
    have hc : 0 < c := by
      rcases Nat.eq_zero_or_pos c with h | h
      · subst h; omega
      · exact h
    have h1 := Nat.div_add_mod v c
    have h2 : v % c < c := Nat.mod_lt _ hc
    have h3 : v / c * c = c * (v / c) := Nat.mul_comm _ _
    refine ⟨v / c, ⟨Nat.zero_le _, ?_⟩, by omega, by omega⟩
    by_contra hlt
    have h4 : k * c ≤ v / c * c := Nat.mul_le_mul_right c (by omega)
    omega

theorem purePass_pthreads {g : CSRGraph} (hg : g.Valid) (num_threads : Int)
    (hnt : 1 ≤ num_threads) (hb : (g.n : Int) + num_threads - 1 ≤ 2147483647) :
    PurePass g (fun _ l nl => pthreadsPass g num_threads l nl) := by
  intro _ l nl hl hnl
  obtain ⟨k, rfl⟩ := Int.eq_ofNat_of_zero_le (by omega : 0 ≤ num_threads)
  have hk : 1 ≤ k := by omega
  have hb2 : g.n + k - 1 < 2147483648 := by omega
  have hts : ∀ t ∈ forRange 0 k, t * ((g.n + k - 1) / k) + (g.n + k - 1) / k < 2147483648 := by
    intro t ht
    have h1 : t + 1 ≤ k := by have := (mem_forRange.1 ht).2; omega
    have h2 : (t + 1) * ((g.n + k - 1) / k) ≤ k * ((g.n + k - 1) / k) :=
      Nat.mul_le_mul_right _ h1
    have h3 : k * ((g.n + k - 1) / k) ≤ g.n + k - 1 := Nat.mul_div_le _ _
    have h4 : (t + 1) * ((g.n + k - 1) / k) =
        t * ((g.n + k - 1) / k) + (g.n + k - 1) / k := Nat.succ_mul _ _
    omega
  have hmem := mem_chunks g.n k hk
  have hneg : ¬ ((k : Int) ≤ 0) := by omega
  show pthreadsPass g (k : Int) l nl = _
  rw [pthreadsPass, if_neg hneg, chunkSize_natCast g.n k hk hb2, Int.toNat_natCast,
    spawnJoin_eq g hg l hl _ _ hts nl false hnl,
    ← passOver_eq g hg l hl _ nl false hnl (fun v hv => (hmem v).1 hv)]
  exact passOver_full g hg l nl _ hl hnl hmem

theorem spawnJoin_skip (g : CSRGraph) (label : List Nat) (chunk : Int) (hc : chunk ≤ 0)
    (ts : List Nat) (hts : ∀ t ∈ ts, -2147483648 ≤ ((t : Int) + 1) * chunk)
    (new_label : List Nat) (changed : Bool) :
    spawnJoin g label chunk ts new_label changed = .ok (new_label, changed) := by
  induction ts with
  | nil => rfl
  | cons t ts ih =>
    have hb := hts t (List.mem_cons_self _ _)
    have hm : (t : Int) * chunk ≤ 0 := Int.mul_nonpos_of_nonneg_of_nonpos (by omega) hc
    have he : ((t : Int) + 1) * chunk = (t : Int) * chunk + chunk := by ring
    rw [he] at hb
    rw [spawnJoin]
    generalize (t : Int) * chunk = m at hb hm
    have hstart : wrap32 m = m := by unfold wrap32; omega
    have hend : wrap32 (m + chunk) = m + chunk := by unfold wrap32; omega
    have hs : (if m > (g.n : Int) then (g.n : Int) else m) = m := by
      split <;> omega
    have he2 : (if m + chunk > (g.n : Int) then (g.n : Int) else m + chunk) = m + chunk := by
      split <;> omega
    have hge : m ≥ m + chunk := by omega
    rw [hstart, hend, hs, he2, if_pos hge]
    exact ih (fun u hu => hts u (List.mem_cons_of_mem _ hu))

/-- When `n + num_threads - 1` leaves the 32-bit range the chunk size is not positive,
no worker is created, and the pass leaves `new_label` untouched and reports no change. -/
theorem pthreadsPass_overflow (g : CSRGraph) (num_threads : Int) (hn : g.n < 2147483648)
    (hnt : 1 ≤ num_threads) (hnt2 : num_threads ≤ 2147483647)
    (hov : 2147483647 < (g.n : Int) + num_threads - 1) (label new_label : List Nat) :
    pthreadsPass g num_threads label new_label = .ok (new_label, false) := by
  have hneg : ¬ (num_threads ≤ 0) := by omega
  rw [pthreadsPass, if_neg hneg]
  obtain ⟨w, hw, hw1, hw2⟩ : ∃ w : Int, wrap32 (wrap32 ((g.n : Int) + num_threads) - 1) = -w ∧
      0 ≤ w ∧ w ≤ 2147483648 := by
    refine ⟨-(wrap32 (wrap32 ((g.n : Int) + num_threads) - 1)), by ring, ?_, ?_⟩ <;>
      (unfold wrap32; omega)
  have hq : chunkSize g.n num_threads = -(w / num_threads) := by
    rw [chunkSize, hw, Int.neg_tdiv, Int.tdiv_eq_ediv hw1 (by omega)]
  have hq0 : 0 ≤ w / num_threads := Int.ediv_nonneg hw1 (by omega)
  have hq1 : w / num_threads * num_threads ≤ w := Int.ediv_mul_le w (by omega)
  rw [hq]
  apply spawnJoin_skip _ _ _ (by omega)
  intro t ht
  have ht2 : (t : Int) + 1 ≤ num_threads := by
    have := (mem_forRange.1 ht).2
    omega
  have h3 : ((t : Int) + 1) * (w / num_threads) ≤ num_threads * (w / num_threads) :=
    Int.mul_le_mul_of_nonneg_right ht2 hq0
  have h4 : ((t : Int) + 1) * -(w / num_threads) = -(((t : Int) + 1) * (w / num_threads)) := by
    ring
  have h5 : num_threads * (w / num_threads) = w / num_threads * num_threads := by ring
  rw [h4]
  omega

/-! ## The drivers reduced to the convergence loop -/

theorem cc_pthreads_eq (g : CSRGraph) (label : List Nat) (num_threads : Int) (fuel : Nat) :
    cc_pthreads g label num_threads fuel =
      convergenceLoop (fun _ l nl => pthreadsPass g num_threads l nl)
        fuel 0 (List.range g.n) (vecNew g.n) := by
  simp [cc_pthreads, initLabels_full (forRange 0 g.n) label g.n
    (fun v => by simp [mem_forRange])]

theorem cc_openmp_eq (g : CSRGraph) (label init_order : List Nat) (sched : Nat → List Nat)
    (fuel : Nat) (hinit : init_order.Perm (List.range g.n)) :
    cc_openmp g label init_order sched fuel =
      convergenceLoop (fun k l nl => passOver g l (sched k) nl false)
        fuel 0 (List.range g.n) (vecNew g.n) := by
  simp [cc_openmp, initLabels_full init_order label g.n (fun v => by simp [hinit.mem_iff])]

theorem cc_opencilk_eq (g : CSRGraph) (label init_order : List Nat) (sched : Nat → List Nat)
    (fuel : Nat) (hinit : init_order.Perm (List.range g.n)) :
    cc_opencilk g label init_order sched fuel =
      convergenceLoop (fun k l nl => passOver g l (sched k) nl false)
        fuel 0 (List.range g.n) (vecNew g.n) := by
  simp [cc_opencilk, initLabels_full init_order label g.n (fun v => by simp [hinit.mem_iff])]

/-! ## The component counter -/

theorem uniqueFrom_spec {α : Type} [LinearOrder α] (l : List α) :
    ∀ prev : α, (prev :: l).Sorted (· ≤ ·) →
      (∀ x, x ∈ uniqueFrom prev l ↔ (x ∈ l ∧ x ≠ prev)) ∧ (uniqueFrom prev l).Nodup := by
  induction l with
  | nil => intro prev _; simp [uniqueFrom]
  | cons y rest ih =>
    intro prev hs
    have hs1 : (y :: rest).Sorted (· ≤ ·) := (List.sorted_cons.1 hs).2
    have hle : ∀ x ∈ y :: rest, prev ≤ x := (List.sorted_cons.1 hs).1
    by_cases hpy : prev = y
    · subst hpy
      obtain ⟨hm, hn⟩ := ih prev hs1
      simp only [uniqueFrom, if_true]
      refine ⟨fun x => ?_, hn⟩
      rw [hm x, List.mem_cons]
      constructor
      · rintro ⟨h1, h2⟩; exact ⟨Or.inr h1, h2⟩
      · rintro ⟨h1 | h1, h2⟩
        · exact absurd h1 h2
        · exact ⟨h1, h2⟩
    · obtain ⟨hm, hn⟩ := ih y hs1
      have hlt : prev < y := lt_of_le_of_ne (hle y (List.mem_cons_self _ _)) hpy
      simp only [uniqueFrom, if_neg hpy]
      refine ⟨fun x => ?_, ?_⟩
      · rw [List.mem_cons, hm x, List.mem_cons]
        constructor
        · rintro (h | ⟨h1, _⟩)
          · subst h; exact ⟨Or.inl rfl, fun h => hpy h.symm⟩
          · refine ⟨Or.inr h1, fun h => ?_⟩
            have := (List.sorted_cons.1 hs1).1 x h1
            subst h
            exact absurd (lt_of_lt_of_le hlt this) (lt_irrefl _)
        · rintro ⟨h1 | h1, _⟩
          · exact Or.inl h1
          · by_cases hxy : x = y
            · exact Or.inl hxy
            · exact Or.inr ⟨h1, hxy⟩
      · rw [List.nodup_cons]
        exact ⟨fun h => ((hm y).1 h).2 rfl, hn⟩

theorem unique_spec {α : Type} [LinearOrder α] (l : List α) (hs : l.Sorted (· ≤ ·)) :
    (∀ x, x ∈ unique l ↔ x ∈ l) ∧ (unique l).Nodup := by
  cases l with
  | nil => simp [unique]
  | cons y rest =>
    obtain ⟨hm, hn⟩ := uniqueFrom_spec rest y hs
    simp only [unique]
    refine ⟨fun x => ?_, ?_⟩
    · rw [List.mem_cons, hm x, List.mem_cons]
      constructor
      · rintro (h | ⟨h, _⟩)
        · exact Or.inl h
        · exact Or.inr h
      · rintro (h | h)
        · exact Or.inl h
        · by_cases hxy : x = y
          · exact Or.inl hxy
          · exact Or.inr ⟨h, hxy⟩
    · rw [List.nodup_cons]
      exact ⟨fun h => ((hm y).1 h).2 rfl, hn⟩

/-- The counter returns the number of distinct values of the array. -/
theorem componentCount_eq_card {α : Type} [LinearOrder α] (a : List α) :
    componentCount a = a.toFinset.card := by
  obtain ⟨hm, hn⟩ := unique_spec (List.insertionSort (· ≤ ·) a) (List.sorted_insertionSort _ a)
  rw [componentCount, ← List.toFinset_card_of_nodup hn]
  congr 1
  ext x
  rw [List.mem_toFinset, List.mem_toFinset, hm x]
  exact (List.perm_insertionSort _ a).mem_iff

/-! ## Further facts about the convergence loop -/

/-- Two loop bodies that both behave as the pure pass give the same run. -/
theorem convergenceLoop_congr (g : CSRGraph)
    (p1 p2 : Nat → List Nat → List Nat → Except Err (List Nat × Bool))
    (h1 : PurePass g p1) (h2 : PurePass g p2) (fuel : Nat) :
    ∀ (k : Nat) (l nl : List Nat), l.length = g.n → nl.length = g.n →
      convergenceLoop p1 fuel k l nl = convergenceLoop p2 fuel k l nl := by
  induction fuel with
  | zero => intro k l nl _ _; rfl
  | succ f ih =>
    intro k l nl hl hnl
    simp only [convergenceLoop, h1 k l nl hl hnl, h2 k l nl hl hnl]
    split
    · exact ih _ _ _ (stepL_length g l) hl
    · rfl

/-- More fuel does not change a result that was reached. -/
theorem convergenceLoop_fuel_succ
    (pass : Nat → List Nat → List Nat → Except Err (List Nat × Bool)) (fuel : Nat) :
    ∀ (k : Nat) (l nl : List Nat) (r : List Nat × Nat),
      convergenceLoop pass fuel k l nl = .ok r →
      convergenceLoop pass (fuel + 1) k l nl = .ok r := by
  induction fuel with
  | zero => intro k l nl r h; simp [convergenceLoop] at h
  | succ f ih =>
    intro k l nl r h
    rw [convergenceLoop] at h ⊢
    cases hp : pass k l nl with
    | error e => rw [hp] at h; simp at h
    | ok res =>
      obtain ⟨nl1, c⟩ := res
      rw [hp] at h
      dsimp only at h ⊢
      cases c with
      | false => simpa using h
      | true =>
        simp only [if_true] at h ⊢
        exact ih _ _ _ _ h

theorem convergenceLoop_fuel_le
    (pass : Nat → List Nat → List Nat → Except Err (List Nat × Bool)) (f1 f2 : Nat)
    (hle : f1 ≤ f2) (k : Nat) (l nl : List Nat) (r : List Nat × Nat)
    (h : convergenceLoop pass f1 k l nl = .ok r) :
    convergenceLoop pass f2 k l nl = .ok r := by
  induction hle with
  | refl => exact h
  | step _ ih => exact convergenceLoop_fuel_succ pass _ k l nl r ih

/-- Whatever the fuel, a run of the loop from the identity labelling that returns has
returned the first stable labelling and the number of passes that led to it. -/
theorem convergenceLoop_result {g : CSRGraph} (hg : g.Valid)
    (pass : Nat → List Nat → List Nat → Except Err (List Nat × Bool))
    (hpass : PurePass g pass) (fuel : Nat) (nl : List Nat) (hnl : nl.length = g.n)
    (r : List Nat × Nat)
    (h : convergenceLoop pass fuel 0 (List.range g.n) nl = .ok r) :
    ∃ j, j ≤ g.n - 1 ∧ stepL g (labelsAfter g j) = labelsAfter g j ∧
      (∀ i, i < j → stepL g (labelsAfter g i) ≠ labelsAfter g i) ∧
      r = (labelsAfter g j, j + 1) := by
  obtain ⟨j, hj, hfix, hmin, hrun⟩ := convergenceLoop_spec hg pass hpass
  refine ⟨j, hj, hfix, hmin, ?_⟩
  have h1 := convergenceLoop_fuel_le pass fuel (max fuel (j + 1)) (le_max_left _ _) _ _ _ _ h
  have h2 := hrun (max fuel (j + 1)) nl hnl (by have := le_max_right fuel (j + 1); omega)
  rw [h1] at h2
  exact Except.ok.inj h2

/-- A pass over a converged labelling writes the same labelling and reports no change;
the loop started there returns it after one pass. -/
theorem convergenceLoop_converged {g : CSRGraph}
    (pass : Nat → List Nat → List Nat → Except Err (List Nat × Bool))
    (hpass : PurePass g pass) (l nl : List Nat) (hl : l.length = g.n)
    (hnl : nl.length = g.n) (hc : Converged g l) (fuel k : Nat) :
    pass k l nl = .ok (l, false) ∧
      convergenceLoop pass (fuel + 1) k l nl = .ok (l, k + 1) := by
  have hfix := fixed_of_converged hl hc
  have hp : pass k l nl = .ok (l, false) := by
    rw [hpass k l nl hl hnl, hfix]; simp
  exact ⟨hp, by simp [convergenceLoop, hp]⟩

/-- The run of `cc_sequential` on a valid graph: it returns, for every fuel above `n`,
the first stable labelling `labelsAfter g j` after `j + 1` passes, with `j ≤ n - 1`. -/
theorem cc_sequential_run {g : CSRGraph} (hg : g.Valid) (label : List Nat) :
    ∃ j, j ≤ g.n - 1 ∧ stepL g (labelsAfter g j) = labelsAfter g j ∧
      (∀ i, i < j → stepL g (labelsAfter g i) ≠ labelsAfter g i) ∧
      ∀ fuel, j < fuel → cc_sequential g label fuel = .ok (labelsAfter g j, j + 1) := by
  obtain ⟨j, hj, hfix, hmin, hrun⟩ := convergenceLoop_spec hg _ (purePass_sequential hg)
  refine ⟨j, hj, hfix, hmin, fun fuel hf => ?_⟩
  rw [cc_sequential_eq]
  exact hrun fuel _ (vecNew_length _) hf

/-! ## The claims -/

/-- C1: on a valid symmetric CSR graph `cc_sequential` returns (for every fuel above `n`,
whatever vector is passed in) a label array of length `n` in which two vertices have
equal labels if and only if they are joined by a path. -/
theorem cc_sequential_labels_iff_connected (g : CSRGraph) (hg : g.Valid)
    (hs : g.Symmetric) (label : List Nat) :
    ∃ L passes, (∀ fuel, g.n < fuel → cc_sequential g label fuel = .ok (L, passes)) ∧
      L.length = g.n ∧
      ∀ u v, u < g.n → v < g.n → (L[u]? = L[v]? ↔ Connected g u v) := by
  obtain ⟨j, hj, hfix, _, hrun⟩ := cc_sequential_run hg label
  refine ⟨labelsAfter g j, j + 1, fun fuel hf => hrun fuel (by omega),
    labelsAfter_length g j, ?_⟩
  intro u v hu hv
  have hlu : u < (labelsAfter g j).length := by rw [labelsAfter_length]; exact hu
  have hlv : v < (labelsAfter g j).length := by rw [labelsAfter_length]; exact hv
  rw [getElem?_eq_some_getD hlu, getElem?_eq_some_getD hlv, Option.some_inj]
  exact stable_labels_eq_iff hg hs hfix hu hv

/-- Witness for C1 on two disjoint triangles. -/
theorem cc_sequential_labels_iff_connected_witness :
    twoTriangles.Valid ∧ twoTriangles.Symmetric ∧
      ∃ L passes,
        (∀ fuel, twoTriangles.n < fuel →
          cc_sequential twoTriangles [] fuel = .ok (L, passes)) ∧
        L.length = twoTriangles.n ∧
        ∀ u v, u < twoTriangles.n → v < twoTriangles.n →
          (L[u]? = L[v]? ↔ Connected twoTriangles u v) :=
  ⟨by decide, by decide,
    cc_sequential_labels_iff_connected twoTriangles (by decide) (by decide) []⟩

/-- C2: on a valid symmetric CSR graph the label that `cc_sequential` returns for a
vertex `v` is the least vertex id of the connected component of `v`: it is joined to
`v` by a path and no vertex joined to `v` has a smaller id.  Two disjoint triangles
give `[0,0,0,3,3,3]`, the path 0-1-2-3 gives `[0,0,0,0]`, a single isolated vertex
gives `[0]`. -/
theorem cc_sequential_min_of_component (g : CSRGraph) (hg : g.Valid) (hs : g.Symmetric)
    (label : List Nat) :
    (∃ L passes, (∀ fuel, g.n < fuel → cc_sequential g label fuel = .ok (L, passes)) ∧
      ∀ v, v < g.n → ∃ m, L[v]? = some m ∧ Connected g v m ∧ Connected g m v ∧
        ∀ w, (Connected g v w ∨ Connected g w v) → m ≤ w) ∧
    cc_sequential twoTriangles label 7 = .ok ([0, 0, 0, 3, 3, 3], 2) ∧
    cc_sequential pathGraph label 5 = .ok ([0, 0, 0, 0], 4) ∧
    cc_sequential singleVertex label 2 = .ok ([0], 1) := by
  refine ⟨?_, ?_, ?_, ?_⟩
  · obtain ⟨j, hj, hfix, _, hrun⟩ := cc_sequential_run hg label
    refine ⟨labelsAfter g j, j + 1, fun fuel hf => hrun fuel (by omega), ?_⟩
    intro v hv
    have hlv : v < (labelsAfter g j).length := by rw [labelsAfter_length]; exact hv
    have hmin := stable_labels_min hg hfix hv
    refine ⟨_, getElem?_eq_some_getD hlv, hmin.1, connected_symm hg hs hmin.1, ?_⟩
    rintro w (hw | hw)
    · exact hmin.2 w hw
    · exact hmin.2 w (connected_symm hg hs hw)
  · rw [cc_sequential_eq]; rfl
  · rw [cc_sequential_eq]; rfl
  · rw [cc_sequential_eq]; rfl

/-- Witness for C2 on two disjoint triangles. -/
theorem cc_sequential_min_of_component_witness :
    twoTriangles.Valid ∧ twoTriangles.Symmetric ∧
    ((∃ L passes,
      (∀ fuel, twoTriangles.n < fuel →
        cc_sequential twoTriangles [] fuel = .ok (L, passes)) ∧
      ∀ v, v < twoTriangles.n → ∃ m, L[v]? = some m ∧ Connected twoTriangles v m ∧
        Connected twoTriangles m v ∧
        ∀ w, (Connected twoTriangles v w ∨ Connected twoTriangles w v) → m ≤ w) ∧
    cc_sequential twoTriangles [] 7 = .ok ([0, 0, 0, 3, 3, 3], 2) ∧
    cc_sequential pathGraph [] 5 = .ok ([0, 0, 0, 0], 4) ∧
    cc_sequential singleVertex [] 2 = .ok ([0], 1)) :=
  ⟨by decide, by decide,
    cc_sequential_min_of_component twoTriangles (by decide) (by decide) []⟩

/-- A loop body that never writes and never reports a change makes the loop return its
untouched second buffer after one pass. -/
theorem convergenceLoop_null
    (pass : Nat → List Nat → List Nat → Except Err (List Nat × Bool))
    (h : ∀ k l nl, pass k l nl = .ok (nl, false)) (fuel k : Nat) (l nl : List Nat)
    (hf : 0 < fuel) : convergenceLoop pass fuel k l nl = .ok (nl, k + 1) := by
  obtain ⟨f, rfl⟩ : ∃ f, fuel = f + 1 := ⟨fuel - 1, by omega⟩
  rw [convergenceLoop, h]
  rfl

/-- Two isolated vertices. -/
def twoIsolated : CSRGraph := ⟨2, [0, 0, 0], []⟩

/-- C3 (failing input): with two isolated vertices and `num_threads = 2147483647` the
sum `n + num_threads - 1` of the ceiling division wraps in 32-bit arithmetic, `chunk` is
`-1`, no worker is created, and `cc_pthreads` returns the untouched zero buffer `[0,0]`
where `cc_sequential` returns `[0,1]`. -/
theorem cc_pthreads_differs_on_overflow :
    twoIsolated.Valid ∧ (1 : Int) ≤ 2147483647 ∧
      chunkSize twoIsolated.n 2147483647 = -1 ∧
      cc_pthreads twoIsolated [] 2147483647 3 = .ok ([0, 0], 1) ∧
      cc_sequential twoIsolated [] 3 = .ok ([0, 1], 1) := by
  refine ⟨by decide, by decide, by decide, ?_, ?_⟩
  · have hp : ∀ l nl : List Nat, pthreadsPass twoIsolated 2147483647 l nl = .ok (nl, false) :=
      fun l nl => pthreadsPass_overflow twoIsolated 2147483647 (by decide) (by decide)
        (by decide) (by decide) l nl
    rw [cc_pthreads_eq, convergenceLoop_null _ (fun _ l nl => hp l nl) 3 0 _ _ (by decide)]
    rfl
  · rw [cc_sequential_eq]; rfl

/-- Where the ceiling division does not overflow the two drivers agree: for every valid
CSR graph and every `num_threads ≥ 1` for which `n + num_threads - 1` is representable
as a 32-bit signed int, `cc_pthreads` and
`cc_sequential` agree for every fuel, and for every fuel above `n` both return the same
label array after the same number of passes. -/
theorem cc_pthreads_eq_cc_sequential (g : CSRGraph) (hg : g.Valid) (num_threads : Int)
    (hnt : 1 ≤ num_threads) (hrep : (g.n : Int) + num_threads - 1 ≤ 2147483647)
    (label : List Nat) :
    (∀ fuel, cc_pthreads g label num_threads fuel = cc_sequential g label fuel) ∧
      ∃ L passes, ∀ fuel, g.n < fuel →
        cc_pthreads g label num_threads fuel = .ok (L, passes) ∧
        cc_sequential g label fuel = .ok (L, passes) := by
  have heq : ∀ fuel, cc_pthreads g label num_threads fuel = cc_sequential g label fuel := by
    intro fuel
    rw [cc_pthreads_eq, cc_sequential_eq]
    exact convergenceLoop_congr g _ _ (purePass_pthreads hg num_threads hnt hrep)
      (purePass_sequential hg) fuel 0 _ _ (by simp) (vecNew_length _)
  refine ⟨heq, ?_⟩
  obtain ⟨j, hj, _, _, hrun⟩ := cc_sequential_run hg label
  refine ⟨labelsAfter g j, j + 1, fun fuel hf => ?_⟩
  rw [heq fuel]
  exact ⟨hrun fuel (by omega), hrun fuel (by omega)⟩

/-- The agreement of the two drivers on two disjoint triangles with four threads. -/
theorem cc_pthreads_eq_cc_sequential_witness :
    twoTriangles.Valid ∧ (1 : Int) ≤ 4 ∧ ((twoTriangles.n : Int) + 4 - 1 ≤ 2147483647) ∧
    ((∀ fuel, cc_pthreads twoTriangles [] 4 fuel = cc_sequential twoTriangles [] fuel) ∧
      ∃ L passes, ∀ fuel, twoTriangles.n < fuel →
        cc_pthreads twoTriangles [] 4 fuel = .ok (L, passes) ∧
        cc_sequential twoTriangles [] fuel = .ok (L, passes)) :=
  ⟨by decide, by decide, by decide,
    cc_pthreads_eq_cc_sequential twoTriangles (by decide) 4 (by decide) (by decide) []⟩

/-- C4: on a valid CSR graph, one pass of the per-vertex update of `cc_openmp` /
`cc_opencilk` over the vertices in any order (any permutation of `0..n-1`) returns the
same next buffer and the same any-changed flag as the index-order pass of
`cc_sequential`; consequently, for every initialisation order and every schedule of
the passes, `cc_openmp` and `cc_opencilk` agree with `cc_sequential` for every fuel and
return the same label array. -/
theorem parallel_for_order_independent (g : CSRGraph) (hg : g.Valid)
    (label new_label order : List Nat) (hl : label.length = g.n)
    (hnl : new_label.length = g.n) (horder : order.Perm (List.range g.n))
    (vec init_order : List Nat) (sched : Nat → List Nat)
    (hinit : init_order.Perm (List.range g.n))
    (hsched : ∀ k, (sched k).Perm (List.range g.n)) :
    (∃ next changed,
      passOver g label order new_label false = .ok (next, changed) ∧
      passOver g label (forRange 0 g.n) new_label false = .ok (next, changed)) ∧
    (∀ fuel, cc_openmp g vec init_order sched fuel = cc_sequential g vec fuel ∧
      cc_opencilk g vec init_order sched fuel = cc_sequential g vec fuel) ∧
    ∃ L passes, ∀ fuel, g.n < fuel →
      cc_openmp g vec init_order sched fuel = .ok (L, passes) ∧
      cc_opencilk g vec init_order sched fuel = .ok (L, passes) ∧
      cc_sequential g vec fuel = .ok (L, passes) := by
  have hpar : ∀ fuel, cc_openmp g vec init_order sched fuel = cc_sequential g vec fuel ∧
      cc_opencilk g vec init_order sched fuel = cc_sequential g vec fuel := by
    intro fuel
    have h := convergenceLoop_congr g _ _ (purePass_schedule hg sched hsched)
      (purePass_sequential hg) fuel 0 (List.range g.n) (vecNew g.n) (by simp)
      (vecNew_length _)
    rw [cc_openmp_eq g vec init_order sched fuel hinit,
      cc_opencilk_eq g vec init_order sched fuel hinit, cc_sequential_eq]
    exact ⟨h, h⟩
  refine ⟨⟨stepL g label, decide (stepL g label ≠ label), ?_, ?_⟩, hpar, ?_⟩
  · exact passOver_full g hg label new_label order hl hnl
      (fun v => by simp [horder.mem_iff])
  · exact passOver_full g hg label new_label _ hl hnl (fun v => by simp [mem_forRange])
  · obtain ⟨j, hj, _, _, hrun⟩ := cc_sequential_run hg vec
    refine ⟨labelsAfter g j, j + 1, fun fuel hf => ?_⟩
    rw [(hpar fuel).1, (hpar fuel).2]
    exact ⟨hrun fuel (by omega), hrun fuel (by omega), hrun fuel (by omega)⟩

/-- Witness for C4: the path 0-1-2-3, a pass in the order 2,0,3,1, and runs of the
parallel drivers under reversed schedules. -/
theorem parallel_for_order_independent_witness :
    pathGraph.Valid ∧
    (∃ next changed,
      passOver pathGraph [0, 1, 2, 3] [2, 0, 3, 1] [7, 7, 7, 7] false = .ok (next, changed) ∧
      passOver pathGraph [0, 1, 2, 3] (forRange 0 pathGraph.n) [7, 7, 7, 7] false =
        .ok (next, changed)) ∧
    (∀ fuel, cc_openmp pathGraph [] [3, 2, 1, 0] (fun _ => [1, 3, 0, 2]) fuel =
        cc_sequential pathGraph [] fuel ∧
      cc_opencilk pathGraph [] [3, 2, 1, 0] (fun _ => [1, 3, 0, 2]) fuel =
        cc_sequential pathGraph [] fuel) ∧
    ∃ L passes, ∀ fuel, pathGraph.n < fuel →
      cc_openmp pathGraph [] [3, 2, 1, 0] (fun _ => [1, 3, 0, 2]) fuel = .ok (L, passes) ∧
      cc_opencilk pathGraph [] [3, 2, 1, 0] (fun _ => [1, 3, 0, 2]) fuel = .ok (L, passes) ∧
      cc_sequential pathGraph [] fuel = .ok (L, passes) :=
  ⟨by decide,
    parallel_for_order_independent pathGraph (by decide) [0, 1, 2, 3] [7, 7, 7, 7]
      [2, 0, 3, 1] (by decide) (by decide) (by decide) [] [3, 2, 1, 0]
      (fun _ => [1, 3, 0, 2]) (by decide)
      (fun _ => (by decide : [1, 3, 0, 2].Perm (List.range pathGraph.n)))⟩

/-- C5 (as stated, refuted): on the empty graph the loop body runs once, so no run of
`cc_sequential` returns after at most `n = 0` passes. -/
theorem empty_graph_needs_one_pass :
    emptyGraph.Valid ∧ cc_sequential emptyGraph [] 1 = .ok ([], 1) ∧
      ¬ ∃ fuel L passes,
        cc_sequential emptyGraph [] fuel = .ok (L, passes) ∧ passes ≤ emptyGraph.n := by
  refine ⟨by decide, rfl, ?_⟩
  rintro ⟨fuel, L, passes, hrun, hle⟩
  cases fuel with
  | zero => simp [cc_sequential_eq, convergenceLoop] at hrun
  | succ f =>
    have h1 : cc_sequential emptyGraph [] (f + 1) = .ok ([], 1) := by
      rw [cc_sequential_eq]; rfl
    rw [h1] at hrun
    have h2 := congrArg Prod.snd (Except.ok.inj hrun)
    have h3 : emptyGraph.n = 0 := rfl
    simp only at h2
    omega

/-- C5 (amended): for every valid CSR graph with `n` vertices (`n` an `int`), the
`while (changed)` loop of `cc_sequential`, `cc_openmp`, `cc_opencilk` (under any
schedule) and `cc_pthreads` (for any thread count from 1 to the largest `int`)
terminates after at most `max n 1` passes: every fuel of at least `max n 1` suffices. -/
theorem convergence_within_max_n_one (g : CSRGraph) (hg : g.Valid)
    (hn : g.n ≤ 2147483647) (vec init_order : List Nat) (sched : Nat → List Nat)
    (hinit : init_order.Perm (List.range g.n))
    (hsched : ∀ k, (sched k).Perm (List.range g.n))
    (num_threads : Int) (hnt : 1 ≤ num_threads) (hnt2 : num_threads ≤ 2147483647) :
    (∃ L passes, passes ≤ max g.n 1 ∧ ∀ fuel, max g.n 1 ≤ fuel →
      cc_sequential g vec fuel = .ok (L, passes) ∧
      cc_openmp g vec init_order sched fuel = .ok (L, passes) ∧
      cc_opencilk g vec init_order sched fuel = .ok (L, passes)) ∧
    (∃ L passes, passes ≤ max g.n 1 ∧ ∀ fuel, max g.n 1 ≤ fuel →
      cc_pthreads g vec num_threads fuel = .ok (L, passes)) := by
  have hmax : g.n - 1 + 1 = max g.n 1 := by omega
  constructor
  · obtain ⟨j, hj, _, _, hrun⟩ := convergenceLoop_spec hg _ (purePass_sequential hg)
    refine ⟨labelsAfter g j, j + 1, by omega, fun fuel hf => ?_⟩
    have hseq := hrun fuel (vecNew g.n) (vecNew_length _) (by omega)
    have hpar := convergenceLoop_congr g _ _ (purePass_schedule hg sched hsched)
      (purePass_sequential hg) fuel 0 (List.range g.n) (vecNew g.n) (by simp)
      (vecNew_length _)
    rw [cc_openmp_eq g vec init_order sched fuel hinit,
      cc_opencilk_eq g vec init_order sched fuel hinit, cc_sequential_eq, hpar]
    exact ⟨hseq, hseq, hseq⟩
  · by_cases hrep : (g.n : Int) + num_threads - 1 ≤ 2147483647
    · obtain ⟨j, hj, _, _, hrun⟩ :=
        convergenceLoop_spec hg _ (purePass_pthreads hg num_threads hnt hrep)
      refine ⟨labelsAfter g j, j + 1, by omega, fun fuel hf => ?_⟩
      rw [cc_pthreads_eq]
      exact hrun fuel (vecNew g.n) (vecNew_length _) (by omega)
    · refine ⟨vecNew g.n, 0 + 1, by omega, fun fuel hf => ?_⟩
      rw [cc_pthreads_eq]
      exact convergenceLoop_null _
        (fun _ l nl => pthreadsPass_overflow g num_threads (by omega) hnt hnt2
          (by omega) l nl) fuel 0 _ _ (by omega)

/-- Witness for C5 (amended) on two disjoint triangles with four threads. -/
theorem convergence_within_max_n_one_witness :
    twoTriangles.Valid ∧ twoTriangles.n ≤ 2147483647 ∧
    ((∃ L passes, passes ≤ max twoTriangles.n 1 ∧ ∀ fuel, max twoTriangles.n 1 ≤ fuel →
      cc_sequential twoTriangles [] fuel = .ok (L, passes) ∧
      cc_openmp twoTriangles [] [5, 4, 3, 2, 1, 0] (fun _ => [3, 4, 5, 0, 1, 2]) fuel =
        .ok (L, passes) ∧
      cc_opencilk twoTriangles [] [5, 4, 3, 2, 1, 0] (fun _ => [3, 4, 5, 0, 1, 2]) fuel =
        .ok (L, passes)) ∧
    (∃ L passes, passes ≤ max twoTriangles.n 1 ∧ ∀ fuel, max twoTriangles.n 1 ≤ fuel →
      cc_pthreads twoTriangles [] 4 fuel = .ok (L, passes))) :=
  ⟨by decide, by decide,
    convergence_within_max_n_one twoTriangles (by decide) (by decide) []
      [5, 4, 3, 2, 1, 0] (fun _ => [3, 4, 5, 0, 1, 2]) (by decide)
      (fun _ => (by decide : [3, 4, 5, 0, 1, 2].Perm (List.range twoTriangles.n)))
      4 (by decide) (by decide)⟩

theorem writeAll_getD_of_mem (f : Nat → Nat) (vs buf : List Nat) (v : Nat)
    (hv : v < buf.length) (hmem : v ∈ vs) : (writeAll f vs buf).getD v 0 = f v := by
  rw [List.getD_eq_getElem?_getD, writeAll_getElem? f vs buf v hv, if_pos hmem]
  rfl

/-- C6: on a valid CSR graph one iteration of the convergence loop never raises a label.
For every current label buffer (so for the buffer after any iteration `k`) the pass of
`cc_sequential` returns a next buffer with `next[v] ≤ label[v]` for every vertex, and
`worker` does so on every vertex of its chunk; started from `label[v] = v`, the labels
that `cc_sequential` returns satisfy `label[v] ≤ v`. -/
theorem labels_nonincreasing (g : CSRGraph) (hg : g.Valid) (label new_label : List Nat)
    (hl : label.length = g.n) (hnl : new_label.length = g.n) (start stop : Nat)
    (hsn : stop ≤ g.n) (vec : List Nat) :
    (∃ next changed,
      passOver g label (forRange 0 g.n) new_label false = .ok (next, changed) ∧
      next.length = g.n ∧ ∀ v, v < g.n → next.getD v 0 ≤ label.getD v 0) ∧
    (∃ next changed,
      worker g label new_label (start : Int) (stop : Int) = .ok (next, changed) ∧
      next.length = g.n ∧
      ∀ v, start ≤ v → v < stop → next.getD v 0 ≤ label.getD v 0) ∧
    ∃ L passes, (∀ fuel, g.n < fuel → cc_sequential g vec fuel = .ok (L, passes)) ∧
      ∀ v, v < g.n → L.getD v 0 ≤ v := by
  refine ⟨⟨stepL g label, _, passOver_full g hg label new_label _ hl hnl
      (fun v => by simp [mem_forRange]), stepL_length g label, ?_⟩, ?_, ?_⟩
  · intro v hv
    rw [stepL_getD g label v hv]
    exact bestOf_le_self g label v
  · have hneg : ¬ (((start : Int) < (stop : Int)) ∧ ((start : Int) < 0)) := by omega
    have hvs : ∀ v ∈ forRange start stop, v < g.n := by
      intro v hv
      have := (mem_forRange.1 hv).2
      omega
    refine ⟨writeAll (bestOf g label) (forRange start stop) new_label,
      false || (forRange start stop).any (fun v => bestOf g label v != label.getD v 0),
      ?_, ?_, ?_⟩
    · rw [worker, if_neg hneg, Int.toNat_natCast, Int.toNat_natCast,
        workerLoop_eq_passOver, passOver_eq g hg label hl _ new_label false hnl hvs]
    · rw [writeAll_length]; exact hnl
    · intro v h1 h2
      rw [writeAll_getD_of_mem _ _ _ v (by omega) (mem_forRange.2 ⟨h1, h2⟩)]
      exact bestOf_le_self g label v
  · obtain ⟨j, hj, _, _, hrun⟩ := cc_sequential_run hg vec
    refine ⟨labelsAfter g j, j + 1, fun fuel hf => hrun fuel (by omega), ?_⟩
    intro v hv
    exact (labelsAfter_within hg j v hv).2 v (Within.refl _ _)

/-- Witness for C6 on the path 0-1-2-3 with the buffer after the first pass. -/
theorem labels_nonincreasing_witness :
    pathGraph.Valid ∧ [0, 0, 1, 2].length = pathGraph.n ∧
    [0, 1, 2, 3].length = pathGraph.n ∧ 3 ≤ pathGraph.n ∧
    ((∃ next changed,
      passOver pathGraph [0, 0, 1, 2] (forRange 0 pathGraph.n) [0, 1, 2, 3] false =
        .ok (next, changed) ∧
      next.length = pathGraph.n ∧
      ∀ v, v < pathGraph.n → next.getD v 0 ≤ [0, 0, 1, 2].getD v 0) ∧
    (∃ next changed,
      worker pathGraph [0, 0, 1, 2] [0, 1, 2, 3] ((1 : Nat) : Int) ((3 : Nat) : Int) =
        .ok (next, changed) ∧
      next.length = pathGraph.n ∧
      ∀ v, 1 ≤ v → v < 3 → next.getD v 0 ≤ [0, 0, 1, 2].getD v 0) ∧
    ∃ L passes,
      (∀ fuel, pathGraph.n < fuel → cc_sequential pathGraph [] fuel = .ok (L, passes)) ∧
      ∀ v, v < pathGraph.n → L.getD v 0 ≤ v) :=
  ⟨by decide, by decide, by decide, by decide,
    labels_nonincreasing pathGraph (by decide) [0, 0, 1, 2] [0, 1, 2, 3] (by decide)
      (by decide) 1 3 (by decide) []⟩

/-- C7: on a valid CSR graph, the convergence loop started from a converged label array
makes a first pass that writes the same array and reports no change, and returns that
array after this single pass; the array returned by `cc_sequential` is converged, so
this applies to it. -/
theorem converged_array_is_fixed (g : CSRGraph) (hg : g.Valid) (label new_label : List Nat)
    (hl : label.length = g.n) (hnl : new_label.length = g.n) (hc : Converged g label)
    (fuel : Nat) :
    passOver g label (forRange 0 g.n) new_label false = .ok (label, false) ∧
    convergenceLoop (fun _ l nl => passOver g l (forRange 0 g.n) nl false)
      (fuel + 1) 0 label new_label = .ok (label, 1) ∧
    ∀ (vec : List Nat) (fuel0 : Nat) (L : List Nat) (passes : Nat),
      cc_sequential g vec fuel0 = .ok (L, passes) →
      L.length = g.n ∧ Converged g L ∧
      ∀ (buf : List Nat) (fuel1 : Nat), buf.length = g.n →
        convergenceLoop (fun _ l nl => passOver g l (forRange 0 g.n) nl false)
          (fuel1 + 1) 0 L buf = .ok (L, 1) := by
  have h := convergenceLoop_converged _ (purePass_sequential hg) label new_label hl hnl hc
    fuel 0
  refine ⟨h.1, h.2, ?_⟩
  intro vec fuel0 L passes hrun
  rw [cc_sequential_eq] at hrun
  obtain ⟨j, _, hfix, _, hr⟩ := convergenceLoop_result hg _ (purePass_sequential hg) fuel0
    (vecNew g.n) (vecNew_length _) _ hrun
  have hL : L = labelsAfter g j := congrArg Prod.fst hr
  subst hL
  refine ⟨labelsAfter_length g j, converged_of_fixed hfix, fun buf fuel1 hbuf => ?_⟩
  exact (convergenceLoop_converged _ (purePass_sequential hg) _ buf (labelsAfter_length g j)
    hbuf (converged_of_fixed hfix) fuel1 0).2

/-- Witness for C7 on two disjoint triangles and their converged labels. -/
theorem converged_array_is_fixed_witness :
    twoTriangles.Valid ∧ [0, 0, 0, 3, 3, 3].length = twoTriangles.n ∧
    [9, 9, 9, 9, 9, 9].length = twoTriangles.n ∧
    Converged twoTriangles [0, 0, 0, 3, 3, 3] ∧
    passOver twoTriangles [0, 0, 0, 3, 3, 3] (forRange 0 twoTriangles.n)
      [9, 9, 9, 9, 9, 9] false = .ok ([0, 0, 0, 3, 3, 3], false) ∧
    convergenceLoop
      (fun _ l nl => passOver twoTriangles l (forRange 0 twoTriangles.n) nl false)
      (0 + 1) 0 [0, 0, 0, 3, 3, 3] [9, 9, 9, 9, 9, 9] = .ok ([0, 0, 0, 3, 3, 3], 1) :=
  have h := converged_array_is_fixed twoTriangles (by decide) [0, 0, 0, 3, 3, 3]
    [9, 9, 9, 9, 9, 9] (by decide) (by decide) (by decide) 0
  ⟨by decide, by decide, by decide, by decide, h.1, h.2.1⟩

/-- C8 (as stated, refuted): on the empty graph `cc_openmp` and `cc_opencilk` report
`iterations = 1`, and no run reports `iterations = 0`. -/
theorem empty_graph_iterations_not_zero :
    cc_openmp emptyGraph [] [] (fun _ => []) 1 = .ok ([], 1) ∧
    cc_opencilk emptyGraph [] [] (fun _ => []) 1 = .ok ([], 1) ∧
    ¬ ∃ fuel L, cc_openmp emptyGraph [] [] (fun _ => []) fuel = .ok (L, 0) := by
  refine ⟨rfl, rfl, ?_⟩
  rintro ⟨fuel, L, hrun⟩
  cases fuel with
  | zero => simp [cc_openmp, initLabels, convergenceLoop] at hrun
  | succ f =>
    have h1 : cc_openmp emptyGraph [] [] (fun _ => []) (f + 1) = .ok ([], 1) := rfl
    rw [h1] at hrun
    have h2 := congrArg Prod.snd (Except.ok.inj hrun)
    simp at h2

/-- C8 (amended): on the empty graph (`n = 0`, `rowptr = [0]`, `colind = []`) the
convergence loop performs exactly one pass (over no vertices): `cc_openmp` and
`cc_opencilk` return the empty label array with `iterations = 1`, as do `cc_sequential`
and `cc_pthreads` with one thread, and the component count of the returned array is 0. -/
theorem empty_graph_one_pass (vec : List Nat) (fuel : Nat) :
    cc_openmp emptyGraph vec [] (fun _ => []) (fuel + 1) = .ok ([], 1) ∧
    cc_opencilk emptyGraph vec [] (fun _ => []) (fuel + 1) = .ok ([], 1) ∧
    cc_sequential emptyGraph vec (fuel + 1) = .ok ([], 1) ∧
    cc_pthreads emptyGraph vec 1 (fuel + 1) = .ok ([], 1) ∧
    componentCount ([] : List Nat) = 0 := by
  have hperm : ([] : List Nat).Perm (List.range emptyGraph.n) := by decide
  refine ⟨?_, ?_, ?_, ?_, rfl⟩
  · rw [cc_openmp_eq emptyGraph vec [] _ _ hperm]; rfl
  · rw [cc_opencilk_eq emptyGraph vec [] _ _ hperm]; rfl
  · rw [cc_sequential_eq]; rfl
  · rw [cc_pthreads_eq]; rfl

theorem mem_labels_iff {L : List Nat} {r : Nat} :
    r ∈ L ↔ ∃ i, i < L.length ∧ L.getD i 0 = r := by
  rw [List.mem_iff_getElem]
  constructor
  · rintro ⟨i, hi, h⟩
    exact ⟨i, hi, by rw [List.getD_eq_getElem _ _ hi]; exact h⟩
  · rintro ⟨i, hi, h⟩
    exact ⟨i, hi, by rw [List.getD_eq_getElem _ _ hi] at h; exact h⟩

/-- C9: the component counter of `main` (copy, sort, unique, erase, size) returns the
number of distinct values of an integer array; on the labels that `cc_sequential`
returns for a valid symmetric graph this is the number of connected components (the
distinct labels are a set of representatives, exactly one in the component of every
vertex): 1 for the path 0-1-2-3 and 2 for two disjoint triangles. -/
theorem componentCount_counts_components (a : List Int) (g : CSRGraph) (hg : g.Valid)
    (hs : g.Symmetric) (vec : List Nat) :
    componentCount a = a.toFinset.card ∧
    (∃ L passes, (∀ fuel, g.n < fuel → cc_sequential g vec fuel = .ok (L, passes)) ∧
      ∃ reps : Finset Nat, componentCount L = reps.card ∧ (∀ r ∈ reps, r < g.n) ∧
        ∀ v, v < g.n → ∃! r, r ∈ reps ∧ Connected g v r) ∧
    (∃ L passes, cc_sequential pathGraph vec 5 = .ok (L, passes) ∧ componentCount L = 1) ∧
    (∃ L passes, cc_sequential twoTriangles vec 7 = .ok (L, passes) ∧
      componentCount L = 2) := by
  refine ⟨componentCount_eq_card a, ?_, ?_, ?_⟩
  · obtain ⟨j, hj, hfix, _, hrun⟩ := cc_sequential_run hg vec
    have hlen := labelsAfter_length g j
    refine ⟨labelsAfter g j, j + 1, fun fuel hf => hrun fuel (by omega),
      (labelsAfter g j).toFinset, componentCount_eq_card _, ?_, ?_⟩
    · intro r hr
      obtain ⟨i, hi, rfl⟩ := mem_labels_iff.1 (List.mem_toFinset.1 hr)
      rw [hlen] at hi
      exact connected_lt hg (stable_labels_min hg hfix hi).1 hi
    · intro v hv
      refine ⟨(labelsAfter g j).getD v 0, ⟨?_, (stable_labels_min hg hfix hv).1⟩, ?_⟩
      · exact List.mem_toFinset.2 (mem_labels_iff.2 ⟨v, by omega, rfl⟩)
      · rintro r ⟨hr, hvr⟩
        obtain ⟨u, hu, rfl⟩ := mem_labels_iff.1 (List.mem_toFinset.1 hr)
        rw [hlen] at hu
        have hur := (stable_labels_min hg hfix hu).1
        exact ((stable_labels_eq_iff hg hs hfix hv hu).2
          (Relation.ReflTransGen.trans hvr (connected_symm hg hs hur))).symm
  · exact ⟨[0, 0, 0, 0], 4, by rw [cc_sequential_eq]; rfl, by decide⟩
  · exact ⟨[0, 0, 0, 3, 3, 3], 2, by rw [cc_sequential_eq]; rfl, by decide⟩

/-- Witness for C9 on two disjoint triangles and an array with negative entries. -/
theorem componentCount_counts_components_witness :
    twoTriangles.Valid ∧ twoTriangles.Symmetric ∧
    componentCount [(3 : Int), -1, 3, 0, -1] = [(3 : Int), -1, 3, 0, -1].toFinset.card ∧
    (∃ L passes,
      (∀ fuel, twoTriangles.n < fuel → cc_sequential twoTriangles [] fuel = .ok (L, passes)) ∧
      ∃ reps : Finset Nat, componentCount L = reps.card ∧ (∀ r ∈ reps, r < twoTriangles.n) ∧
        ∀ v, v < twoTriangles.n → ∃! r, r ∈ reps ∧ Connected twoTriangles v r) ∧
    (∃ L passes, cc_sequential pathGraph [] 5 = .ok (L, passes) ∧ componentCount L = 1) ∧
    (∃ L passes, cc_sequential twoTriangles [] 7 = .ok (L, passes) ∧
      componentCount L = 2) :=
  ⟨by decide, by decide,
    componentCount_counts_components [3, -1, 3, 0, -1] twoTriangles (by decide) (by decide) []⟩

/-- C10: the component counter (sort, unique, size) returns the same count on every
permutation of a label array. -/
theorem componentCount_perm {α : Type} [LinearOrder α] (a b : List α) (h : b.Perm a) :
    componentCount b = componentCount a := by
  rw [componentCount_eq_card, componentCount_eq_card, List.toFinset_eq_of_perm _ _ h]

/-- Witness for C10 on a label array and one of its rearrangements. -/
theorem componentCount_perm_witness :
    [(3 : Int), 0, 3, 0, 5].Perm [0, 0, 3, 3, 5] ∧
      componentCount [(3 : Int), 0, 3, 0, 5] = componentCount [(0 : Int), 0, 3, 3, 5] :=
  ⟨by decide, componentCount_perm [0, 0, 3, 3, 5] [3, 0, 3, 0, 5] (by decide)⟩

/-! ## Claims on a single pass and on bounds -/

theorem minStep_eq_min (label : List Nat) (b u : Nat) :
    minStep label b u = min b (label.getD u 0) := by
  unfold minStep; split <;> omega

theorem bestOf_eq_foldl_min (g : CSRGraph) (label : List Nat) (v : Nat) :
    bestOf g label v =
      ((nbrs g v).map (fun u => label.getD u 0)).foldl min (label.getD v 0) := by
  rw [bestOf, List.foldl_map]
  congr 1
  funext b u
  exact minStep_eq_min label b u

theorem worker_full (g : CSRGraph) (hg : g.Valid) (label new_label : List Nat)
    (hl : label.length = g.n) (hnl : new_label.length = g.n) :
    worker g label new_label 0 (g.n : Int) =
      .ok (stepL g label, decide (stepL g label ≠ label)) := by
  have hneg : ¬ (((0 : Int) < (g.n : Int)) ∧ ((0 : Int) < 0)) := by omega
  rw [worker, if_neg hneg, Int.toNat_zero, Int.toNat_natCast, workerLoop_eq_passOver]
  exact passOver_full g hg label new_label _ hl hnl (fun v => by simp [mem_forRange])

/-- C17: on a valid CSR graph, one pass of the inner loops of `cc_sequential` over a
current buffer `label` returns a next buffer with
`next[v] = min(label[v], min of label[u] over u in colind[rowptr[v] .. rowptr[v+1]))`
for every vertex `v`; the result does not depend on what the `new_label` buffer held
(only `label` is read); `changed` is true exactly when `next[v] ≠ label[v]` for some
vertex; `worker` run on the whole vertex range returns the same. -/
theorem pass_writes_neighbourhood_min (g : CSRGraph) (hg : g.Valid)
    (label new_label other : List Nat) (hl : label.length = g.n)
    (hnl : new_label.length = g.n) (hother : other.length = g.n) :
    ∃ next changed,
      passOver g label (forRange 0 g.n) new_label false = .ok (next, changed) ∧
      next.length = g.n ∧
      (∀ v, v < g.n → next.getD v 0 =
        ((nbrs g v).map (fun u => label.getD u 0)).foldl min (label.getD v 0)) ∧
      (changed = true ↔ ∃ v, v < g.n ∧ next.getD v 0 ≠ label.getD v 0) ∧
      passOver g label (forRange 0 g.n) other false = .ok (next, changed) ∧
      worker g label new_label 0 (g.n : Int) = .ok (next, changed) := by
  have hcover : ∀ v, v ∈ forRange 0 g.n ↔ v < g.n := fun v => by simp [mem_forRange]
  refine ⟨stepL g label, decide (stepL g label ≠ label),
    passOver_full g hg label new_label _ hl hnl hcover, stepL_length g label, ?_, ?_,
    passOver_full g hg label other _ hl hother hcover, worker_full g hg label new_label hl hnl⟩
  · intro v hv
    rw [stepL_getD g label v hv, bestOf_eq_foldl_min]
  · rw [decide_eq_true_iff, stepL_ne_iff g label hl]
    constructor
    · rintro ⟨v, hv, hne⟩
      exact ⟨v, hv, by rw [stepL_getD g label v hv]; exact hne⟩
    · rintro ⟨v, hv, hne⟩
      exact ⟨v, hv, by rw [stepL_getD g label v hv] at hne; exact hne⟩

/-- Witness for C17: the first pass on the path 0-1-2-3. -/
theorem pass_writes_neighbourhood_min_witness :
    pathGraph.Valid ∧ [0, 1, 2, 3].length = pathGraph.n ∧
    [0, 0, 0, 0].length = pathGraph.n ∧ [5, 6, 7, 8].length = pathGraph.n ∧
    ∃ next changed,
      passOver pathGraph [0, 1, 2, 3] (forRange 0 pathGraph.n) [0, 0, 0, 0] false =
        .ok (next, changed) ∧
      next.length = pathGraph.n ∧
      (∀ v, v < pathGraph.n → next.getD v 0 =
        ((nbrs pathGraph v).map (fun u => [0, 1, 2, 3].getD u 0)).foldl min
          ([0, 1, 2, 3].getD v 0)) ∧
      (changed = true ↔ ∃ v, v < pathGraph.n ∧ next.getD v 0 ≠ [0, 1, 2, 3].getD v 0) ∧
      passOver pathGraph [0, 1, 2, 3] (forRange 0 pathGraph.n) [5, 6, 7, 8] false =
        .ok (next, changed) ∧
      worker pathGraph [0, 1, 2, 3] [0, 0, 0, 0] 0 (pathGraph.n : Int) =
        .ok (next, changed) :=
  ⟨by decide, by decide, by decide, by decide,
    pass_writes_neighbourhood_min pathGraph (by decide) [0, 1, 2, 3] [0, 0, 0, 0]
      [5, 6, 7, 8] (by decide) (by decide) (by decide)⟩

/-- A loop body that returns on buffers of the right size and hands back a buffer of
that size. -/
def TotalPass (g : CSRGraph)
    (pass : Nat → List Nat → List Nat → Except Err (List Nat × Bool)) : Prop :=
  ∀ k l nl, l.length = g.n → nl.length = g.n →
    ∃ nl1 c, pass k l nl = .ok (nl1, c) ∧ nl1.length = g.n

/-- With a total body the loop can only fail by running out of fuel. -/
theorem convergenceLoop_error_is_fuel (g : CSRGraph)
    (pass : Nat → List Nat → List Nat → Except Err (List Nat × Bool))
    (hpass : TotalPass g pass) (fuel : Nat) :
    ∀ (k : Nat) (l nl : List Nat) (e : Err), l.length = g.n → nl.length = g.n →
      convergenceLoop pass fuel k l nl = .error e → e = .outOfFuel := by
  induction fuel with
  | zero =>
    intro k l nl e _ _ h
    simp only [convergenceLoop] at h
    exact (Except.error.inj h).symm
  | succ f ih =>
    intro k l nl e hl hnl h
    obtain ⟨nl1, c, hp, hlen⟩ := hpass k l nl hl hnl
    rw [convergenceLoop, hp] at h
    dsimp only at h
    cases c with
    | false => simp at h
    | true =>
      simp only [if_true] at h
      exact ih _ _ _ _ hlen hl h

theorem totalPass_of_pure {g : CSRGraph}
    {pass : Nat → List Nat → List Nat → Except Err (List Nat × Bool)}
    (h : PurePass g pass) : TotalPass g pass :=
  fun k l nl hl hnl => ⟨_, _, h k l nl hl hnl, stepL_length g l⟩

theorem totalPass_pthreads {g : CSRGraph} (hg : g.Valid) (hn : g.n ≤ 2147483647)
    (num_threads : Int) (hnt : 1 ≤ num_threads) (hnt2 : num_threads ≤ 2147483647) :
    TotalPass g (fun _ l nl => pthreadsPass g num_threads l nl) := by
  by_cases hrep : (g.n : Int) + num_threads - 1 ≤ 2147483647
  · exact totalPass_of_pure (purePass_pthreads hg num_threads hnt hrep)
  · intro _ l nl _ hnl
    exact ⟨nl, false, pthreadsPass_overflow g num_threads (by omega) hnt hnt2 (by omega) l nl,
      hnl⟩

/-- For every thread count in the range of `int`, `cc_pthreads` returns within `n`
units of fuel above one. -/
theorem cc_pthreads_returns {g : CSRGraph} (hg : g.Valid) (hn : g.n ≤ 2147483647)
    (num_threads : Int) (hnt : 1 ≤ num_threads) (hnt2 : num_threads ≤ 2147483647)
    (vec : List Nat) (fuel : Nat) (hf : g.n < fuel) :
    ∃ r, cc_pthreads g vec num_threads fuel = .ok r := by
  rw [cc_pthreads_eq]
  by_cases hrep : (g.n : Int) + num_threads - 1 ≤ 2147483647
  · obtain ⟨j, hj, _, _, hrun⟩ :=
      convergenceLoop_spec hg _ (purePass_pthreads hg num_threads hnt hrep)
    exact ⟨_, hrun fuel (vecNew g.n) (vecNew_length _) (by omega)⟩
  · exact ⟨_, convergenceLoop_null _
      (fun _ l nl => pthreadsPass_overflow g num_threads (by omega) hnt hnt2
        (by omega) l nl) fuel 0 _ _ (by omega)⟩

/-- C18: on a CSR graph that satisfies the data-model invariants, with label buffers of
length `n`, every access of the engine is within bounds: for a vertex `v`, the reads
`rowptr[v]`, `rowptr[v+1]`, `label[v]` and the write `new_label[v]` succeed, and for
every `e` in `[rowptr[v], rowptr[v+1])` so do `colind[e]` and `label[colind[e]]`.
Hence the per-vertex body, the pass of `cc_sequential`, `worker` on any range within
`[0, n)` and a pass of `cc_pthreads` all return, and `cc_sequential` and `cc_pthreads`
have no failing branch: they return for every fuel above `n`, and the only error of the
model is the exhausted fuel. -/
theorem engine_accesses_in_bounds (g : CSRGraph) (hg : g.Valid) (hn : g.n ≤ 2147483647)
    (num_threads : Int) (hnt : 1 ≤ num_threads) (hnt2 : num_threads ≤ 2147483647)
    (label new_label : List Nat) (hl : label.length = g.n) (hnl : new_label.length = g.n)
    (v : Nat) (hv : v < g.n) (start stop : Nat) (hstop : stop ≤ g.n)
    (vec : List Nat) (fuel : Nat) :
    (∃ lo hi x, readAt g.rowptr v = .ok lo ∧ readAt g.rowptr (v + 1) = .ok hi ∧
      readAt label v = .ok x ∧
      (∀ y, ∃ buf, writeAt new_label v y = .ok buf) ∧
      ∀ e, lo ≤ e → e < hi →
        ∃ u lu, readAt g.colind e = .ok u ∧ readAt label u = .ok lu) ∧
    (∃ r, updateVertex g label new_label v = .ok r) ∧
    (∃ r, passOver g label (forRange 0 g.n) new_label false = .ok r) ∧
    (∃ r, worker g label new_label (start : Int) (stop : Int) = .ok r) ∧
    (∃ r, pthreadsPass g num_threads label new_label = .ok r) ∧
    (∀ e, cc_sequential g vec fuel = .error e → e = .outOfFuel) ∧
    (∀ e, cc_pthreads g vec num_threads fuel = .error e → e = .outOfFuel) ∧
    (g.n < fuel → (∃ r, cc_sequential g vec fuel = .ok r) ∧
      ∃ r, cc_pthreads g vec num_threads fuel = .ok r) := by
  have h1 : v < label.length := by omega
  have h2 : v < g.rowptr.length := by rw [hg.1]; omega
  have h3 : v + 1 < g.rowptr.length := by rw [hg.1]; omega
  have h4 : v < new_label.length := by omega
  refine ⟨⟨_, _, _, readAt_of_lt _ _ h2, readAt_of_lt _ _ h3, readAt_of_lt _ _ h1,
    fun y => ⟨_, writeAt_of_lt _ _ y h4⟩, ?_⟩, ⟨_, updateVertex_eq g hg label new_label hl hnl v hv⟩,
    ⟨_, passOver_full g hg label new_label _ hl hnl (fun w => by simp [mem_forRange])⟩,
    ?_, ?_, ?_, ?_, ?_⟩
  · intro e _ he
    have hlt : e < g.colind.length := lt_of_lt_of_le he (valid_row_end_le hg hv)
    have hu : g.colind.getD e 0 < label.length := by
      rw [hl]; apply hg.2.2.2.2
      rw [List.getD_eq_getElem _ _ hlt]; exact List.getElem_mem _
    exact ⟨_, _, readAt_of_lt _ _ hlt, readAt_of_lt _ _ hu⟩
  · have hneg : ¬ (((start : Int) < (stop : Int)) ∧ ((start : Int) < 0)) := by omega
    have hvs : ∀ w ∈ forRange start stop, w < g.n := by
      intro w hw
      have := (mem_forRange.1 hw).2
      omega
    refine ⟨(writeAll (bestOf g label) (forRange start stop) new_label,
      false || (forRange start stop).any (fun w => bestOf g label w != label.getD w 0)), ?_⟩
    rw [worker, if_neg hneg, Int.toNat_natCast, Int.toNat_natCast,
      workerLoop_eq_passOver, passOver_eq g hg label hl _ new_label false hnl hvs]
  · obtain ⟨nl1, c, hp, _⟩ :=
      totalPass_pthreads hg hn num_threads hnt hnt2 0 label new_label hl hnl
    exact ⟨_, hp⟩
  · intro e he
    rw [cc_sequential_eq] at he
    exact convergenceLoop_error_is_fuel g _ (totalPass_of_pure (purePass_sequential hg))
      fuel 0 _ _ e (by simp) (vecNew_length _) he
  · intro e he
    rw [cc_pthreads_eq] at he
    exact convergenceLoop_error_is_fuel g _ (totalPass_pthreads hg hn num_threads hnt hnt2)
      fuel 0 _ _ e (by simp) (vecNew_length _) he
  · intro hf
    obtain ⟨j, hj, _, _, hrun⟩ := cc_sequential_run hg vec
    exact ⟨⟨_, hrun fuel (by omega)⟩,
      cc_pthreads_returns hg hn num_threads hnt hnt2 vec fuel hf⟩
/-- Witness for C18 on two disjoint triangles with four threads. -/
theorem engine_accesses_in_bounds_witness :
    twoTriangles.Valid ∧ twoTriangles.n ≤ 2147483647 ∧
    (∃ r, updateVertex twoTriangles [0, 1, 2, 3, 4, 5] [0, 0, 0, 0, 0, 0] 4 = .ok r) ∧
    (∃ r, worker twoTriangles [0, 1, 2, 3, 4, 5] [0, 0, 0, 0, 0, 0]
      ((2 : Nat) : Int) ((4 : Nat) : Int) = .ok r) ∧
    (∀ e, cc_pthreads twoTriangles [] 4 3 = .error e → e = .outOfFuel) :=
  have h := engine_accesses_in_bounds twoTriangles (by decide) (by decide) 4 (by decide)
    (by decide) [0, 1, 2, 3, 4, 5] [0, 0, 0, 0, 0, 0] (by decide) (by decide) 4 (by decide)
    2 4 (by decide) [] 3
  ⟨by decide, by decide, h.2.1, h.2.2.2.1, h.2.2.2.2.2.2.1⟩

/-- The range `[start, end)` that `cc_pthreads` computes for thread `t` (lines 94-97):
`start = t * chunk`, `end = start + chunk` in 32-bit arithmetic, both clamped to `n`. -/
def threadRange (n : Nat) (chunk : Int) (t : Nat) : Int × Int :=
  let start0 := wrap32 ((t : Int) * chunk)
  let end0 := wrap32 (start0 + chunk)
  (if start0 > (n : Int) then (n : Int) else start0,
    if end0 > (n : Int) then (n : Int) else end0)

/-- The spawn and join loops create a worker for thread `t` exactly when its range is
not empty. -/
theorem spawnJoin_cons (g : CSRGraph) (label_old : List Nat) (chunk : Int) (t : Nat)
    (ts label_new : List Nat) (changed : Bool) :
    spawnJoin g label_old chunk (t :: ts) label_new changed =
      if (threadRange g.n chunk t).1 ≥ (threadRange g.n chunk t).2 then
        spawnJoin g label_old chunk ts label_new changed
      else
        match worker g label_old label_new (threadRange g.n chunk t).1
            (threadRange g.n chunk t).2 with
        | .error err => .error err
        | .ok (label_new1, c) =>
          spawnJoin g label_old chunk ts label_new1 (if c then true else changed) := by
  rw [spawnJoin]
  rfl

theorem threadRange_natCast (n c t : Nat) (hb : t * c + c < 2147483648) :
    threadRange n (c : Int) t = (((min (t * c) n : Nat) : Int), ((min (t * c + c) n : Nat) : Int)) := by
  have hstart : wrap32 ((t : Int) * (c : Int)) = ((t * c : Nat) : Int) := by
    rw [← Nat.cast_mul]; exact wrap32_natCast _ (by omega)
  have hend : wrap32 (((t * c : Nat) : Int) + (c : Int)) = ((t * c + c : Nat) : Int) := by
    rw [← Nat.cast_add]; exact wrap32_natCast _ hb
  have hs : (if ((t * c : Nat) : Int) > (n : Int) then (n : Int)
      else ((t * c : Nat) : Int)) = ((min (t * c) n : Nat) : Int) := by
    split <;> omega
  have he : (if ((t * c + c : Nat) : Int) > (n : Int) then (n : Int)
      else ((t * c + c : Nat) : Int)) = ((min (t * c + c) n : Nat) : Int) := by
    split <;> omega
  rw [threadRange, hstart, hend, hs, he]

theorem chunk_bound (n k t : Nat) (ht : t < k) (hb : n + k - 1 < 2147483648) :
    t * ((n + k - 1) / k) + (n + k - 1) / k < 2147483648 := by
  have h2 : (t + 1) * ((n + k - 1) / k) ≤ k * ((n + k - 1) / k) :=
    Nat.mul_le_mul_right _ (by omega)
  have h3 : k * ((n + k - 1) / k) ≤ n + k - 1 := Nat.mul_div_le _ _
  have h4 : (t + 1) * ((n + k - 1) / k) = t * ((n + k - 1) / k) + (n + k - 1) / k :=
    Nat.succ_mul _ _
  omega

/-- The arithmetic of the thread ranges: for `num_threads ≥ 1` with `n + num_threads - 1`
representable, `chunk` is `ceil(n / num_threads)` and the ranges `[start_t, end_t)` for
`t = 0 .. num_threads-1` lie in `[0, n]`, have length at most `chunk`, start at 0, are
contiguous and end at `n`; every vertex lies in the range of exactly one thread; a loop
over the single thread `t` runs a worker exactly when the range of `t` is not empty. -/
theorem threadRange_facts (n : Nat) (num_threads : Int) (hnt : 1 ≤ num_threads)
    (hrep : (n : Int) + num_threads - 1 ≤ 2147483647) :
    (num_threads * (chunkSize n num_threads - 1) < (n : Int) ∧
      (n : Int) ≤ num_threads * chunkSize n num_threads) ∧
    (threadRange n (chunkSize n num_threads) 0).1 = 0 ∧
    (∀ t : Nat, (t : Int) < num_threads →
      0 ≤ (threadRange n (chunkSize n num_threads) t).1 ∧
      (threadRange n (chunkSize n num_threads) t).1 ≤
        (threadRange n (chunkSize n num_threads) t).2 ∧
      (threadRange n (chunkSize n num_threads) t).2 ≤ (n : Int) ∧
      (threadRange n (chunkSize n num_threads) t).2 -
        (threadRange n (chunkSize n num_threads) t).1 ≤ chunkSize n num_threads) ∧
    (∀ t : Nat, (t : Int) + 1 < num_threads →
      (threadRange n (chunkSize n num_threads) t).2 =
        (threadRange n (chunkSize n num_threads) (t + 1)).1) ∧
    (threadRange n (chunkSize n num_threads) (num_threads - 1).toNat).2 = (n : Int) ∧
    (∀ v : Nat, v < n → ∃! t : Nat, (t : Int) < num_threads ∧
      (threadRange n (chunkSize n num_threads) t).1 ≤ (v : Int) ∧
      (v : Int) < (threadRange n (chunkSize n num_threads) t).2) ∧
    ∀ (g : CSRGraph) (label_old label_new : List Nat) (changed : Bool) (t : Nat),
      g.n = n →
      spawnJoin g label_old (chunkSize n num_threads) [t] label_new changed =
        if (threadRange n (chunkSize n num_threads) t).1 <
            (threadRange n (chunkSize n num_threads) t).2 then
          match worker g label_old label_new (threadRange n (chunkSize n num_threads) t).1
              (threadRange n (chunkSize n num_threads) t).2 with
          | .error err => .error err
          | .ok (label_new1, c) => .ok (label_new1, if c then true else changed)
        else .ok (label_new, changed) := by
  obtain ⟨k, rfl⟩ := Int.eq_ofNat_of_zero_le (by omega : 0 ≤ num_threads)
  have hk : 1 ≤ k := by omega
  have hb : n + k - 1 < 2147483648 := by omega
  rw [chunkSize_natCast n k hk hb]
  have hcov := ceil_mul_ge n k hk
  have hlow : k * ((n + k - 1) / k) ≤ n + k - 1 := Nat.mul_div_le _ _
  have hr : ∀ t, t < k → threadRange n (((n + k - 1) / k : Nat) : Int) t =
      (((min (t * ((n + k - 1) / k)) n : Nat) : Int),
        ((min (t * ((n + k - 1) / k) + (n + k - 1) / k) n : Nat) : Int)) :=
    fun t ht => threadRange_natCast n _ t (chunk_bound n k t ht hb)
  generalize (n + k - 1) / k = c at hcov hlow hr
  refine ⟨⟨?_, ?_⟩, ?_, ?_, ?_, ?_, ?_, ?_⟩
  · have : ((k * c : Nat) : Int) = (k : Int) * (c : Int) := Nat.cast_mul _ _
    have h2 : (k : Int) * ((c : Int) - 1) = (k : Int) * (c : Int) - k := by ring
    omega
  · have : ((k * c : Nat) : Int) = (k : Int) * (c : Int) := Nat.cast_mul _ _
    omega
  · rw [hr 0 (by omega)]; simp
  · intro t ht
    rw [hr t (by omega)]
    dsimp only
    omega
  · intro t ht
    rw [hr t (by omega), hr (t + 1) (by omega)]
    dsimp only
    have : (t + 1) * c = t * c + c := Nat.succ_mul _ _
    rw [this]
  · have hk1 : ((k : Int) - 1).toNat = k - 1 := by omega
    rw [hk1, hr (k - 1) (by omega)]
    dsimp only
    have h1 : (k - 1 + 1) * c = (k - 1) * c + c := Nat.succ_mul _ _
    have h2 : k - 1 + 1 = k := by omega
    rw [h2] at h1
    have h3 : k * c = c * k := Nat.mul_comm _ _
    omega
  · intro v hv
    have hc : 0 < c := by
      rcases Nat.eq_zero_or_pos c with h | h
      · subst h; omega
      · exact h
    have h1 := Nat.div_add_mod v c
    have h2 : v % c < c := Nat.mod_lt _ hc
    have h3 : v / c * c = c * (v / c) := Nat.mul_comm _ _
    have hlt : v / c < k := by
      by_contra hlt
      have h4 : k * c ≤ v / c * c := Nat.mul_le_mul_right c (by omega)
      omega
    refine ⟨v / c, ⟨by omega, ?_⟩, ?_⟩
    · rw [hr (v / c) hlt]
      dsimp only
      omega
    · rintro t ⟨ht, hlo, hhi⟩
      rw [hr t (by omega)] at hlo hhi
      dsimp only at hlo hhi
      symm
      apply Nat.div_eq_of_lt_le
      · omega
      · have : (t + 1) * c = t * c + c := Nat.succ_mul _ _
        omega
  · intro g label_old label_new changed t hgn
    subst hgn
    rw [spawnJoin_cons]
    by_cases hlt : (threadRange g.n (c : Int) t).1 < (threadRange g.n (c : Int) t).2
    · rw [if_neg (by omega), if_pos hlt]
      cases worker g label_old label_new (threadRange g.n (c : Int) t).1
          (threadRange g.n (c : Int) t).2 with
      | error e => rfl
      | ok r => rfl
    · rw [if_pos (by omega), if_neg hlt]
      rfl

/-- The thread ids `t` with `created[t] == true` after the spawn loop of `cc_pthreads`
(lines 93-113): those whose clamped range has `start < end`. -/
def createdThreads (n : Nat) (num_threads : Int) : List Nat :=
  (forRange 0 num_threads.toNat).filter (fun t =>
    decide ((threadRange n (chunkSize n num_threads) t).1 <
      (threadRange n (chunkSize n num_threads) t).2))

/-- In the words of the claim: one worker per listed thread, each run on the range of
its thread, one after the other, the change flags or-ed together. -/
def runWorkers (g : CSRGraph) (label_old : List Nat) (chunk : Int) :
    List Nat → List Nat → Bool → Except Err (List Nat × Bool)
  | [], label_new, changed => .ok (label_new, changed)
  | t :: ts, label_new, changed =>
    match worker g label_old label_new (threadRange g.n chunk t).1
        (threadRange g.n chunk t).2 with
    | .error err => .error err
    | .ok (label_new1, c) => runWorkers g label_old chunk ts label_new1 (if c then true else changed)

/-- The spawn and join loops run a worker for exactly the threads of the list whose
range is not empty. -/
theorem spawnJoin_eq_runWorkers (g : CSRGraph) (label_old : List Nat) (chunk : Int)
    (ts : List Nat) : ∀ (label_new : List Nat) (changed : Bool),
    spawnJoin g label_old chunk ts label_new changed =
      runWorkers g label_old chunk
        (ts.filter (fun t => decide ((threadRange g.n chunk t).1 < (threadRange g.n chunk t).2)))
        label_new changed := by
  induction ts with
  | nil => intro nl ch; rfl
  | cons t ts ih =>
    intro nl ch
    rw [spawnJoin_cons]
    by_cases hlt : (threadRange g.n chunk t).1 < (threadRange g.n chunk t).2
    · rw [if_neg (by omega), List.filter_cons_of_pos (by simpa using hlt), runWorkers]
      cases worker g label_old nl (threadRange g.n chunk t).1 (threadRange g.n chunk t).2 with
      | error e => rfl
      | ok r => exact ih _ _
    · rw [if_pos (by omega), List.filter_cons_of_neg (by simpa using hlt)]
      exact ih _ _

/-- A worker on the range `[s, e)` inside `[0, n)` writes the per-vertex value at the
indices of its range and leaves every other entry of `label_new` as it was. -/
theorem worker_range (g : CSRGraph) (hg : g.Valid) (label new_label : List Nat)
    (hl : label.length = g.n) (hnl : new_label.length = g.n) (s e : Nat) (he : e ≤ g.n) :
    ∃ nl1 c, worker g label new_label (s : Int) (e : Int) = .ok (nl1, c) ∧
      nl1.length = g.n ∧
      (∀ v, v < g.n → nl1.getD v 0 =
        if s ≤ v ∧ v < e then bestOf g label v else new_label.getD v 0) ∧
      (c = true ↔ ∃ v, s ≤ v ∧ v < e ∧ bestOf g label v ≠ label.getD v 0) := by
  have hneg : ¬ (((s : Int) < (e : Int)) ∧ ((s : Int) < 0)) := by omega
  have hvs : ∀ v ∈ forRange s e, v < g.n := fun v hv => by
    have := (mem_forRange.1 hv).2; omega
  refine ⟨writeAll (bestOf g label) (forRange s e) new_label,
    false || (forRange s e).any (fun v => bestOf g label v != label.getD v 0),
    ?_, ?_, ?_, ?_⟩
  · rw [worker, if_neg hneg, Int.toNat_natCast, Int.toNat_natCast, workerLoop_eq_passOver,
      passOver_eq g hg label hl _ new_label false hnl hvs]
  · rw [writeAll_length, hnl]
  · intro v hv
    rw [List.getD_eq_getElem?_getD, writeAll_getElem? _ _ _ v (by omega)]
    by_cases hm : v ∈ forRange s e
    · rw [if_pos hm, if_pos (mem_forRange.1 hm)]; rfl
    · rw [if_neg hm, if_neg (fun h => hm (mem_forRange.2 h)), List.getD_eq_getElem?_getD]
  · rw [Bool.false_or, List.any_eq_true]
    constructor
    · rintro ⟨v, hv, hne⟩
      exact ⟨v, (mem_forRange.1 hv).1, (mem_forRange.1 hv).2, by simpa using hne⟩
    · rintro ⟨v, h1, h2, hne⟩
      exact ⟨v, mem_forRange.2 ⟨h1, h2⟩, by simpa using hne⟩

theorem mem_createdThreads (n : Nat) (num_threads : Int) (t : Nat) :
    t ∈ createdThreads n num_threads ↔ (t : Int) < num_threads ∧
      (threadRange n (chunkSize n num_threads) t).1 <
        (threadRange n (chunkSize n num_threads) t).2 := by
  rw [createdThreads, List.mem_filter, mem_forRange, decide_eq_true_iff]
  constructor
  · rintro ⟨⟨-, h⟩, h2⟩; exact ⟨by omega, h2⟩
  · rintro ⟨h, h2⟩; exact ⟨⟨Nat.zero_le _, by omega⟩, h2⟩

/-- One pass of `cc_pthreads` is the run of the workers of the created threads. -/
theorem pthreadsPass_eq_runWorkers (g : CSRGraph) (num_threads : Int) (hnt : 1 ≤ num_threads)
    (label new_label : List Nat) :
    pthreadsPass g num_threads label new_label =
      runWorkers g label (chunkSize g.n num_threads) (createdThreads g.n num_threads)
        new_label false := by
  rw [pthreadsPass, if_neg (by omega), spawnJoin_eq_runWorkers]
  rfl

/-- C16: for `n ≥ 0` vertices and `num_threads ≥ 1` with `n + num_threads - 1`
representable as a 32-bit signed int, `chunk` is `ceil(n / num_threads)` and the ranges
`[start_t, end_t)` computed by `cc_pthreads` for `t = 0 .. num_threads-1` lie in
`[0, n]`, have length at most `chunk`, start at 0, are contiguous (each ends where the
next starts) and end at `n`.  On every valid graph with `n` vertices a pass of
`cc_pthreads` is the run of one worker for each thread whose range is not empty and of no
other; the worker of thread `t` writes the per-vertex value at the indices of
`[start_t, end_t)` and leaves the rest of `label_new` untouched; every vertex lies in
the range of exactly one created worker; and the pass returns a buffer in which every
vertex holds its per-vertex value, with the or of the change flags. -/
theorem thread_ranges_partition (n : Nat) (num_threads : Int) (hnt : 1 ≤ num_threads)
    (hrep : (n : Int) + num_threads - 1 ≤ 2147483647) :
    (num_threads * (chunkSize n num_threads - 1) < (n : Int) ∧
      (n : Int) ≤ num_threads * chunkSize n num_threads) ∧
    (threadRange n (chunkSize n num_threads) 0).1 = 0 ∧
    (∀ t : Nat, (t : Int) < num_threads →
      0 ≤ (threadRange n (chunkSize n num_threads) t).1 ∧
      (threadRange n (chunkSize n num_threads) t).1 ≤
        (threadRange n (chunkSize n num_threads) t).2 ∧
      (threadRange n (chunkSize n num_threads) t).2 ≤ (n : Int) ∧
      (threadRange n (chunkSize n num_threads) t).2 -
        (threadRange n (chunkSize n num_threads) t).1 ≤ chunkSize n num_threads) ∧
    (∀ t : Nat, (t : Int) + 1 < num_threads →
      (threadRange n (chunkSize n num_threads) t).2 =
        (threadRange n (chunkSize n num_threads) (t + 1)).1) ∧
    (threadRange n (chunkSize n num_threads) (num_threads - 1).toNat).2 = (n : Int) ∧
    (∀ t : Nat, t ∈ createdThreads n num_threads ↔ ((t : Int) < num_threads ∧
      (threadRange n (chunkSize n num_threads) t).1 <
        (threadRange n (chunkSize n num_threads) t).2)) ∧
    (∀ v : Nat, v < n → ∃! t : Nat, t ∈ createdThreads n num_threads ∧
      (threadRange n (chunkSize n num_threads) t).1 ≤ (v : Int) ∧
      (v : Int) < (threadRange n (chunkSize n num_threads) t).2) ∧
    ∀ (g : CSRGraph), g.Valid → g.n = n →
      ∀ (label new_label : List Nat), label.length = n → new_label.length = n →
      (∀ (t : Nat) (ts : List Nat) (changed : Bool),
        spawnJoin g label (chunkSize n num_threads) (t :: ts) new_label changed =
          if (threadRange n (chunkSize n num_threads) t).1 <
              (threadRange n (chunkSize n num_threads) t).2 then
            match worker g label new_label (threadRange n (chunkSize n num_threads) t).1
                (threadRange n (chunkSize n num_threads) t).2 with
            | .error err => .error err
            | .ok (label_new1, c) =>
              spawnJoin g label (chunkSize n num_threads) ts label_new1
                (if c then true else changed)
          else spawnJoin g label (chunkSize n num_threads) ts new_label changed) ∧
      pthreadsPass g num_threads label new_label =
        runWorkers g label (chunkSize n num_threads) (createdThreads n num_threads)
          new_label false ∧
      (∀ t ∈ createdThreads n num_threads, ∃ nl1 c,
        worker g label new_label (threadRange n (chunkSize n num_threads) t).1
          (threadRange n (chunkSize n num_threads) t).2 = .ok (nl1, c) ∧
        nl1.length = n ∧
        (∀ v, v < n → nl1.getD v 0 =
          if (threadRange n (chunkSize n num_threads) t).1 ≤ (v : Int) ∧
              (v : Int) < (threadRange n (chunkSize n num_threads) t).2
          then bestOf g label v else new_label.getD v 0) ∧
        (c = true ↔ ∃ v : Nat, (threadRange n (chunkSize n num_threads) t).1 ≤ (v : Int) ∧
          (v : Int) < (threadRange n (chunkSize n num_threads) t).2 ∧
          bestOf g label v ≠ label.getD v 0)) ∧
      ∃ next changed, pthreadsPass g num_threads label new_label = .ok (next, changed) ∧
        next.length = n ∧ (∀ v, v < n → next.getD v 0 = bestOf g label v) ∧
        (changed = true ↔ ∃ v, v < n ∧ bestOf g label v ≠ label.getD v 0) := by
  obtain ⟨h1, h2, h3, h4, h5, h6, -⟩ := threadRange_facts n num_threads hnt hrep
  refine ⟨h1, h2, h3, h4, h5, mem_createdThreads n num_threads, ?_, ?_⟩
  · intro v hv
    obtain ⟨t, ⟨ht, hlo, hhi⟩, huniq⟩ := h6 v hv
    refine ⟨t, ⟨(mem_createdThreads n num_threads t).2 ⟨ht, by omega⟩, hlo, hhi⟩, ?_⟩
    rintro t2 ⟨hm, hlo2, hhi2⟩
    exact huniq t2 ⟨((mem_createdThreads n num_threads t2).1 hm).1, hlo2, hhi2⟩
  · intro g hg hgn label new_label hl hnl
    subst hgn
    refine ⟨?_, pthreadsPass_eq_runWorkers g num_threads hnt label new_label, ?_, ?_⟩
    · intro t ts changed
      rw [spawnJoin_cons]
      by_cases hlt : (threadRange g.n (chunkSize g.n num_threads) t).1 <
          (threadRange g.n (chunkSize g.n num_threads) t).2
      · rw [if_neg (by omega), if_pos hlt]
      · rw [if_pos (by omega), if_neg hlt]
    · intro t ht
      have htk := ((mem_createdThreads g.n num_threads t).1 ht).1
      obtain ⟨k, rfl⟩ := Int.eq_ofNat_of_zero_le (by omega : 0 ≤ num_threads)
      have hk : 1 ≤ k := by omega
      have hb : g.n + k - 1 < 2147483648 := by omega
      rw [chunkSize_natCast g.n k hk hb,
        threadRange_natCast g.n _ t (chunk_bound g.n k t (by omega) hb)]
      dsimp only
      obtain ⟨nl1, c, hrun, hlen, hval, hch⟩ := worker_range g hg label new_label hl hnl
        (min (t * ((g.n + k - 1) / k)) g.n)
        (min (t * ((g.n + k - 1) / k) + (g.n + k - 1) / k) g.n) (Nat.min_le_right _ _)
      refine ⟨nl1, c, hrun, hlen, ?_, ?_⟩
      · intro v hv
        rw [hval v hv]
        generalize min (t * ((g.n + k - 1) / k)) g.n = s
        generalize min (t * ((g.n + k - 1) / k) + (g.n + k - 1) / k) g.n = e
        by_cases hc : s ≤ v ∧ v < e
        · rw [if_pos hc, if_pos (by omega)]
        · rw [if_neg hc, if_neg (by omega)]
      · rw [hch]
        constructor
        · rintro ⟨v, a, b, hne⟩; exact ⟨v, by omega, by omega, hne⟩
        · rintro ⟨v, a, b, hne⟩; exact ⟨v, by omega, by omega, hne⟩
    · refine ⟨stepL g label, decide (stepL g label ≠ label),
        purePass_pthreads hg num_threads hnt hrep 0 label new_label hl hnl,
        stepL_length g label, fun v hv => stepL_getD g label v hv, ?_⟩
      rw [decide_eq_true_iff, stepL_ne_iff g label hl]

/-- Witness for C16: four vertices and three threads give `chunk = 2` and the ranges
`[0,2)`, `[2,4)`, `[4,4)`; workers are created for threads 0 and 1 only. -/
theorem thread_ranges_partition_witness :
    (1 : Int) ≤ 3 ∧ ((4 : Nat) : Int) + 3 - 1 ≤ 2147483647 ∧
    chunkSize 4 3 = 2 ∧
    (List.range 3).map (threadRange 4 (chunkSize 4 3)) = [(0, 2), (2, 4), (4, 4)] ∧
    createdThreads 4 3 = [0, 1] ∧
    pthreadsPass pathGraph 3 [0, 1, 2, 3] [9, 9, 9, 9] = .ok ([0, 0, 1, 2], true) ∧
    worker pathGraph [0, 1, 2, 3] [9, 9, 9, 9] 2 4 = .ok ([9, 9, 1, 2], true) ∧
    ∀ v : Nat, v < 4 → ∃! t : Nat, t ∈ createdThreads 4 3 ∧
      (threadRange 4 (chunkSize 4 3) t).1 ≤ (v : Int) ∧
      (v : Int) < (threadRange 4 (chunkSize 4 3) t).2 :=
  ⟨by decide, by decide, by decide, by decide, by decide, rfl, rfl,
    (thread_ranges_partition 4 3 (by decide) (by decide)).2.2.2.2.2.2.1⟩

/-- The two buffers after the first `k` executions of the body of the `while` loop
(one pass, then the swap), the exit test left aside. -/
def loopPrefix (pass : Nat → List Nat → List Nat → Except Err (List Nat × Bool)) :
    Nat → Nat → List Nat → List Nat → Except Err (List Nat × List Nat)
  | 0, _, label, new_label => .ok (label, new_label)
  | k + 1, iterations, label, new_label =>
    match pass iterations label new_label with
    | .error err => .error err
    | .ok (new_label1, _) => loopPrefix pass k (iterations + 1) new_label1 label

/-- The `label` buffer of `cc_sequential` after initialisation and `k` passes. -/
def cc_sequential_after (g : CSRGraph) (label : List Nat) (k : Nat) : Except Err (List Nat) :=
  match initLabels (forRange 0 g.n) (vecResize label g.n) with
  | .error err => .error err
  | .ok label0 =>
    match loopPrefix (fun _ l nl => passOver g l (forRange 0 g.n) nl false)
        k 0 label0 (vecNew g.n) with
    | .error err => .error err
    | .ok (l, _) => .ok l

/-- The `label` buffer of `cc_pthreads` after initialisation and `k` passes. -/
def cc_pthreads_after (g : CSRGraph) (label : List Nat) (num_threads : Int) (k : Nat) :
    Except Err (List Nat) :=
  match initLabels (forRange 0 g.n) (vecResize label g.n) with
  | .error err => .error err
  | .ok label0 =>
    match loopPrefix (fun _ l nl => pthreadsPass g num_threads l nl) k 0 label0 (vecNew g.n) with
    | .error err => .error err
    | .ok (l, _) => .ok l

theorem loopPrefix_pure (g : CSRGraph)
    (pass : Nat → List Nat → List Nat → Except Err (List Nat × Bool))
    (hpass : PurePass g pass) (k : Nat) :
    ∀ (it : Nat) (l nl : List Nat), l.length = g.n → nl.length = g.n →
      ∃ buf, loopPrefix pass k it l nl = .ok ((stepL g)^[k] l, buf) ∧ buf.length = g.n := by
  induction k with
  | zero => intro it l nl _ hnl; exact ⟨nl, rfl, hnl⟩
  | succ k ih =>
    intro it l nl hl hnl
    obtain ⟨buf, hrun, hbuf⟩ := ih (it + 1) (stepL g l) l (stepL_length g l) hl
    refine ⟨buf, ?_, hbuf⟩
    rw [loopPrefix, hpass it l nl hl hnl]
    dsimp only
    rw [hrun, Function.iterate_succ_apply]

/-- The loop returns the buffer reached by its executed passes: a run that returns
after `p` passes returns the `label` buffer of the `p`-pass prefix. -/
theorem convergenceLoop_eq_prefix
    (pass : Nat → List Nat → List Nat → Except Err (List Nat × Bool)) (fuel : Nat) :
    ∀ (it : Nat) (l nl L : List Nat) (p : Nat),
      convergenceLoop pass fuel it l nl = .ok (L, p) →
      it < p ∧ ∃ buf, loopPrefix pass (p - it) it l nl = .ok (L, buf) := by
  induction fuel with
  | zero => intro it l nl L p h; simp [convergenceLoop] at h
  | succ f ih =>
    intro it l nl L p h
    rw [convergenceLoop] at h
    cases hp : pass it l nl with
    | error e => rw [hp] at h; simp at h
    | ok res =>
      obtain ⟨nl1, c⟩ := res
      rw [hp] at h
      dsimp only at h
      cases c with
      | false =>
        simp only [Bool.false_eq_true, if_false] at h
        have h2 := Except.ok.inj h
        have h3 : nl1 = L := congrArg Prod.fst h2
        have h4 : it + 1 = p := congrArg Prod.snd h2
        subst h3 h4
        refine ⟨by omega, l, ?_⟩
        have : it + 1 - it = 0 + 1 := by omega
        rw [this, loopPrefix, hp]
        rfl
      | true =>
        simp only [if_true] at h
        obtain ⟨hlt, buf, hrun⟩ := ih _ _ _ _ _ h
        refine ⟨by omega, buf, ?_⟩
        have : p - it = (p - (it + 1)) + 1 := by omega
        rw [this, loopPrefix, hp]
        exact hrun

theorem cc_sequential_after_eq {g : CSRGraph} (hg : g.Valid) (vec : List Nat) (k : Nat) :
    cc_sequential_after g vec k = .ok (labelsAfter g k) := by
  obtain ⟨buf, hrun, _⟩ := loopPrefix_pure g _ (purePass_sequential hg) k 0
    (List.range g.n) (vecNew g.n) (by simp) (vecNew_length _)
  rw [cc_sequential_after, initLabels_full (forRange 0 g.n) vec g.n
    (fun v => by simp [mem_forRange])]
  dsimp only
  rw [hrun]
  rfl

theorem cc_pthreads_after_eq {g : CSRGraph} (hg : g.Valid) (num_threads : Int)
    (hnt : 1 ≤ num_threads) (hrep : (g.n : Int) + num_threads - 1 ≤ 2147483647)
    (vec : List Nat) (k : Nat) :
    cc_pthreads_after g vec num_threads k = .ok (labelsAfter g k) := by
  obtain ⟨buf, hrun, _⟩ := loopPrefix_pure g _ (purePass_pthreads hg num_threads hnt hrep) k 0
    (List.range g.n) (vecNew g.n) (by simp) (vecNew_length _)
  rw [cc_pthreads_after, initLabels_full (forRange 0 g.n) vec g.n
    (fun v => by simp [mem_forRange])]
  dsimp only
  rw [hrun]
  rfl

/-- C20: on a valid symmetric CSR graph, for every `k` up to the number of passes that
`cc_sequential` executes, the label of a vertex `v` after `k` passes is the least vertex
id among the vertices within `k` edges of `v`; it is the id of a vertex of the component
of `v` and is at most `v`.  The labels after the last pass are the labels returned, and
`cc_pthreads` holds the same labels after `k` passes whenever `n + num_threads - 1` is
representable. -/
theorem labels_after_passes_are_ball_minima (g : CSRGraph) (hg : g.Valid)
    (hs : g.Symmetric) (vec : List Nat) :
    ∃ L passes,
      (∀ fuel, g.n < fuel → cc_sequential g vec fuel = .ok (L, passes)) ∧
      cc_sequential_after g vec passes = .ok L ∧
      ∀ k, k ≤ passes → ∃ Lk, cc_sequential_after g vec k = .ok Lk ∧ Lk.length = g.n ∧
        (∀ v, v < g.n → ∃ m, Lk[v]? = some m ∧ Within g k v m ∧
          (∀ w, Within g k v w → m ≤ w) ∧ Connected g v m ∧ Connected g m v ∧ m ≤ v) ∧
        ∀ num_threads : Int, 1 ≤ num_threads →
          (g.n : Int) + num_threads - 1 ≤ 2147483647 →
          cc_pthreads_after g vec num_threads k = .ok Lk := by
  obtain ⟨j, hj, hfix, _, hrun⟩ := cc_sequential_run hg vec
  have hlast : labelsAfter g (j + 1) = labelsAfter g j := by
    rw [labelsAfter_succ, hfix]
  refine ⟨labelsAfter g j, j + 1, fun fuel hf => hrun fuel (by omega), ?_, ?_⟩
  · rw [cc_sequential_after_eq hg, hlast]
  · intro k _
    refine ⟨labelsAfter g k, cc_sequential_after_eq hg vec k, labelsAfter_length g k, ?_,
      fun num_threads hnt hrep => cc_pthreads_after_eq hg num_threads hnt hrep vec k⟩
    intro v hv
    have hw := labelsAfter_within hg k v hv
    have hlv : v < (labelsAfter g k).length := by rw [labelsAfter_length]; exact hv
    have hc := connected_of_within hw.1
    exact ⟨_, getElem?_eq_some_getD hlv, hw.1, hw.2, hc, connected_symm hg hs hc,
      hw.2 v (Within.refl _ _)⟩

/-- Witness for C20 on the path 0-1-2-3. -/
theorem labels_after_passes_are_ball_minima_witness :
    pathGraph.Valid ∧ pathGraph.Symmetric ∧
    cc_sequential_after pathGraph [] 2 = .ok [0, 0, 0, 1] ∧
    cc_pthreads_after pathGraph [] 2 2 = .ok [0, 0, 0, 1] ∧
    ∃ L passes,
      (∀ fuel, pathGraph.n < fuel → cc_sequential pathGraph [] fuel = .ok (L, passes)) ∧
      cc_sequential_after pathGraph [] passes = .ok L ∧
      ∀ k, k ≤ passes → ∃ Lk, cc_sequential_after pathGraph [] k = .ok Lk ∧
        Lk.length = pathGraph.n ∧
        (∀ v, v < pathGraph.n → ∃ m, Lk[v]? = some m ∧ Within pathGraph k v m ∧
          (∀ w, Within pathGraph k v w → m ≤ w) ∧ Connected pathGraph v m ∧
          Connected pathGraph m v ∧ m ≤ v) ∧
        ∀ num_threads : Int, 1 ≤ num_threads →
          (pathGraph.n : Int) + num_threads - 1 ≤ 2147483647 →
          cc_pthreads_after pathGraph [] num_threads k = .ok Lk :=
  ⟨by decide, by decide, rfl, rfl,
    labels_after_passes_are_ball_minima pathGraph (by decide) (by decide) []⟩

/-! ## The number of passes -/

/-- Decision procedure for "`w` is within `k` edges of `v`". -/
def withinB (g : CSRGraph) : Nat → Nat → Nat → Bool
  | 0, v, w => v == w
  | k + 1, v, w => v == w || (decide (v < g.n) && (nbrs g v).any (fun u => withinB g k u w))

/-- The least number below `bound` that satisfies `p`, if there is one. -/
def leastBelow (p : Nat → Bool) : Nat → Option Nat
  | 0 => none
  | b + 1 =>
    match leastBelow p b with
    | some k => some k
    | none => if p b then some b else none

/-- The graph distance from `v` to `w`: the least number of edges of a walk from `v` to
`w` (`none` when `w` is not reachable from `v`). -/
def graphDist (g : CSRGraph) (v w : Nat) : Option Nat :=
  leastBelow (fun k => withinB g k v w) g.n

/-- The minimum vertex id of the component of `v`. -/
def componentMin (g : CSRGraph) (v : Nat) : Nat :=
  (leastBelow (fun w => withinB g (g.n - 1) v w) g.n).getD v

/-- The pass count in the words of the claim: one more than the maximum over the
vertices `v` of the graph distance from `v` to the minimum-id vertex of the component
of `v`, the maximum over no vertices being 0. -/
def expectedPasses (g : CSRGraph) : Nat :=
  1 + ((List.range g.n).map
    (fun v => (graphDist g v (componentMin g v)).getD 0)).foldl max 0

theorem withinB_iff (g : CSRGraph) (k : Nat) :
    ∀ v w, withinB g k v w = true ↔ Within g k v w := by
  induction k with
  | zero =>
    intro v w
    simp only [withinB, beq_iff_eq]
    constructor
    · rintro rfl; exact Within.refl _ _
    · intro h; exact (within_zero h).symm
  | succ k ih =>
    intro v w
    simp only [withinB, Bool.or_eq_true, beq_iff_eq, Bool.and_eq_true, decide_eq_true_eq,
      List.any_eq_true]
    constructor
    · rintro (rfl | ⟨hv, u, hu, hw⟩)
      · exact Within.refl _ _
      · exact Within.step ⟨hv, hu⟩ ((ih u w).1 hw)
    · intro h
      cases h with
      | refl => exact Or.inl rfl
      | step hadj h2 => exact Or.inr ⟨hadj.1, _, hadj.2, (ih _ w).2 h2⟩

theorem leastBelow_none {p : Nat → Bool} {b : Nat} (h : leastBelow p b = none) :
    ∀ i, i < b → p i = false := by
  induction b with
  | zero => intro i hi; omega
  | succ b ih =>
    rw [leastBelow] at h
    cases hb : leastBelow p b with
    | some k1 => rw [hb] at h; exact absurd h (by simp)
    | none =>
      rw [hb] at h
      dsimp only at h
      by_cases hp : p b = true
      · rw [if_pos hp] at h; exact absurd h (by simp)
      · intro i hi
        rcases Nat.lt_succ_iff_lt_or_eq.1 hi with h1 | h1
        · exact ih hb i h1
        · subst h1; simpa using hp

theorem leastBelow_some {p : Nat → Bool} {b k : Nat} (h : leastBelow p b = some k) :
    k < b ∧ p k = true ∧ ∀ i, i < k → p i = false := by
  induction b with
  | zero => simp [leastBelow] at h
  | succ b ih =>
    rw [leastBelow] at h
    cases hb : leastBelow p b with
    | some k1 =>
      rw [hb] at h
      have : k1 = k := Option.some.inj h
      subst this
      obtain ⟨h1, h2, h3⟩ := ih hb
      exact ⟨by omega, h2, h3⟩
    | none =>
      rw [hb] at h
      dsimp only at h
      by_cases hp : p b = true
      · rw [if_pos hp] at h
        have : b = k := Option.some.inj h
        subst this
        refine ⟨by omega, hp, ?_⟩
        intro i hi
        by_contra hpi
        have hpi2 : p i = true := by simpa using hpi
        have := leastBelow_none hb i hi
        rw [this] at hpi2
        exact Bool.false_ne_true hpi2
      · rw [if_neg hp] at h
        exact absurd h (by simp)

/-- The search finds the least number that satisfies `p` when there is one below the
bound. -/
theorem leastBelow_of_least {p : Nat → Bool} {b m : Nat} (hm : m < b) (hp : p m = true)
    (hmin : ∀ i, i < m → p i = false) : leastBelow p b = some m := by
  cases h : leastBelow p b with
  | none =>
    have := leastBelow_none h m hm
    rw [this] at hp
    exact absurd hp (by simp)
  | some k =>
    obtain ⟨_, h2, h3⟩ := leastBelow_some h
    rcases Nat.lt_trichotomy k m with hlt | heq | hgt
    · have := hmin k hlt
      rw [this] at h2
      exact absurd h2 (by simp)
    · rw [heq]
    · have := h3 m hgt
      rw [this] at hp
      exact absurd hp (by simp)

theorem leastBelow_exists {p : Nat → Bool} {b m : Nat} (hm : m < b) (hp : p m = true) :
    ∃ k, leastBelow p b = some k ∧ k ≤ m ∧ p k = true ∧ ∀ i, i < k → p i = false := by
  cases h : leastBelow p b with
  | none =>
    have := leastBelow_none h m hm
    rw [this] at hp
    exact absurd hp (by simp)
  | some k =>
    obtain ⟨_, h2, h3⟩ := leastBelow_some h
    refine ⟨k, rfl, ?_, h2, h3⟩
    by_contra hlt
    have := h3 m (by omega)
    rw [this] at hp
    exact absurd hp (by simp)

theorem foldl_max_ge_init (l : List Nat) (a : Nat) : a ≤ l.foldl max a := by
  induction l generalizing a with
  | nil => exact le_refl _
  | cons x l ih => exact le_trans (le_max_left a x) (ih _)

theorem foldl_max_ge_mem (l : List Nat) (a x : Nat) (hx : x ∈ l) : x ≤ l.foldl max a := by
  induction l generalizing a with
  | nil => cases hx
  | cons y l ih =>
    rcases List.mem_cons.1 hx with rfl | h
    · exact le_trans (le_max_right a x) (foldl_max_ge_init l _)
    · exact ih _ h

theorem foldl_max_mem (l : List Nat) (a : Nat) : l.foldl max a = a ∨ l.foldl max a ∈ l := by
  induction l generalizing a with
  | nil => exact Or.inl rfl
  | cons y l ih =>
    rw [List.foldl_cons]
    rcases ih (max a y) with h | h
    · rw [h]
      rcases max_choice a y with h2 | h2
      · exact Or.inl h2
      · exact Or.inr (by rw [h2]; exact List.mem_cons_self _ _)
    · exact Or.inr (List.mem_cons_of_mem _ h)

/-- On a valid graph `componentMin` is the label of the stable labelling, and the
distance to it is found. -/
theorem componentMin_eq {g : CSRGraph} (hg : g.Valid) {j : Nat}
    (hfix : stepL g (labelsAfter g j) = labelsAfter g j) {v : Nat} (hv : v < g.n) :
    componentMin g v = (labelsAfter g j).getD v 0 := by
  have hmin := stable_labels_min hg hfix hv
  have hw := (labelsAfter_within hg j v hv).1
  have hlt := within_lt hg hw hv
  have h1 : leastBelow (fun w => withinB g (g.n - 1) v w) g.n =
      some ((labelsAfter g j).getD v 0) := by
    apply leastBelow_of_least hlt
    · exact (withinB_iff g _ v _).2 (within_bound hg hv hw)
    · intro i hi
      by_contra hp
      have hp2 : withinB g (g.n - 1) v i = true := by simpa using hp
      have := hmin.2 i (connected_of_within ((withinB_iff g _ v i).1 hp2))
      omega
  rw [componentMin, h1]
  rfl

theorem graphDist_spec {g : CSRGraph} (hg : g.Valid) {v w k : Nat} (hv : v < g.n)
    (hw : Within g k v w) :
    ∃ d, graphDist g v w = some d ∧ d ≤ k ∧ Within g d v w ∧
      ∀ i, i < d → ¬ Within g i v w := by
  have hb := within_bound hg hv hw
  obtain ⟨d, hd, hle, hp, hmin⟩ := leastBelow_exists (p := fun k => withinB g k v w)
    (b := g.n) (m := g.n - 1) (by omega) ((withinB_iff g _ v w).2 hb)
  have hdw : Within g d v w := (withinB_iff g d v w).1 hp
  refine ⟨d, hd, ?_, hdw, ?_⟩
  · by_contra hlt
    have := hmin k (by omega)
    rw [(withinB_iff g k v w).2 hw] at this
    exact absurd this (by simp)
  · intro i hi hwi
    have := hmin i hi
    rw [(withinB_iff g i v w).2 hwi] at this
    exact absurd this (by simp)

/-- The first stable position is the largest distance from a vertex to the least id
reachable from it. -/
theorem first_stable_eq_max_dist {g : CSRGraph} (hg : g.Valid) {j : Nat}
    (hfix : stepL g (labelsAfter g j) = labelsAfter g j)
    (hmin : ∀ i, i < j → stepL g (labelsAfter g i) ≠ labelsAfter g i) :
    j + 1 = expectedPasses g := by
  have hd : ∀ v, v < g.n → ∃ d, graphDist g v (componentMin g v) = some d ∧ d ≤ j ∧
      Within g d v ((labelsAfter g j).getD v 0) := by
    intro v hv
    rw [componentMin_eq hg hfix hv]
    obtain ⟨d, h1, h2, h3, _⟩ := graphDist_spec hg hv (labelsAfter_within hg j v hv).1
    exact ⟨d, h1, h2, h3⟩
  have hle : ∀ x ∈ (List.range g.n).map
      (fun v => (graphDist g v (componentMin g v)).getD 0), x ≤ j := by
    intro x hx
    obtain ⟨v, hv, rfl⟩ := List.mem_map.1 hx
    obtain ⟨d, h1, h2, _⟩ := hd v (List.mem_range.1 hv)
    rw [h1]; exact h2
  generalize hD : ((List.range g.n).map
      (fun v => (graphDist g v (componentMin g v)).getD 0)).foldl max 0 = D
  have hDle : D ≤ j := by
    rcases foldl_max_mem ((List.range g.n).map
      (fun v => (graphDist g v (componentMin g v)).getD 0)) 0 with h | h
    · rw [hD] at h; omega
    · rw [hD] at h; exact hle D h
  have hDge : ∀ v, v < g.n → Within g D v ((labelsAfter g j).getD v 0) := by
    intro v hv
    obtain ⟨d, h1, _, h3⟩ := hd v hv
    refine within_mono ?_ h3
    rw [← hD]
    apply foldl_max_ge_mem
    exact List.mem_map.2 ⟨v, List.mem_range.2 hv, by rw [h1]; rfl⟩
  have heq : labelsAfter g D = labelsAfter g j := by
    apply list_eq_of_getD (labelsAfter_length g D) (labelsAfter_length g j)
    intro v hv
    apply le_antisymm
    · exact (labelsAfter_within hg D v hv).2 _ (hDge v hv)
    · exact (stable_labels_min hg hfix hv).2 _
        (connected_of_within (labelsAfter_within hg D v hv).1)
  have hstab : stepL g (labelsAfter g D) = labelsAfter g D := by rw [heq, hfix]
  have hjle : j ≤ D := by
    by_contra hlt
    exact hmin D (by omega) hstab
  rw [expectedPasses, hD]
  omega

/-- The pass-count formula: on a valid symmetric CSR graph the number of passes executed by the
convergence loop (the `iterations` of `cc_openmp` / `cc_opencilk` under any schedule,
the pass count of `cc_sequential`, and that of `cc_pthreads` when
`n + num_threads - 1` is representable) is `expectedPasses g`: one more than the
largest graph distance from a vertex to the minimum-id vertex of its component, the
maximum over no vertices being 0.  For every vertex `componentMin` is the returned
label, a vertex of its component below which no vertex of the component lies, and
`graphDist` to it is the least length of a walk.  The count is 1 for the empty graph and
for an edgeless graph, and 4 for the path 0-1-2-3. -/
theorem pass_count_is_one_plus_max_distance (g : CSRGraph) (hg : g.Valid)
    (hs : g.Symmetric) (vec init_order : List Nat) (sched : Nat → List Nat)
    (hinit : init_order.Perm (List.range g.n))
    (hsched : ∀ k, (sched k).Perm (List.range g.n))
    (num_threads : Int) (hnt : 1 ≤ num_threads)
    (hrep : (g.n : Int) + num_threads - 1 ≤ 2147483647) :
    (∃ L, (∀ fuel, g.n < fuel →
        cc_sequential g vec fuel = .ok (L, expectedPasses g) ∧
        cc_openmp g vec init_order sched fuel = .ok (L, expectedPasses g) ∧
        cc_opencilk g vec init_order sched fuel = .ok (L, expectedPasses g) ∧
        cc_pthreads g vec num_threads fuel = .ok (L, expectedPasses g)) ∧
      ∀ v, v < g.n → L[v]? = some (componentMin g v) ∧
        Connected g v (componentMin g v) ∧ Connected g (componentMin g v) v ∧
        (∀ w, Connected g v w → componentMin g v ≤ w) ∧
        ∃ d, graphDist g v (componentMin g v) = some d ∧
          Within g d v (componentMin g v) ∧
          ∀ i, i < d → ¬ Within g i v (componentMin g v)) ∧
    expectedPasses emptyGraph = 1 ∧ expectedPasses twoIsolated = 1 ∧
    expectedPasses pathGraph = 4 := by
  refine ⟨?_, by decide, by decide, by decide⟩
  obtain ⟨j, hj, hfix, hmin, hrun⟩ := cc_sequential_run hg vec
  have hcount := first_stable_eq_max_dist hg hfix hmin
  have hpar := convergenceLoop_congr g _ _ (purePass_schedule hg sched hsched)
    (purePass_sequential hg)
  have hpt := convergenceLoop_congr g _ _ (purePass_pthreads hg num_threads hnt hrep)
    (purePass_sequential hg)
  refine ⟨labelsAfter g j, fun fuel hf => ?_, fun v hv => ?_⟩
  · have hseq := hrun fuel (by omega)
    rw [hcount] at hseq
    have h1 := hpar fuel 0 (List.range g.n) (vecNew g.n) (by simp) (vecNew_length _)
    have h2 := hpt fuel 0 (List.range g.n) (vecNew g.n) (by simp) (vecNew_length _)
    rw [cc_openmp_eq g vec init_order sched fuel hinit,
      cc_opencilk_eq g vec init_order sched fuel hinit, cc_pthreads_eq, h1, h2,
      ← cc_sequential_eq g vec fuel]
    exact ⟨hseq, hseq, hseq, hseq⟩
  · have hlv : v < (labelsAfter g j).length := by rw [labelsAfter_length]; exact hv
    have hm := stable_labels_min hg hfix hv
    rw [componentMin_eq hg hfix hv]
    obtain ⟨d, h1, _, h3, h4⟩ := graphDist_spec hg hv (labelsAfter_within hg j v hv).1
    exact ⟨getElem?_eq_some_getD hlv, hm.1, connected_symm hg hs hm.1, hm.2, d, h1, h3, h4⟩

/-- The pass-count formula on the path 0-1-2-3 with two threads and a reversed schedule. -/
theorem pass_count_is_one_plus_max_distance_witness :
    pathGraph.Valid ∧ pathGraph.Symmetric ∧ expectedPasses pathGraph = 4 ∧
    cc_sequential pathGraph [] 5 = .ok ([0, 0, 0, 0], 4) ∧
    ∃ L, ∀ fuel, pathGraph.n < fuel →
      cc_sequential pathGraph [] fuel = .ok (L, expectedPasses pathGraph) ∧
      cc_openmp pathGraph [] [3, 2, 1, 0] (fun _ => [3, 2, 1, 0]) fuel =
        .ok (L, expectedPasses pathGraph) ∧
      cc_opencilk pathGraph [] [3, 2, 1, 0] (fun _ => [3, 2, 1, 0]) fuel =
        .ok (L, expectedPasses pathGraph) ∧
      cc_pthreads pathGraph [] 2 fuel = .ok (L, expectedPasses pathGraph) :=
  have h := pass_count_is_one_plus_max_distance pathGraph (by decide) (by decide) []
    [3, 2, 1, 0] (fun _ => [3, 2, 1, 0]) (by decide)
    (fun _ => (by decide : [3, 2, 1, 0].Perm (List.range pathGraph.n))) 2 (by decide)
    (by decide)
  ⟨by decide, by decide, by decide, rfl,
    h.1.elim (fun L hL => ⟨L, hL.1⟩)⟩

/-- C19 (failing input): on the path 0-1-2-3 with `num_threads = 2147483647` the sum
`n + num_threads - 1` of the ceiling division wraps in 32-bit arithmetic, `chunk` is 0,
every range is empty and no worker is created: `cc_pthreads` stops after 1 pass, where
`cc_sequential` takes the 4 passes of the formula. -/
theorem cc_pthreads_pass_count_on_overflow :
    pathGraph.Valid ∧ pathGraph.Symmetric ∧ (1 : Int) ≤ 2147483647 ∧
      expectedPasses pathGraph = 4 ∧
      chunkSize pathGraph.n 2147483647 = 0 ∧
      cc_sequential pathGraph [] 5 = .ok ([0, 0, 0, 0], 4) ∧
      cc_pthreads pathGraph [] 2147483647 5 = .ok ([0, 0, 0, 0], 1) := by
  refine ⟨by decide, by decide, by decide, by decide, by decide, ?_, ?_⟩
  · rw [cc_sequential_eq]; rfl
  · have hp : ∀ l nl : List Nat, pthreadsPass pathGraph 2147483647 l nl = .ok (nl, false) :=
      fun l nl => pthreadsPass_overflow pathGraph 2147483647 (by decide) (by decide)
        (by decide) (by decide) l nl
    rw [cc_pthreads_eq, convergenceLoop_null _ (fun _ l nl => hp l nl) 5 0 _ _ (by decide)]
    rfl

/-! ## The loader: the loops as folds over the edge list -/

/-- The effect of the counting loop on `rowcount`, edge by edge. -/
def countFold : List (Int × Int) → List Nat → List Nat
  | [], rc => rc
  | (v, _) :: es, rc => countFold es (rc.set v.toNat (rc.getD v.toNat 0 + 1))

/-- The effect of the filling loop on `cur_pos` and `colind`, edge by edge. -/
def fillFold : List (Int × Int) → List Nat → List Int → List Nat × List Int
  | [], cur, col => (cur, col)
  | (v, u) :: es, cur, col =>
    fillFold es (cur.set v.toNat (cur.getD v.toNat 0 + 1)) (col.set (cur.getD v.toNat 0) u)

theorem getElem?_append_length {α : Type} (pre : List α) (x : α) (post : List α) :
    (pre ++ x :: post)[pre.length]? = some x := by
  rw [List.getElem?_append_right (le_refl _)]
  simp

theorem getElem?_eq_some_getD_nat {l : List Nat} {i : Nat} (hi : i < l.length) :
    l[i]? = some (l.getD i 0) := by
  rw [List.getD_eq_getElem _ _ hi, List.getElem?_eq_getElem hi]

theorem countFold_length (es : List (Int × Int)) (rc : List Nat) :
    (countFold es rc).length = rc.length := by
  induction es generalizing rc with
  | nil => rfl
  | cons e es ih => obtain ⟨v, u⟩ := e; simp [countFold, ih]

theorem countLoop_eq (es : List (Int × Int)) :
    ∀ (pre : List (Int × Int)) (post : List (Int × Int)) (rc : List Nat),
      (∀ e ∈ es, 0 ≤ e.1 ∧ e.1.toNat < rc.length) →
      countLoop (pre ++ es ++ post) (List.range' pre.length es.length) rc =
        .ok (countFold es rc) := by
  induction es with
  | nil => intro pre post rc _; rfl
  | cons e es ih =>
    intro pre post rc hes
    obtain ⟨v, u⟩ := e
    have hv := hes (v, u) (List.mem_cons_self _ _)
    have hget : (pre ++ (v, u) :: es ++ post)[pre.length]? = some (v, u) := by
      rw [List.append_assoc, List.cons_append]; exact getElem?_append_length _ _ _
    have hstep : pre ++ (v, u) :: es ++ post = (pre ++ [(v, u)]) ++ es ++ post := by simp
    have hlen : (pre ++ [(v, u)]).length = pre.length + 1 := by simp
    simp only [List.length_cons, List.range'_succ, countLoop, hget, if_pos hv.1,
      getElem?_eq_some_getD_nat hv.2, countFold]
    rw [hstep, ← hlen]
    apply ih
    intro e he
    have := hes e (List.mem_cons_of_mem _ he)
    simpa using this

/-- The number of edges that leave vertex `w`. -/
def cntOf (es : List (Int × Int)) (w : Nat) : Nat :=
  es.countP (fun e => decide (e.1 = (w : Int)))

/-- The number of edges that leave a vertex below `w`. -/
def below (es : List (Int × Int)) (w : Nat) : Nat :=
  es.countP (fun e => decide (e.1 < (w : Int)))

/-- The heads of the edges that leave vertex `w`, in the order of the list. -/
def adjOf (es : List (Int × Int)) (w : Nat) : List Int :=
  (es.filter (fun e => decide (e.1 = (w : Int)))).map (fun e => e.2)

theorem adjOf_length (es : List (Int × Int)) (w : Nat) : (adjOf es w).length = cntOf es w := by
  simp [adjOf, cntOf, List.countP_eq_length_filter]

theorem cntOf_append (as bs : List (Int × Int)) (w : Nat) :
    cntOf (as ++ bs) w = cntOf as w + cntOf bs w := by
  simp [cntOf, List.countP_append]

theorem adjOf_append (as bs : List (Int × Int)) (w : Nat) :
    adjOf (as ++ bs) w = adjOf as w ++ adjOf bs w := by
  simp [adjOf, List.filter_append]

theorem cntOf_cons (v u : Int) (es : List (Int × Int)) (w : Nat) :
    cntOf ((v, u) :: es) w = cntOf es w + (if v = (w : Int) then 1 else 0) := by
  simp [cntOf, List.countP_cons]

theorem below_succ (es : List (Int × Int)) (w : Nat) :
    below es (w + 1) = below es w + cntOf es w := by
  induction es with
  | nil => rfl
  | cons e es ih =>
    obtain ⟨v, u⟩ := e
    simp only [below, cntOf, List.countP_cons] at ih ⊢
    rw [ih]
    simp only [decide_eq_true_eq]
    split_ifs <;> omega

theorem below_mono (es : List (Int × Int)) {a b : Nat} (hab : a ≤ b) :
    below es a ≤ below es b := by
  induction hab with
  | refl => exact le_refl _
  | step _ ih => rw [below_succ]; omega

theorem below_zero (es : List (Int × Int)) (h : ∀ e ∈ es, 0 ≤ e.1) : below es 0 = 0 := by
  rw [below, List.countP_eq_zero]
  intro e he
  have := h e he
  simp
  omega

theorem below_all (es : List (Int × Int)) (n : Nat) (h : ∀ e ∈ es, e.1 < (n : Int)) :
    below es n = es.length := by
  rw [below, List.countP_eq_length]
  intro e he
  simpa using h e he

/-- Two positions of the form `below w + t` with `t` inside the block of `w` coincide
only for the same vertex and the same offset. -/
theorem block_disjoint (es : List (Int × Int)) {w v t s : Nat} (ht : t < cntOf es w)
    (hs : s < cntOf es v) (h : below es w + t = below es v + s) : w = v ∧ t = s := by
  rcases Nat.lt_trichotomy w v with hlt | heq | hgt
  · have h1 := below_mono es (Nat.succ_le_of_lt hlt)
    rw [below_succ] at h1
    omega
  · subst heq; exact ⟨rfl, by omega⟩
  · have h1 := below_mono es (Nat.succ_le_of_lt hgt)
    rw [below_succ] at h1
    omega

theorem getD_set_eq {α : Type} (l : List α) (i : Nat) (a d : α) (hi : i < l.length) :
    (l.set i a).getD i d = a := by
  simp [List.getD_eq_getElem?_getD, List.getElem?_set, hi]

theorem getD_set_ne {α : Type} (l : List α) (i j : Nat) (a d : α) (hij : i ≠ j) :
    (l.set i a).getD j d = l.getD j d := by
  simp [List.getD_eq_getElem?_getD, List.getElem?_set_ne hij]

theorem getD_append_left {α : Type} (l1 l2 : List α) (i : Nat) (d : α) (hi : i < l1.length) :
    (l1 ++ l2).getD i d = l1.getD i d := by
  simp [List.getD_eq_getElem?_getD, List.getElem?_append_left hi]

theorem getD_append_length {α : Type} (l1 : List α) (a d : α) :
    (l1 ++ [a]).getD l1.length d = a := by
  simp [List.getD_eq_getElem?_getD]

/-- Every step of the filling loop on the given edges stays within the vectors. -/
def FillSafe : List (Int × Int) → List Nat → List Int → Prop
  | [], _, _ => True
  | (v, u) :: es, cur, col =>
    0 ≤ v ∧ v.toNat < cur.length ∧ cur.getD v.toNat 0 < col.length ∧
      FillSafe es (cur.set v.toNat (cur.getD v.toNat 0 + 1)) (col.set (cur.getD v.toNat 0) u)

theorem fillLoop_eq (es : List (Int × Int)) :
    ∀ (pre post : List (Int × Int)) (cur : List Nat) (col : List Int),
      FillSafe es cur col →
      fillLoop (pre ++ es ++ post) (List.range' pre.length es.length) cur col =
        .ok (fillFold es cur col).2 := by
  induction es with
  | nil => intro pre post cur col _; rfl
  | cons e es ih =>
    intro pre post cur col hsafe
    obtain ⟨v, u⟩ := e
    obtain ⟨h0, h1, h2, h3⟩ := hsafe
    have hget : (pre ++ (v, u) :: es ++ post)[pre.length]? = some (v, u) := by
      rw [List.append_assoc, List.cons_append]; exact getElem?_append_length _ _ _
    have hstep : pre ++ (v, u) :: es ++ post = (pre ++ [(v, u)]) ++ es ++ post := by simp
    have hlen : (pre ++ [(v, u)]).length = pre.length + 1 := by simp
    simp only [List.length_cons, List.range'_succ, fillLoop, hget, if_pos h0,
      getElem?_eq_some_getD_nat h1, if_pos h2, fillFold]
    rw [hstep, ← hlen]
    exact ih _ _ _ _ h3

theorem fill_invariant (E : List (Int × Int)) (N : Nat)
    (hE : ∀ e ∈ E, 0 ≤ e.1 ∧ e.1 < (N : Int)) (E2 : List (Int × Int)) :
    ∀ (E1 : List (Int × Int)) (cur : List Nat) (col : List Int),
      E = E1 ++ E2 → cur.length = N → col.length = E.length →
      (∀ w, w < N → cur.getD w 0 = below E w + cntOf E1 w) →
      (∀ w, w < N → ∀ t, t < cntOf E1 w →
        col.getD (below E w + t) 0 = (adjOf E1 w).getD t 0) →
      FillSafe E2 cur col ∧ (fillFold E2 cur col).2.length = E.length ∧
        ∀ w, w < N → ∀ t, t < cntOf E w →
          (fillFold E2 cur col).2.getD (below E w + t) 0 = (adjOf E w).getD t 0 := by
  induction E2 with
  | nil =>
    intro E1 cur col hsplit _ hcol _ hadj
    have : E1 = E := by simpa using hsplit.symm
    subst this
    exact ⟨trivial, hcol, hadj⟩
  | cons e E2 ih =>
    intro E1 cur col hsplit hcur hcol hpos hadj
    obtain ⟨v, u⟩ := e
    have hmem : (v, u) ∈ E := by rw [hsplit]; simp
    obtain ⟨hv0, hvN⟩ := hE (v, u) hmem
    obtain ⟨w0, rfl⟩ := Int.eq_ofNat_of_zero_le hv0
    have hw0 : w0 < N := by omega
    have htn : ((w0 : Nat) : Int).toNat = w0 := Int.toNat_natCast w0
    have hcnt : cntOf E w0 = cntOf E1 w0 + 1 + cntOf E2 w0 := by
      rw [hsplit, cntOf_append, cntOf_cons]; simp; omega
    have hp := hpos w0 hw0
    have hlim : below E w0 + cntOf E w0 ≤ E.length := by
      rw [← below_succ]; exact List.countP_le_length _
    have hsplit2 : E = (E1 ++ [((w0 : Int), u)]) ++ E2 := by rw [hsplit]; simp
    have hcnt1 : ∀ w, cntOf (E1 ++ [((w0 : Int), u)]) w =
        cntOf E1 w + (if w0 = w then 1 else 0) := by
      intro w
      rw [cntOf_append, cntOf_cons]
      simp [cntOf]
    have hadj1 : ∀ w, adjOf (E1 ++ [((w0 : Int), u)]) w =
        adjOf E1 w ++ (if w0 = w then [u] else []) := by
      intro w
      rw [adjOf_append]
      congr 1
      by_cases h : w0 = w
      · subst h; simp [adjOf]
      · have : ¬ ((w0 : Int) = (w : Int)) := by omega
        simp [adjOf, h, this]
    have hA : ∀ w, w < N → (cur.set w0 (cur.getD w0 0 + 1)).getD w 0 =
        below E w + cntOf (E1 ++ [((w0 : Int), u)]) w := by
      intro w hw
      rw [hcnt1 w]
      by_cases h : w0 = w
      · subst h
        rw [getD_set_eq _ _ _ _ (by omega), hp, if_pos rfl]; omega
      · rw [getD_set_ne _ _ _ _ _ h, hpos w hw, if_neg h]; omega
    have hB : ∀ w, w < N → ∀ t, t < cntOf (E1 ++ [((w0 : Int), u)]) w →
        (col.set (cur.getD w0 0) u).getD (below E w + t) 0 =
          (adjOf (E1 ++ [((w0 : Int), u)]) w).getD t 0 := by
      intro w hw t ht
      rw [hcnt1 w] at ht
      rw [hadj1 w]
      by_cases h : w0 = w ∧ t = cntOf E1 w0
      · obtain ⟨h1, h2⟩ := h
        subst h1
        subst h2
        rw [← hp, getD_set_eq _ _ _ _ (by omega), if_pos rfl, ← adjOf_length,
          getD_append_length]
      · have ht1 : t < cntOf E1 w := by
          by_cases h1 : w0 = w
          · subst h1
            rw [if_pos rfl] at ht
            have : t ≠ cntOf E1 w0 := fun h2 => h ⟨rfl, h2⟩
            omega
          · rw [if_neg h1] at ht; omega
        have htE : t < cntOf E w := by
          have : cntOf E w = cntOf E1 w + cntOf ((((w0 : Nat) : Int), u) :: E2) w := by
            rw [hsplit, cntOf_append]
          omega
        have hne : cur.getD w0 0 ≠ below E w + t := by
          intro heq
          rw [hp] at heq
          have := block_disjoint E (by omega : cntOf E1 w0 < cntOf E w0) htE heq
          exact h ⟨this.1, this.2.symm⟩
        rw [getD_set_ne _ _ _ _ _ hne, hadj w hw t ht1,
          getD_append_left _ _ _ _ (by rw [adjOf_length]; exact ht1)]
    have hrec := ih (E1 ++ [((w0 : Int), u)])
      (cur.set w0 (cur.getD w0 0 + 1)) (col.set (cur.getD w0 0) u) hsplit2
      (by simpa using hcur) (by simpa using hcol) hA hB
    rw [FillSafe, fillFold, htn]
    exact ⟨⟨hv0, by omega, by omega, hrec.1⟩, hrec.2⟩

theorem countFold_getD (es : List (Int × Int)) :
    ∀ (rc : List Nat), (∀ e ∈ es, 0 ≤ e.1 ∧ e.1.toNat < rc.length) →
      ∀ w, w < rc.length → (countFold es rc).getD w 0 = rc.getD w 0 + cntOf es w := by
  induction es with
  | nil => intro rc _ w _; simp [countFold, cntOf]
  | cons e es ih =>
    intro rc hes w hw
    obtain ⟨v, u⟩ := e
    obtain ⟨hv0, hv1⟩ := hes (v, u) (List.mem_cons_self _ _)
    obtain ⟨w0, rfl⟩ := Int.eq_ofNat_of_zero_le hv0
    rw [countFold, ih _ (fun e he => by simpa using hes e (List.mem_cons_of_mem _ he)) w
      (by simpa using hw), cntOf_cons]
    rw [Int.toNat_natCast] at hv1 ⊢
    by_cases h : w0 = w
    · subst h
      rw [getD_set_eq _ _ _ _ hv1, if_pos rfl]; omega
    · have : ¬ ((w0 : Int) = (w : Int)) := by omega
      rw [getD_set_ne _ _ _ _ _ h, if_neg this]; omega

theorem prefixLoop_spec (rc : List Nat) (k : Nat) :
    ∀ (a : Nat) (rp : List Nat), a + k ≤ rc.length → a + k < rp.length →
      ∃ rp1, prefixLoop rc (List.range' a k) rp = .ok rp1 ∧ rp1.length = rp.length ∧
        (∀ i, i ≤ a → rp1.getD i 0 = rp.getD i 0) ∧
        ∀ i, a ≤ i → i < a + k → rp1.getD (i + 1) 0 = rp1.getD i 0 + rc.getD i 0 := by
  induction k with
  | zero => intro a rp _ _; exact ⟨rp, rfl, rfl, fun _ _ => rfl, fun i h1 h2 => by omega⟩
  | succ k ih =>
    intro a rp h1 h2
    have ha : a < rp.length := by omega
    have hc : a < rc.length := by omega
    obtain ⟨rp1, hrun, hlen, hlow, hstep⟩ :=
      ih (a + 1) (rp.set (a + 1) (rp.getD a 0 + rc.getD a 0)) (by omega) (by simp; omega)
    refine ⟨rp1, ?_, by simpa using hlen, ?_, ?_⟩
    · simp only [List.range'_succ, prefixLoop, getElem?_eq_some_getD_nat ha,
        getElem?_eq_some_getD_nat hc]
      rw [if_pos (by omega)]
      exact hrun
    · intro i hi
      rw [hlow i (by omega), getD_set_ne _ _ _ _ _ (by omega)]
    · intro i hi1 hi2
      rcases Nat.eq_or_lt_of_le hi1 with h | h
      · subst h
        rw [hlow (a + 1) (le_refl _), hlow a (by omega), getD_set_eq _ _ _ _ (by omega),
          getD_set_ne _ _ _ _ _ (by omega)]
      · exact hstep i (by omega) (by omega)

theorem copyLoop_spec (rowptr : List Nat) (vs : List Nat) :
    ∀ (cur : List Nat), (∀ v ∈ vs, v < rowptr.length ∧ v < cur.length) →
      ∃ cur1, copyLoop rowptr vs cur = .ok cur1 ∧ cur1.length = cur.length ∧
        ∀ w, cur1.getD w 0 = if w ∈ vs then rowptr.getD w 0 else cur.getD w 0 := by
  induction vs with
  | nil => intro cur _; exact ⟨cur, rfl, rfl, fun w => by simp⟩
  | cons v vs ih =>
    intro cur hvs
    obtain ⟨h1, h2⟩ := hvs v (List.mem_cons_self _ _)
    obtain ⟨cur1, hrun, hlen, hget⟩ := ih (cur.set v (rowptr.getD v 0))
      (fun u hu => by simpa using hvs u (List.mem_cons_of_mem _ hu))
    refine ⟨cur1, ?_, by simpa using hlen, ?_⟩
    · simp only [copyLoop, getElem?_eq_some_getD_nat h1, if_pos h2]
      exact hrun
    · intro w
      rw [hget w]
      by_cases hw : w ∈ vs
      · rw [if_pos hw, if_pos (List.mem_cons_of_mem _ hw)]
      · by_cases hwv : v = w
        · subst hwv
          rw [if_neg hw, if_pos (List.mem_cons_self _ _), getD_set_eq _ _ _ _ h2]
        · have hnm : w ∉ v :: vs := by
            intro hm
            rcases List.mem_cons.1 hm with h | h
            · exact hwv h.symm
            · exact hw h
          rw [if_neg hw, if_neg hnm, getD_set_ne _ _ _ _ _ hwv]

/-- The neighbour list of vertex `v` in the words of the claim: the entries `(i, j)` of
the file with `i ≠ j`, in input order, contribute `j - 1` when `i - 1 = v` and `i - 1`
when `j - 1 = v`. -/
def adjacencySpec (pairs : List (Int × Int)) (v : Nat) : List Nat :=
  pairs.flatMap (fun p =>
    if p.1 = p.2 then []
    else if p.1 - 1 = (v : Int) then [(p.2 - 1).toNat]
    else if p.2 - 1 = (v : Int) then [(p.1 - 1).toNat]
    else [])

/-- The number of entries that are not self-loops. -/
def nonLoops (pairs : List (Int × Int)) : Nat :=
  pairs.countP (fun p => decide (p.1 ≠ p.2))

/-- The entries are 1-based indices of an `n × n` matrix. -/
def EntriesInRange (n : Int) (pairs : List (Int × Int)) : Prop :=
  ∀ p ∈ pairs, 1 ≤ p.1 ∧ p.1 ≤ n ∧ 1 ≤ p.2 ∧ p.2 ≤ n

instance (n : Int) (pairs : List (Int × Int)) : Decidable (EntriesInRange n pairs) := by
  unfold EntriesInRange; infer_instance

theorem wrap32_of_range (x : Int) (h1 : -2147483648 ≤ x) (h2 : x ≤ 2147483647) :
    wrap32 x = x := by
  unfold wrap32; omega

theorem pushEdges_cons (i j : Int) (rest : List (Int × Int)) (hi : -2147483647 ≤ i)
    (hi2 : i ≤ 2147483647) (hj : -2147483647 ≤ j) (hj2 : j ≤ 2147483647) :
    pushEdges ((i, j) :: rest) =
      if i = j then pushEdges rest
      else (i - 1, j - 1) :: (j - 1, i - 1) :: pushEdges rest := by
  rw [pushEdges, wrap32_of_range (i - 1) (by omega) (by omega),
    wrap32_of_range (j - 1) (by omega) (by omega)]
  by_cases h : i = j
  · have : i - 1 = j - 1 := by omega
    simp [h]
  · have : ¬ (i - 1 = j - 1) := by omega
    simp [h, this]

theorem pushEdges_spec (n : Int) (hn : n ≤ 2147483647) (pairs : List (Int × Int))
    (hp : EntriesInRange n pairs) :
    (∀ e ∈ pushEdges pairs, 0 ≤ e.1 ∧ e.1 < n ∧ 0 ≤ e.2 ∧ e.2 < n ∧ e.1 ≠ e.2) ∧
    (pushEdges pairs).length = 2 * nonLoops pairs ∧
    ∀ v : Nat, (adjOf (pushEdges pairs) v).map Int.toNat = adjacencySpec pairs v := by
  induction pairs with
  | nil => simp [pushEdges, nonLoops, adjOf, adjacencySpec]
  | cons p rest ih =>
    obtain ⟨i, j⟩ := p
    obtain ⟨h1, h2, h3, h4⟩ := hp (i, j) (List.mem_cons_self _ _)
    simp only at h1 h2 h3 h4
    obtain ⟨ih1, ih2, ih3⟩ := ih (fun q hq => hp q (List.mem_cons_of_mem _ hq))
    rw [pushEdges_cons i j rest (by omega) (by omega) (by omega) (by omega)]
    by_cases hij : i = j
    · rw [if_pos hij]
      refine ⟨ih1, ?_, fun v => ?_⟩
      · rw [ih2, nonLoops, nonLoops, List.countP_cons]; simp [hij]
      · rw [ih3 v, adjacencySpec, adjacencySpec, List.flatMap_cons]; simp [hij]
    · rw [if_neg hij]
      refine ⟨?_, ?_, fun v => ?_⟩
      · intro e he
        rcases List.mem_cons.1 he with rfl | he
        · exact ⟨by simp; omega, by simp; omega, by simp; omega, by simp; omega,
            by simp; omega⟩
        · rcases List.mem_cons.1 he with rfl | he
          · exact ⟨by simp; omega, by simp; omega, by simp; omega, by simp; omega,
              by simp; omega⟩
          · exact ih1 e he
      · rw [List.length_cons, List.length_cons, ih2, nonLoops, nonLoops, List.countP_cons]
        simp [hij]; omega
      · have hcons : adjOf ((i - 1, j - 1) :: (j - 1, i - 1) :: pushEdges rest) v =
            (if i - 1 = (v : Int) then [j - 1] else []) ++
              ((if j - 1 = (v : Int) then [i - 1] else []) ++ adjOf (pushEdges rest) v) := by
          simp only [adjOf, List.filter_cons, decide_eq_true_eq]
          split_ifs <;> simp
        rw [hcons, adjacencySpec, List.flatMap_cons, ← adjacencySpec, ← ih3 v]
        simp only [if_neg hij]
        by_cases ha : i - 1 = (v : Int)
        · have hb : ¬ (j - 1 = (v : Int)) := by omega
          simp [ha, hb]
        · by_cases hb : j - 1 = (v : Int)
          · simp [ha, hb]
          · simp [ha, hb]

theorem map_range'_eq_of_getD {α : Type} (f : Nat → α) (a : Nat) (xs : List α) (d : α)
    (h : ∀ t, t < xs.length → f (a + t) = xs.getD t d) :
    (List.range' a xs.length).map f = xs := by
  apply List.ext_getElem?
  intro t
  by_cases ht : t < xs.length
  · rw [List.getElem?_map, List.getElem?_range' _ _ ht, Option.map_some', Nat.one_mul,
      h t ht, List.getD_eq_getElem _ _ ht, List.getElem?_eq_getElem ht]
  · rw [List.getElem?_eq_none (by simp; omega), List.getElem?_eq_none (by omega)]

/-- The arrays built by the loader when every count fits an `int`: `rowptr[v]` is the
number of edges that leave a vertex below `v`, and the block of `colind` that starts
there lists the heads of the edges that leave `v`, in input order. -/
theorem buildArrays_eq (n nnz : Int) (pairs : List (Int × Int)) (hn0 : 0 ≤ n)
    (hn1 : n < 2147483647) (hnnz0 : 0 ≤ nnz) (hnnz1 : 2 * nnz ≤ 2147483647)
    (hp : EntriesInRange n pairs) (hlen : 2 * nonLoops pairs ≤ 2147483647) :
    ∃ colind, buildArrays n nnz pairs =
        .ok ((List.range (n.toNat + 1)).map (below (pushEdges pairs)), colind) ∧
      colind.length = (pushEdges pairs).length ∧
      ∀ w, w < n.toNat → ∀ t, t < cntOf (pushEdges pairs) w →
        colind.getD (below (pushEdges pairs) w + t) 0 = (adjOf (pushEdges pairs) w).getD t 0 := by
  obtain ⟨hE, hElen, _⟩ := pushEdges_spec n (by omega) pairs hp
  obtain ⟨N, rfl⟩ := Int.eq_ofNat_of_zero_le hn0
  generalize hEdef : pushEdges pairs = E at hE hElen
  have hM : wrap32 (E.length : Int) = (E.length : Int) :=
    wrap32_of_range _ (by omega) (by omega)
  have hres : ¬ (wrap32 (2 * nnz) < 0) := by
    rw [wrap32_of_range _ (by omega) (by omega)]; omega
  have hn1w : wrap32 ((N : Int) + 1) = ((N + 1 : Nat) : Int) := by
    rw [wrap32_of_range _ (by omega) (by omega)]; simp
  -- the counting loop
  have hEr : ∀ e ∈ E, 0 ≤ e.1 ∧ e.1.toNat < (List.replicate N 0).length := by
    intro e he
    have := hE e he
    simp only [List.length_replicate]
    omega
  have hcount := countLoop_eq E [] [] (List.replicate N 0) hEr
  simp only [List.nil_append, List.append_nil, List.length_nil] at hcount
  have hrc : ∀ w, w < N → (countFold E (List.replicate N 0)).getD w 0 = cntOf E w := by
    intro w hw
    rw [countFold_getD E _ hEr w (by simpa using hw)]
    simp [List.getD_eq_getElem?_getD, List.getElem?_replicate, hw]
  -- the prefix sums
  obtain ⟨rp, hprun, hplen, hplow, hpstep⟩ := prefixLoop_spec (countFold E (List.replicate N 0))
    N 0 ((List.replicate (N + 1) 0).set 0 0) (by rw [countFold_length]; simp) (by simp)
  have hrp : ∀ i, i ≤ N → rp.getD i 0 = below E i := by
    intro i
    induction i with
    | zero =>
      intro _
      rw [hplow 0 (le_refl _), below_zero E (fun e he => (hE e he).1)]
      simp
    | succ i ih =>
      intro hi
      rw [hpstep i (Nat.zero_le _) (by omega), ih (by omega), hrc i (by omega), below_succ]
  have hrpeq : rp = (List.range (N + 1)).map (below E) := by
    apply list_eq_of_getD (n := N + 1) (by simpa using hplen) (by simp)
    intro i hi
    rw [hrp i (by omega)]
    simp [List.getD_eq_getElem?_getD, List.getElem?_range hi]
  -- the cursor array
  obtain ⟨cur, hcrun, hclen, hcget⟩ := copyLoop_spec rp (forRange 0 N) (List.replicate N 0)
    (fun v hv => by
      have := (mem_forRange.1 hv).2
      simp only [List.length_replicate]
      rw [hplen]; simp; omega)
  have hcur : ∀ w, w < N → cur.getD w 0 = below E w + cntOf [] w := by
    intro w hw
    rw [hcget w, if_pos (mem_forRange.2 ⟨Nat.zero_le _, hw⟩), hrp w (by omega)]
    simp [cntOf]
  -- the filling loop
  obtain ⟨hsafe, hflen, hfget⟩ := fill_invariant E N (fun e he => ⟨(hE e he).1, (hE e he).2.1⟩)
    E [] cur (List.replicate E.length 0) rfl (by simpa using hclen) (by simp) hcur
    (fun w _ t ht => by simp [cntOf] at ht)
  have hfill := fillLoop_eq E [] [] cur (List.replicate E.length 0) hsafe
  simp only [List.nil_append, List.append_nil, List.length_nil] at hfill
  refine ⟨(fillFold E cur (List.replicate E.length 0)).2, ?_, hflen, hfget⟩
  have hnneg : ¬ ((N : Int) < 0) := by omega
  have hMneg : ¬ ((E.length : Int) < 0) := by omega
  have hn1neg : ¬ (((N + 1 : Nat) : Int) < 0) := by omega
  have hfr : ∀ k, forRange 0 k = List.range' 0 k := fun k => by simp [forRange]
  rw [buildArrays, if_neg hres, hEdef, hM, buildFrom, if_neg hnneg, Int.toNat_natCast,
    Int.toNat_natCast, hfr E.length, hcount]
  dsimp only
  rw [hn1w, if_neg hn1neg, Int.toNat_natCast, hfr N, hprun]
  dsimp only
  rw [if_neg hMneg, ← hfr N, hcrun]
  dsimp only
  rw [hfill, hrpeq]

theorem mem_adjacencySpec (pairs : List (Int × Int)) (v u : Nat) :
    u ∈ adjacencySpec pairs v ↔ ∃ p ∈ pairs, p.1 ≠ p.2 ∧
      ((p.1 - 1 = (v : Int) ∧ (p.2 - 1).toNat = u) ∨
        (p.2 - 1 = (v : Int) ∧ (p.1 - 1).toNat = u)) := by
  simp only [adjacencySpec, List.mem_flatMap]
  constructor
  · rintro ⟨p, hp, hu⟩
    refine ⟨p, hp, ?_⟩
    by_cases h : p.1 = p.2
    · simp [h] at hu
    · rw [if_neg h] at hu
      by_cases ha : p.1 - 1 = (v : Int)
      · rw [if_pos ha] at hu
        exact ⟨h, Or.inl ⟨ha, (List.mem_singleton.1 hu).symm⟩⟩
      · rw [if_neg ha] at hu
        by_cases hb : p.2 - 1 = (v : Int)
        · rw [if_pos hb] at hu
          exact ⟨h, Or.inr ⟨hb, (List.mem_singleton.1 hu).symm⟩⟩
        · simp [hb] at hu
  · rintro ⟨p, hp, hne, h | h⟩
    · exact ⟨p, hp, by rw [if_neg hne, if_pos h.1]; exact List.mem_singleton.2 h.2.symm⟩
    · have ha : ¬ (p.1 - 1 = (v : Int)) := by omega
      exact ⟨p, hp, by rw [if_neg hne, if_neg ha, if_pos h.1]; exact List.mem_singleton.2 h.2.symm⟩

theorem block_cover (es : List (Int × Int)) (h0 : below es 0 = 0) (N : Nat) :
    ∀ p, p < below es N → ∃ w, w < N ∧ below es w ≤ p ∧ p < below es (w + 1) := by
  induction N with
  | zero => intro p hp; omega
  | succ N ih =>
    intro p hp
    by_cases h : p < below es N
    · obtain ⟨w, hw, h1, h2⟩ := ih p h
      exact ⟨w, by omega, h1, h2⟩
    · exact ⟨N, by omega, by omega, hp⟩

theorem getD_map_toNat (l : List Int) (i : Nat) (hi : i < l.length) :
    (l.map Int.toNat).getD i 0 = (l.getD i 0).toNat := by
  simp [List.getD_eq_getElem?_getD, List.getElem?_eq_getElem hi]

theorem mem_of_getD {α : Type} (l : List α) (i : Nat) (d : α) (hi : i < l.length) :
    l.getD i d ∈ l := by
  rw [List.getD_eq_getElem _ _ hi]; exact List.getElem_mem _

/-- The graph returned by the loader when every count fits an `int`. -/
theorem buildCSR_spec (n nnz : Int) (pairs : List (Int × Int)) (hn0 : 0 ≤ n)
    (hn1 : n < 2147483647) (hnnz0 : 0 ≤ nnz) (hnnz1 : 2 * nnz ≤ 2147483647)
    (hp : EntriesInRange n pairs) (hlen : 2 * nonLoops pairs ≤ 2147483647) :
    ∃ g, buildCSR n nnz pairs = .ok g ∧ g.n = n.toNat ∧
      g.rowptr = (List.range (n.toNat + 1)).map (below (pushEdges pairs)) ∧
      g.colind.length = 2 * nonLoops pairs ∧
      (∀ u ∈ g.colind, u < g.n) ∧
      ∀ v, v < g.n → nbrs g v = adjacencySpec pairs v := by
  obtain ⟨colind, hrun, hclen, hcget⟩ :=
    buildArrays_eq n nnz pairs hn0 hn1 hnnz0 hnnz1 hp hlen
  obtain ⟨hE, hElen, hadj⟩ := pushEdges_spec n (by omega) pairs hp
  obtain ⟨N, rfl⟩ := Int.eq_ofNat_of_zero_le hn0
  rw [Int.toNat_natCast] at hrun hcget ⊢
  generalize pushEdges pairs = E at hrun hclen hcget hE hElen hadj
  have hb0 : below E 0 = 0 := below_zero E (fun e he => (hE e he).1)
  have hbN : below E N = E.length := below_all E N (fun e he => (hE e he).2.1)
  have hrow : ∀ i, i ≤ N → ((List.range (N + 1)).map (below E)).getD i 0 = below E i := by
    intro i hi
    simp [List.getD_eq_getElem?_getD, List.getElem?_range (by omega : i < N + 1)]
  have hnb : ∀ v, v < N →
      nbrs ⟨N, (List.range (N + 1)).map (below E), colind.map Int.toNat⟩ v =
        (adjOf E v).map Int.toNat := by
    intro v hv
    have hcnt : below E (v + 1) - below E v = ((adjOf E v).map Int.toNat).length := by
      rw [below_succ, List.length_map, adjOf_length]; omega
    rw [nbrs]
    dsimp only
    rw [hrow v (by omega), hrow (v + 1) (by omega), forRange, hcnt]
    apply map_range'_eq_of_getD _ _ _ 0
    intro t ht
    rw [List.length_map, adjOf_length] at ht
    have hlim : below E v + cntOf E v ≤ E.length := by
      rw [← below_succ, ← hbN]; exact below_mono E (by omega)
    rw [getD_map_toNat _ _ (by omega), hcget v hv t ht,
      getD_map_toNat _ _ (by rw [adjOf_length]; exact ht)]
  refine ⟨⟨N, (List.range (N + 1)).map (below E), colind.map Int.toNat⟩, ?_, rfl, rfl, ?_, ?_, ?_⟩
  · rw [buildCSR, hrun, Int.toNat_natCast]
  · simp only [List.length_map]; omega
  · intro u hu
    obtain ⟨x, hx, rfl⟩ := List.mem_map.1 hu
    obtain ⟨p, hp1, hp2⟩ := List.mem_iff_getElem.1 hx
    obtain ⟨w, hw, h1, h2⟩ := block_cover E hb0 N p (by omega)
    rw [below_succ] at h2
    have hpos := hcget w hw (p - below E w) (by omega)
    have hsum : below E w + (p - below E w) = p := by omega
    rw [hsum, List.getD_eq_getElem _ _ hp1, hp2] at hpos
    have hmem : x ∈ adjOf E w := by
      rw [hpos]; exact mem_of_getD _ _ _ (by rw [adjOf_length]; omega)
    obtain ⟨e, he, rfl⟩ := List.mem_map.1 hmem
    have := hE e (List.mem_filter.1 he).1
    show e.2.toNat < N
    omega
  · intro v hv
    rw [hnb v hv, hadj v]

/-! ## The loader on inputs whose edge count does not fit an `int` -/

theorem pushEdges_replicate_length (i j : Int) (hij : wrap32 (i - 1) ≠ wrap32 (j - 1))
    (K : Nat) : (pushEdges (List.replicate K (i, j))).length = 2 * K := by
  induction K with
  | zero => rfl
  | succ K ih =>
    rw [List.replicate_succ, pushEdges, if_neg hij, List.length_cons, List.length_cons, ih]
    omega

theorem pushEdges_replicate_succ (i j : Int) (hij : wrap32 (i - 1) ≠ wrap32 (j - 1))
    (K : Nat) : pushEdges (List.replicate (K + 1) (i, j)) =
      (wrap32 (i - 1), wrap32 (j - 1)) :: (wrap32 (j - 1), wrap32 (i - 1)) ::
        pushEdges (List.replicate K (i, j)) := by
  rw [List.replicate_succ, pushEdges, if_neg hij]

/-- With `2^31 + 1` or more copies of the entry `(1, 2)` such that the edge count wraps
to 2, the loader keeps a single pair of edges. -/
theorem buildCSR_wrapped_two (K : Nat) (hK : 1 ≤ K)
    (hM : wrap32 (((2 * K : Nat) : Int)) = 2) :
    buildCSR 2 0 (List.replicate K (1, 2)) = .ok ⟨2, [0, 1, 2], [1, 0]⟩ := by
  obtain ⟨K1, rfl⟩ : ∃ K1, K = K1 + 1 := ⟨K - 1, by omega⟩
  have hij : wrap32 ((1 : Int) - 1) ≠ wrap32 ((2 : Int) - 1) := by decide
  have hlen := pushEdges_replicate_length 1 2 hij (K1 + 1)
  have hcons := pushEdges_replicate_succ 1 2 hij K1
  have h0 : wrap32 ((1 : Int) - 1) = 0 := by decide
  have h1 : wrap32 ((2 : Int) - 1) = 1 := by decide
  rw [h0, h1] at hcons
  generalize pushEdges (List.replicate K1 ((1 : Int), (2 : Int))) = tail at hcons
  rw [hcons] at hlen
  rw [← hlen] at hM
  have hres : ¬ (wrap32 (2 * (0 : Int)) < 0) := by decide
  have hw : wrap32 (2 + 1) = 3 := by decide
  have h20 : ¬ ((2 : Int) < 0) := by decide
  have h30 : ¬ ((3 : Int) < 0) := by decide
  have ht2 : Int.toNat 2 = 2 := rfl
  have ht3 : Int.toNat 3 = 3 := rfl
  have hf : forRange 0 2 = [0, 1] := rfl
  have hc : countLoop ((0, 1) :: (1, 0) :: tail) [0, 1] (List.replicate 2 0) = .ok [1, 1] := by
    simp [countLoop]
  have hp : prefixLoop [1, 1] [0, 1] ((List.replicate 3 0).set 0 0) = .ok [0, 1, 2] := rfl
  have hcp : copyLoop [0, 1, 2] [0, 1] (List.replicate 2 0) = .ok [0, 1] := rfl
  have hfl : fillLoop ((0, 1) :: (1, 0) :: tail) [0, 1] [0, 1] (List.replicate 2 0) =
      .ok [1, 0] := by
    simp [fillLoop]
  have hbuild : buildFrom 2 ((0, 1) :: (1, 0) :: tail) 2 = .ok ([0, 1, 2], [1, 0]) := by
    rw [buildFrom, if_neg h20, ht2, hf, hc]
    dsimp only
    rw [hw, if_neg h30, ht3, hp]
    dsimp only
    rw [if_neg h20, hcp]
    dsimp only
    rw [hfl]
  rw [buildCSR, buildArrays, if_neg hres, hcons, hM, hbuild]
  rfl
/-- The same with copies of the entry `(2, 3)` in a matrix of order 3. -/
theorem buildCSR_wrapped_three (K : Nat) (hK : 1 ≤ K)
    (hM : wrap32 (((2 * K : Nat) : Int)) = 2) :
    buildCSR 3 0 (List.replicate K (2, 3)) = .ok ⟨3, [0, 0, 1, 2], [2, 1]⟩ := by
  obtain ⟨K1, rfl⟩ : ∃ K1, K = K1 + 1 := ⟨K - 1, by omega⟩
  have hij : wrap32 ((2 : Int) - 1) ≠ wrap32 ((3 : Int) - 1) := by decide
  have hlen := pushEdges_replicate_length 2 3 hij (K1 + 1)
  have hcons := pushEdges_replicate_succ 2 3 hij K1
  have h0 : wrap32 ((2 : Int) - 1) = 1 := by decide
  have h1 : wrap32 ((3 : Int) - 1) = 2 := by decide
  rw [h0, h1] at hcons
  generalize pushEdges (List.replicate K1 ((2 : Int), (3 : Int))) = tail at hcons
  rw [hcons] at hlen
  rw [← hlen] at hM
  have hres : ¬ (wrap32 (2 * (0 : Int)) < 0) := by decide
  have hw : wrap32 (3 + 1) = 4 := by decide
  have h20 : ¬ ((2 : Int) < 0) := by decide
  have h30 : ¬ ((3 : Int) < 0) := by decide
  have h40 : ¬ ((4 : Int) < 0) := by decide
  have ht2 : Int.toNat 2 = 2 := rfl
  have ht3 : Int.toNat 3 = 3 := rfl
  have ht4 : Int.toNat 4 = 4 := rfl
  have hf : forRange 0 2 = [0, 1] := rfl
  have hf3 : forRange 0 3 = [0, 1, 2] := rfl
  have hc : countLoop ((1, 2) :: (2, 1) :: tail) [0, 1] (List.replicate 3 0) =
      .ok [0, 1, 1] := by
    simp [countLoop]
  have hp : prefixLoop [0, 1, 1] [0, 1, 2] ((List.replicate 4 0).set 0 0) =
      .ok [0, 0, 1, 2] := rfl
  have hcp : copyLoop [0, 0, 1, 2] [0, 1, 2] (List.replicate 3 0) = .ok [0, 0, 1] := rfl
  have hfl : fillLoop ((1, 2) :: (2, 1) :: tail) [0, 1] [0, 0, 1] (List.replicate 2 0) =
      .ok [2, 1] := by
    simp [fillLoop]
  have hbuild : buildFrom 3 ((1, 2) :: (2, 1) :: tail) 2 = .ok ([0, 0, 1, 2], [2, 1]) := by
    rw [buildFrom, if_neg h30, ht2, ht3, hf, hc]
    dsimp only
    rw [hw, if_neg h40, ht4, hf3, hp]
    dsimp only
    rw [if_neg h20, hcp]
    dsimp only
    rw [hfl]
  rw [buildCSR, buildArrays, if_neg hres, hcons, hM, hbuild]
  rfl

theorem entriesInRange_replicate (n i j : Int) (h : 1 ≤ i ∧ i ≤ n ∧ 1 ≤ j ∧ j ≤ n) (K : Nat) :
    EntriesInRange n (List.replicate K (i, j)) := by
  intro p hp
  rw [List.eq_of_mem_replicate hp]
  exact h

theorem adjacencySpec_replicate (i j : Int) (v : Nat) (hij : i ≠ j) (hv : i - 1 = (v : Int))
    (K : Nat) :
    adjacencySpec (List.replicate K (i, j)) v = List.replicate K (j - 1).toNat := by
  induction K with
  | zero => rfl
  | succ K ih =>
    rw [List.replicate_succ, List.replicate_succ, adjacencySpec, List.flatMap_cons,
      ← adjacencySpec, ih]
    simp only [if_neg hij, if_pos hv]
    rfl

theorem nonLoops_replicate (i j : Int) (hij : i ≠ j) (K : Nat) :
    nonLoops (List.replicate K (i, j)) = K := by
  rw [nonLoops, List.countP_replicate]
  simp [hij]

/-! ## The loader: claims about the adjacency and the structural invariants -/

theorem forRange_length (lo hi : Nat) : (forRange lo hi).length = hi - lo := by
  rw [forRange, List.length_range']

theorem nbrs_length (g : CSRGraph) (v : Nat) :
    (nbrs g v).length = g.rowptr.getD (v + 1) 0 - g.rowptr.getD v 0 := by
  rw [nbrs, List.length_map, forRange_length]

/-- From the header on, the loader is `buildCSR` applied to the parsed header and the
parsed entry lines. -/
theorem load_eq_buildCSR (content line rest : List Char) (garbage : Int × Int × Int)
    (n nnz : Int) (hfind : findHeader (content.length + 1) content = .ok (line, rest))
    (hhead : parseHeader line garbage = (n, n, nnz)) :
    load_mtx_as_csr (some content) garbage =
      buildCSR n nnz (readPairs (rest.length + 1) ⟨rest, false⟩) := by
  rw [load_mtx_as_csr]
  dsimp only
  rw [hfind]
  dsimp only
  rw [hhead]
  dsimp only
  rw [if_neg (by simp)]

/-- The adjacency in the words of the claim is symmetric and free of self-loops. -/
theorem adjacencySpec_symm (n : Int) (pairs : List (Int × Int))
    (hp : EntriesInRange n pairs) (v u : Nat) (h : u ∈ adjacencySpec pairs v) :
    v ∈ adjacencySpec pairs u ∧ u ≠ v ∧ (u : Int) < n := by
  rw [mem_adjacencySpec] at h
  obtain ⟨p, hpm, hne, h⟩ := h
  obtain ⟨h1, h2, h3, h4⟩ := hp p hpm
  rw [mem_adjacencySpec]
  rcases h with ⟨ha, hb⟩ | ⟨ha, hb⟩
  · refine ⟨⟨p, hpm, hne, Or.inr ⟨by omega, by omega⟩⟩, by omega, by omega⟩
  · refine ⟨⟨p, hpm, hne, Or.inl ⟨by omega, by omega⟩⟩, by omega, by omega⟩

/-! ### Files of repeated entry lines -/

/-- The text of `K` entry lines `i j`, for single digits written as `a` and `b`. -/
def entryLines (a b : Char) (K : Nat) : List Char :=
  (List.replicate K [a, ' ', b, '\n']).flatten

theorem entryLines_succ (a b : Char) (K : Nat) :
    entryLines a b (K + 1) = a :: ' ' :: b :: '\n' :: entryLines a b K := by
  rw [entryLines, List.replicate_succ, List.flatten_cons]
  rfl

theorem entryLines_length (a b : Char) (K : Nat) : (entryLines a b K).length = 4 * K := by
  induction K with
  | zero => rfl
  | succ K ih => rw [entryLines_succ]; simp only [List.length_cons, ih]; omega

theorem readPairs_line12 (f : Nat) (t : List Char) :
    readPairs (f + 1) ⟨'1' :: ' ' :: '2' :: '\n' :: t, false⟩ =
      (1, 2) :: readPairs f ⟨'\n' :: t, false⟩ := rfl

theorem readPairs_nl_line12 (f : Nat) (t : List Char) :
    readPairs (f + 1) ⟨'\n' :: '1' :: ' ' :: '2' :: '\n' :: t, false⟩ =
      (1, 2) :: readPairs f ⟨'\n' :: t, false⟩ := rfl

theorem readPairs_line23 (f : Nat) (t : List Char) :
    readPairs (f + 1) ⟨'2' :: ' ' :: '3' :: '\n' :: t, false⟩ =
      (2, 3) :: readPairs f ⟨'\n' :: t, false⟩ := rfl

theorem readPairs_nl_line23 (f : Nat) (t : List Char) :
    readPairs (f + 1) ⟨'\n' :: '2' :: ' ' :: '3' :: '\n' :: t, false⟩ =
      (2, 3) :: readPairs f ⟨'\n' :: t, false⟩ := rfl

theorem readPairs_nl_end (f : Nat) : readPairs f ⟨['\n'], false⟩ = [] := by
  cases f <;> rfl

theorem readPairs_entryLines (a b : Char) (p : Int × Int)
    (h : ∀ f t, readPairs (f + 1) ⟨'\n' :: a :: ' ' :: b :: '\n' :: t, false⟩ =
      p :: readPairs f ⟨'\n' :: t, false⟩) (K f : Nat) :
    readPairs (f + K) ⟨'\n' :: entryLines a b K, false⟩ = List.replicate K p := by
  induction K with
  | zero => exact readPairs_nl_end f
  | succ K ih =>
    rw [entryLines_succ, ← Nat.add_assoc, h, ih, List.replicate_succ]

/-- The pairs read from `K` entry lines. -/
theorem readPairs_file (a b : Char) (p : Int × Int)
    (h0 : ∀ f t, readPairs (f + 1) ⟨a :: ' ' :: b :: '\n' :: t, false⟩ =
      p :: readPairs f ⟨'\n' :: t, false⟩)
    (h : ∀ f t, readPairs (f + 1) ⟨'\n' :: a :: ' ' :: b :: '\n' :: t, false⟩ =
      p :: readPairs f ⟨'\n' :: t, false⟩) (K : Nat) :
    readPairs ((entryLines a b K).length + 1) ⟨entryLines a b K, false⟩ =
      List.replicate K p := by
  cases K with
  | zero => rfl
  | succ K =>
    have hlen : (entryLines a b (K + 1)).length + 1 = (3 * K + 4) + K + 1 := by
      rw [entryLines_length]; omega
    rw [hlen, entryLines_succ, h0, readPairs_entryLines a b p h, List.replicate_succ]

/-- A file with header `2 2 0` and `K` entry lines `1 2` whose directed edge count
`2 * K` is 2 modulo 2^32: the graph returned has two edges. -/
theorem load_wrapped_two (K : Nat) (hK : 1 ≤ K) (hM : wrap32 (((2 * K : Nat) : Int)) = 2) :
    load_mtx_as_csr (some ("2 2 0\n".toList ++ entryLines '1' '2' K)) (0, 0, 0) =
      .ok ⟨2, [0, 1, 2], [1, 0]⟩ := by
  have hfind : findHeader (("2 2 0\n".toList ++ entryLines '1' '2' K).length + 1)
      ("2 2 0\n".toList ++ entryLines '1' '2' K) =
        .ok ("2 2 0".toList, entryLines '1' '2' K) := rfl
  have hhead : parseHeader "2 2 0".toList (0, 0, 0) = (2, 2, 0) := rfl
  rw [load_eq_buildCSR _ _ _ _ 2 0 hfind hhead,
    readPairs_file '1' '2' (1, 2) readPairs_line12 readPairs_nl_line12]
  exact buildCSR_wrapped_two K hK hM

/-- The same with header `3 3 0` and entry lines `2 3`. -/
theorem load_wrapped_three (K : Nat) (hK : 1 ≤ K)
    (hM : wrap32 (((2 * K : Nat) : Int)) = 2) :
    load_mtx_as_csr (some ("3 3 0\n".toList ++ entryLines '2' '3' K)) (0, 0, 0) =
      .ok ⟨3, [0, 0, 1, 2], [2, 1]⟩ := by
  have hfind : findHeader (("3 3 0\n".toList ++ entryLines '2' '3' K).length + 1)
      ("3 3 0\n".toList ++ entryLines '2' '3' K) =
        .ok ("3 3 0".toList, entryLines '2' '3' K) := rfl
  have hhead : parseHeader "3 3 0".toList (0, 0, 0) = (3, 3, 0) := rfl
  rw [load_eq_buildCSR _ _ _ _ 3 0 hfind hhead,
    readPairs_file '2' '3' (2, 3) readPairs_line23 readPairs_nl_line23]
  exact buildCSR_wrapped_three K hK hM

/-- The structural invariants of the graph returned by the loader when every count
fits an `int`. -/
theorem buildCSR_valid (n nnz : Int) (pairs : List (Int × Int)) (hn0 : 0 ≤ n)
    (hn1 : n < 2147483647) (hnnz0 : 0 ≤ nnz) (hnnz1 : 2 * nnz ≤ 2147483647)
    (hp : EntriesInRange n pairs) (hlen : 2 * nonLoops pairs ≤ 2147483647) :
    ∃ g, buildCSR n nnz pairs = .ok g ∧ g.n = n.toNat ∧ g.Valid ∧
      g.colind.length = 2 * nonLoops pairs ∧
      ∀ v, v < g.n → nbrs g v = adjacencySpec pairs v := by
  obtain ⟨g, hrun, hgn, hrp, hcl, hcol, hnb⟩ :=
    buildCSR_spec n nnz pairs hn0 hn1 hnnz0 hnnz1 hp hlen
  obtain ⟨hE, hElen, -⟩ := pushEdges_spec n (by omega) pairs hp
  refine ⟨g, hrun, hgn, ?_, hcl, hnb⟩
  obtain ⟨N, rfl⟩ := Int.eq_ofNat_of_zero_le hn0
  rw [Int.toNat_natCast] at hgn hrp
  have hrow : ∀ i d, i ≤ N → g.rowptr.getD i d = below (pushEdges pairs) i := by
    intro i d hi
    rw [hrp]
    simp [List.getD_eq_getElem?_getD, List.getElem?_range (by omega : i < N + 1)]
  have hb0 : below (pushEdges pairs) 0 = 0 :=
    below_zero _ (fun e he => (hE e he).1)
  have hbN : below (pushEdges pairs) N = (pushEdges pairs).length :=
    below_all _ N (fun e he => (hE e he).2.1)
  refine ⟨?_, ?_, ?_, ?_, hcol⟩
  · rw [hrp, hgn]; simp
  · rw [hrow 0 1 (Nat.zero_le _)]; exact hb0
  · intro v hv
    rw [hgn] at hv
    rw [hrow v 0 (by omega), hrow (v + 1) 0 (by omega)]
    exact below_mono _ (Nat.le_succ v)
  · rw [hgn, hrow N 0 (le_refl _), hbN, hElen, hcl]

/-- C11 (counterexample): a file with header `2 2 0` followed by 2147483649 entry lines
`1 2`.  Every entry is in range; the loader pushes 4294967298 directed edges,
`int M = edges.size()` is 2, and the graph returned gives vertex 0 the single neighbour
1, where the claim asks for one occurrence of 1 per entry line. -/
theorem adjacency_truncated_when_edge_count_wraps :
    readPairs ((entryLines '1' '2' 2147483649).length + 1)
        ⟨entryLines '1' '2' 2147483649, false⟩ = List.replicate 2147483649 (1, 2) ∧
    EntriesInRange 2 (List.replicate 2147483649 (1, 2)) ∧
    load_mtx_as_csr (some ("2 2 0\n".toList ++ entryLines '1' '2' 2147483649)) (0, 0, 0) =
      .ok ⟨2, [0, 1, 2], [1, 0]⟩ ∧
    nbrs ⟨2, [0, 1, 2], [1, 0]⟩ 0 = [1] ∧
    adjacencySpec (List.replicate 2147483649 (1, 2)) 0 = List.replicate 2147483649 1 ∧
    nbrs ⟨2, [0, 1, 2], [1, 0]⟩ 0 ≠ adjacencySpec (List.replicate 2147483649 (1, 2)) 0 := by
  have h21 : ((2 : Int) - 1).toNat = 1 := rfl
  have hadj := adjacencySpec_replicate 1 2 0 (by decide) (by decide) 2147483649
  rw [h21] at hadj
  have hnb : nbrs ⟨2, [0, 1, 2], [1, 0]⟩ 0 = [1] := rfl
  refine ⟨readPairs_file '1' '2' (1, 2) readPairs_line12 readPairs_nl_line12 2147483649,
    entriesInRange_replicate 2 1 2 (by decide) 2147483649,
    load_wrapped_two 2147483649 (by decide) (by decide), hnb, hadj, ?_⟩
  intro h
  have hl := congrArg List.length h
  rw [hadj, List.length_replicate, hnb] at hl
  exact absurd hl (by decide)

/-- C11: for a file whose header line parses to `n n nnz` with `0 ≤ n < 2147483647` and
`0 ≤ 2 * nnz ≤ 2147483647`, and whose entry lines parse to pairs with 1-based indices
in `[1, n]`, at most 2147483647 / 2 of them off the diagonal, `load_mtx_as_csr` returns a
graph on `n` vertices in which the neighbour slice of every vertex `v` is, in input
order and with multiplicity, the `u ≠ v` such that the file has an entry `(v+1, u+1)`
or `(u+1, v+1)`; so `u` is a neighbour of `v` iff `v` is a neighbour of `u`, and no
vertex is its own neighbour. -/
theorem loader_builds_symmetrized_adjacency (content line rest : List Char)
    (garbage : Int × Int × Int) (n nnz : Int) (pairs : List (Int × Int))
    (hfind : findHeader (content.length + 1) content = .ok (line, rest))
    (hhead : parseHeader line garbage = (n, n, nnz))
    (hpairs : readPairs (rest.length + 1) ⟨rest, false⟩ = pairs)
    (hn0 : 0 ≤ n) (hn1 : n < 2147483647) (hnnz0 : 0 ≤ nnz) (hnnz1 : 2 * nnz ≤ 2147483647)
    (hp : EntriesInRange n pairs) (hlen : 2 * nonLoops pairs ≤ 2147483647) :
    ∃ g, load_mtx_as_csr (some content) garbage = .ok g ∧ g.n = n.toNat ∧
      (∀ v, v < g.n → nbrs g v = adjacencySpec pairs v) ∧
      (∀ v u, v < g.n → u < g.n → (u ∈ nbrs g v ↔ v ∈ nbrs g u)) ∧
      g.Symmetric ∧ ∀ v, v < g.n → v ∉ nbrs g v := by
  obtain ⟨g, hrun, hgn, -, -, -, hnb⟩ :=
    buildCSR_spec n nnz pairs hn0 hn1 hnnz0 hnnz1 hp hlen
  rw [load_eq_buildCSR content line rest garbage n nnz hfind hhead, hpairs]
  have hlt : ∀ u : Nat, (u : Int) < n → u < g.n := by
    intro u hu; rw [hgn]; omega
  refine ⟨g, hrun, hgn, hnb, ?_, ?_, ?_⟩
  · intro v u hv hu
    rw [hnb v hv, hnb u hu]
    exact ⟨fun h => (adjacencySpec_symm n pairs hp v u h).1,
      fun h => (adjacencySpec_symm n pairs hp u v h).1⟩
  · intro v hv u hu
    rw [hnb v hv] at hu
    obtain ⟨h1, -, h3⟩ := adjacencySpec_symm n pairs hp v u hu
    rw [hnb u (hlt u h3)]
    exact h1
  · intro v hv h
    rw [hnb v hv] at h
    exact (adjacencySpec_symm n pairs hp v v h).2.1 rfl

/-- C11 (witness): the path on four vertices, read from a file with a banner and a
comment line. -/
theorem loader_builds_symmetrized_adjacency_witness :
    ∃ g, load_mtx_as_csr (some "%%MatrixMarket\n% c\n4 4 3\n1 2\n2 3\n3 4\n".toList)
        (7, 8, 9) = .ok g ∧ g.n = (4 : Int).toNat ∧
      (∀ v, v < g.n → nbrs g v = adjacencySpec [(1, 2), (2, 3), (3, 4)] v) ∧
      (∀ v u, v < g.n → u < g.n → (u ∈ nbrs g v ↔ v ∈ nbrs g u)) ∧
      g.Symmetric ∧ ∀ v, v < g.n → v ∉ nbrs g v :=
  loader_builds_symmetrized_adjacency
    "%%MatrixMarket\n% c\n4 4 3\n1 2\n2 3\n3 4\n".toList "4 4 3".toList
    "1 2\n2 3\n3 4\n".toList (7, 8, 9) 4 3 [(1, 2), (2, 3), (3, 4)] rfl rfl rfl
    (by decide) (by decide) (by decide) (by decide) (by decide) (by decide)

/-- C12 (counterexample): a file with header `3 3 0` followed by 2147483649 entry lines
`2 3`, none of them a self-loop.  The graph returned has a `colind` of length 2, not
twice the number of entries, and vertex 1 has one neighbour where the entries give it
2147483649. -/
theorem colind_length_wrong_when_edge_count_wraps :
    readPairs ((entryLines '2' '3' 2147483649).length + 1)
        ⟨entryLines '2' '3' 2147483649, false⟩ = List.replicate 2147483649 (2, 3) ∧
    EntriesInRange 3 (List.replicate 2147483649 (2, 3)) ∧
    nonLoops (List.replicate 2147483649 (2, 3)) = 2147483649 ∧
    ∃ g, load_mtx_as_csr (some ("3 3 0\n".toList ++ entryLines '2' '3' 2147483649))
        (0, 0, 0) = .ok g ∧
      g.colind.length = 2 ∧
      g.colind.length ≠ 2 * nonLoops (List.replicate 2147483649 (2, 3)) ∧
      g.rowptr.getD 2 0 - g.rowptr.getD 1 0 = 1 ∧
      (adjacencySpec (List.replicate 2147483649 (2, 3)) 1).length = 2147483649 := by
  have hadj := adjacencySpec_replicate 2 3 1 (by decide) (by decide) 2147483649
  have hnl := nonLoops_replicate 2 3 (by decide) 2147483649
  refine ⟨readPairs_file '2' '3' (2, 3) readPairs_line23 readPairs_nl_line23 2147483649,
    entriesInRange_replicate 3 2 3 (by decide) 2147483649, hnl,
    ⟨3, [0, 0, 1, 2], [2, 1]⟩, load_wrapped_three 2147483649 (by decide) (by decide),
    rfl, ?_, rfl, ?_⟩
  · rw [hnl]; decide
  · rw [hadj, List.length_replicate]

/-- C12: under the hypotheses of C11 (header `n n nnz` with `0 ≤ n < 2147483647` and
`0 ≤ 2 * nnz ≤ 2147483647`, entries in `[1, n]`, at most 2147483647 directed edges) the
graph returned by `load_mtx_as_csr` satisfies the structural invariants: `rowptr` has
length `n + 1`, starts at 0, is non-decreasing with `rowptr[v+1] - rowptr[v]` the
number of neighbours of `v`, `colind` has length `rowptr[n]`, twice the number of
entries off the diagonal, and every `colind` entry is a vertex. -/
theorem loader_builds_valid_csr (content line rest : List Char)
    (garbage : Int × Int × Int) (n nnz : Int) (pairs : List (Int × Int))
    (hfind : findHeader (content.length + 1) content = .ok (line, rest))
    (hhead : parseHeader line garbage = (n, n, nnz))
    (hpairs : readPairs (rest.length + 1) ⟨rest, false⟩ = pairs)
    (hn0 : 0 ≤ n) (hn1 : n < 2147483647) (hnnz0 : 0 ≤ nnz) (hnnz1 : 2 * nnz ≤ 2147483647)
    (hp : EntriesInRange n pairs) (hlen : 2 * nonLoops pairs ≤ 2147483647) :
    ∃ g, load_mtx_as_csr (some content) garbage = .ok g ∧ g.n = n.toNat ∧ g.Valid ∧
      g.rowptr.length = n.toNat + 1 ∧ g.rowptr.getD 0 0 = 0 ∧
      (∀ v, v < g.n → g.rowptr.getD v 0 ≤ g.rowptr.getD (v + 1) 0 ∧
        g.rowptr.getD (v + 1) 0 - g.rowptr.getD v 0 = (adjacencySpec pairs v).length) ∧
      g.colind.length = g.rowptr.getD g.n 0 ∧
      g.colind.length = 2 * nonLoops pairs ∧
      ∀ u ∈ g.colind, u < g.n := by
  obtain ⟨g, hrun, hgn, hval, hcl, hnb⟩ :=
    buildCSR_valid n nnz pairs hn0 hn1 hnnz0 hnnz1 hp hlen
  rw [load_eq_buildCSR content line rest garbage n nnz hfind hhead, hpairs]
  obtain ⟨h1, h2, h3, h4, h5⟩ := hval
  refine ⟨g, hrun, hgn, ⟨h1, h2, h3, h4, h5⟩, by rw [h1, hgn], ?_, ?_, h4.symm, hcl, h5⟩
  · have hpos : 0 < g.rowptr.length := by omega
    rw [List.getD_eq_getElem _ _ hpos] at h2 ⊢
    exact h2
  · intro v hv
    refine ⟨h3 v hv, ?_⟩
    rw [← nbrs_length, hnb v hv]

/-- C12 (witness): a matrix of order 3 with a diagonal entry. -/
theorem loader_builds_valid_csr_witness :
    ∃ g, load_mtx_as_csr (some "3 3 2\n1 2\n2 2\n".toList) (0, 0, 0) = .ok g ∧
      g.n = (3 : Int).toNat ∧ g.Valid ∧
      g.rowptr.length = (3 : Int).toNat + 1 ∧ g.rowptr.getD 0 0 = 0 ∧
      (∀ v, v < g.n → g.rowptr.getD v 0 ≤ g.rowptr.getD (v + 1) 0 ∧
        g.rowptr.getD (v + 1) 0 - g.rowptr.getD v 0 =
          (adjacencySpec [(1, 2), (2, 2)] v).length) ∧
      g.colind.length = g.rowptr.getD g.n 0 ∧
      g.colind.length = 2 * nonLoops [(1, 2), (2, 2)] ∧
      ∀ u ∈ g.colind, u < g.n :=
  loader_builds_valid_csr "3 3 2\n1 2\n2 2\n".toList "3 3 2".toList "1 2\n2 2\n".toList
    (0, 0, 0) 3 2 [(1, 2), (2, 2)] rfl rfl rfl
    (by decide) (by decide) (by decide) (by decide) (by decide) (by decide)

/-! ## The `main` functions: loader failures and usage errors -/

/-- A driver whose loader fails ends inside the loader, with no label array. -/
theorem mains_of_load_error (argv : List (List Char)) (fs : List Char → Option (List Char))
    (garbage : Int × Int × Int) (e : LoadErr)
    (hload : load_mtx_as_csr (fs (argv.getD 1 [])) garbage = .error e) :
    (2 ≤ argv.length → ∀ fuel, main_sequential argv fs garbage fuel = .loadFailed e) ∧
    (2 ≤ argv.length → ∀ io sched fuel,
      main_openmp argv fs garbage io sched fuel = .loadFailed e) ∧
    (2 ≤ argv.length → ∀ io sched fuel,
      main_opencilk argv fs garbage io sched fuel = .loadFailed e) ∧
    (3 ≤ argv.length → 0 < atoi (argv.getD 2 []) → ∀ fuel,
      main_pthreads argv fs garbage fuel = .loadFailed e) := by
  refine ⟨fun h fuel => ?_, fun h io sched fuel => ?_, fun h io sched fuel => ?_,
    fun h ht fuel => ?_⟩
  · rw [main_sequential, if_neg (by omega), hload]
  · rw [main_openmp, if_neg (by omega), hload]
  · rw [main_opencilk, if_neg (by omega), hload]
  · rw [main_pthreads, if_neg (by omega)]
    dsimp only
    rw [if_neg (by omega), hload]

/-- C13: when the first line that is not a comment parses to a row count different from
the column count, `load_mtx_as_csr` ends with the error "Matrix must be square"
(`exit(1)`), whatever follows the header line; every driver given such a file ends
inside the loader with exit status 1 and computes no label array. -/
theorem non_square_header_is_fatal (content line rest : List Char)
    (garbage : Int × Int × Int)
    (hfind : findHeader (content.length + 1) content = .ok (line, rest))
    (hns : (parseHeader line garbage).1 ≠ (parseHeader line garbage).2.1) :
    load_mtx_as_csr (some content) garbage = .error .notSquare ∧
    (MainResult.loadFailed .notSquare).exitCode = some 1 ∧
    ∀ (argv : List (List Char)) (fs : List Char → Option (List Char)),
      fs (argv.getD 1 []) = some content →
      (2 ≤ argv.length → ∀ fuel,
        main_sequential argv fs garbage fuel = .loadFailed .notSquare) ∧
      (2 ≤ argv.length → ∀ io sched fuel,
        main_openmp argv fs garbage io sched fuel = .loadFailed .notSquare) ∧
      (2 ≤ argv.length → ∀ io sched fuel,
        main_opencilk argv fs garbage io sched fuel = .loadFailed .notSquare) ∧
      (3 ≤ argv.length → 0 < atoi (argv.getD 2 []) → ∀ fuel,
        main_pthreads argv fs garbage fuel = .loadFailed .notSquare) := by
  have hload : load_mtx_as_csr (some content) garbage = .error .notSquare := by
    rw [load_mtx_as_csr]
    dsimp only
    rw [hfind]
    dsimp only
    rw [if_pos hns]
  refine ⟨hload, rfl, fun argv fs hfs => ?_⟩
  exact mains_of_load_error argv fs garbage .notSquare (by rw [hfs]; exact hload)

/-- C13 (witness): the header `3 4 5` after a banner line, followed by an entry line. -/
theorem non_square_header_is_fatal_witness :
    load_mtx_as_csr (some "%%MatrixMarket\n3 4 5\n1 2\n".toList) (7, 8, 9) =
      .error .notSquare ∧
    (MainResult.loadFailed .notSquare).exitCode = some 1 ∧
    ∀ (argv : List (List Char)) (fs : List Char → Option (List Char)),
      fs (argv.getD 1 []) = some "%%MatrixMarket\n3 4 5\n1 2\n".toList →
      (2 ≤ argv.length → ∀ fuel,
        main_sequential argv fs (7, 8, 9) fuel = .loadFailed .notSquare) ∧
      (2 ≤ argv.length → ∀ io sched fuel,
        main_openmp argv fs (7, 8, 9) io sched fuel = .loadFailed .notSquare) ∧
      (2 ≤ argv.length → ∀ io sched fuel,
        main_opencilk argv fs (7, 8, 9) io sched fuel = .loadFailed .notSquare) ∧
      (3 ≤ argv.length → 0 < atoi (argv.getD 2 []) → ∀ fuel,
        main_pthreads argv fs (7, 8, 9) fuel = .loadFailed .notSquare) :=
  non_square_header_is_fatal "%%MatrixMarket\n3 4 5\n1 2\n".toList "3 4 5".toList
    "1 2\n".toList (7, 8, 9) rfl (by decide)

theorem main_sequential_early (argv : List (List Char))
    (fs : List Char → Option (List Char)) (garbage : Int × Int × Int) (fuel : Nat) :
    (main_sequential argv fs garbage fuel).earlyReturn = true ↔ argv.length < 2 := by
  unfold main_sequential
  by_cases h : argv.length < 2
  · simp [h, MainResult.earlyReturn]
  · rw [if_neg h]
    rcases load_mtx_as_csr (fs (argv.getD 1 [])) garbage with e | g
    · simp [MainResult.earlyReturn, h]
    · dsimp only
      rcases cc_sequential g [] fuel with e | ⟨l, k⟩ <;> simp [MainResult.earlyReturn, h]

theorem main_openmp_early (argv : List (List Char))
    (fs : List Char → Option (List Char)) (garbage : Int × Int × Int)
    (io : CSRGraph → List Nat) (sched : CSRGraph → Nat → List Nat) (fuel : Nat) :
    (main_openmp argv fs garbage io sched fuel).earlyReturn = true ↔ argv.length < 2 := by
  unfold main_openmp
  by_cases h : argv.length < 2
  · simp [h, MainResult.earlyReturn]
  · rw [if_neg h]
    rcases load_mtx_as_csr (fs (argv.getD 1 [])) garbage with e | g
    · simp [MainResult.earlyReturn, h]
    · dsimp only
      rcases cc_openmp g [] (io g) (sched g) fuel with e | ⟨l, k⟩ <;> simp [MainResult.earlyReturn, h]

theorem main_opencilk_early (argv : List (List Char))
    (fs : List Char → Option (List Char)) (garbage : Int × Int × Int)
    (io : CSRGraph → List Nat) (sched : CSRGraph → Nat → List Nat) (fuel : Nat) :
    (main_opencilk argv fs garbage io sched fuel).earlyReturn = true ↔ argv.length < 2 := by
  unfold main_opencilk
  by_cases h : argv.length < 2
  · simp [h, MainResult.earlyReturn]
  · rw [if_neg h]
    rcases load_mtx_as_csr (fs (argv.getD 1 [])) garbage with e | g
    · simp [MainResult.earlyReturn, h]
    · dsimp only
      rcases cc_opencilk g [] (io g) (sched g) fuel with e | ⟨l, k⟩ <;> simp [MainResult.earlyReturn, h]

theorem main_pthreads_early (argv : List (List Char))
    (fs : List Char → Option (List Char)) (garbage : Int × Int × Int) (fuel : Nat) :
    (main_pthreads argv fs garbage fuel).earlyReturn = true ↔
      (argv.length < 3 ∨ atoi (argv.getD 2 []) ≤ 0) := by
  unfold main_pthreads
  by_cases h : argv.length < 3
  · simp [h, MainResult.earlyReturn]
  · rw [if_neg h]
    dsimp only
    by_cases ht : atoi (argv.getD 2 []) ≤ 0
    · rw [if_pos ht]
      exact ⟨fun _ => Or.inr ht, fun _ => rfl⟩
    · rw [if_neg ht]
      have hno : ¬ (argv.length < 3 ∨ atoi (argv.getD 2 []) ≤ 0) := by omega
      rcases load_mtx_as_csr (fs (argv.getD 1 [])) garbage with e | g
      · exact ⟨fun hh => absurd hh Bool.false_ne_true, fun hh => absurd hh hno⟩
      · dsimp only
        rcases cc_pthreads g [] (atoi (argv.getD 2 [])) fuel with e | ⟨l, k⟩
        · exact ⟨fun hh => absurd hh Bool.false_ne_true, fun hh => absurd hh hno⟩
        · exact ⟨fun hh => absurd hh Bool.false_ne_true, fun hh => absurd hh hno⟩

/-- An early return does not read the file system. -/
theorem early_return_ignores_files (argv : List (List Char))
    (fs fs2 : List Char → Option (List Char)) (garbage : Int × Int × Int)
    (io : CSRGraph → List Nat) (sched : CSRGraph → Nat → List Nat) (fuel : Nat) :
    ((main_pthreads argv fs garbage fuel).earlyReturn = true →
      main_pthreads argv fs2 garbage fuel = main_pthreads argv fs garbage fuel) ∧
    ((main_sequential argv fs garbage fuel).earlyReturn = true →
      main_sequential argv fs2 garbage fuel = main_sequential argv fs garbage fuel) ∧
    ((main_openmp argv fs garbage io sched fuel).earlyReturn = true →
      main_openmp argv fs2 garbage io sched fuel =
        main_openmp argv fs garbage io sched fuel) ∧
    ((main_opencilk argv fs garbage io sched fuel).earlyReturn = true →
      main_opencilk argv fs2 garbage io sched fuel =
        main_opencilk argv fs garbage io sched fuel) := by
  refine ⟨fun h => ?_, fun h => ?_, fun h => ?_, fun h => ?_⟩
  · rw [main_pthreads_early] at h
    rw [main_pthreads, main_pthreads]
    rcases h with h | h
    · rw [if_pos h, if_pos h]
    · by_cases h3 : argv.length < 3
      · rw [if_pos h3, if_pos h3]
      · rw [if_neg h3, if_neg h3]
        dsimp only
        rw [if_pos h, if_pos h]
  · rw [main_sequential_early] at h
    rw [main_sequential, main_sequential, if_pos h, if_pos h]
  · rw [main_openmp_early] at h
    rw [main_openmp, main_openmp, if_pos h, if_pos h]
  · rw [main_opencilk_early] at h
    rw [main_opencilk, main_opencilk, if_pos h, if_pos h]

/-- C15: the pthreads driver returns 1 from `main` before the loader is called exactly
when `argc < 3` or `atoi(argv[2]) <= 0`; the sequential, OpenMP and OpenCilk drivers do
so exactly when `argc < 2`.  Such a run has exit status 1 and is the same whatever files
are present. -/
theorem usage_errors_return_one :
    (∀ argv fs garbage fuel,
      ((main_pthreads argv fs garbage fuel).earlyReturn = true ↔
        (argv.length < 3 ∨ atoi (argv.getD 2 []) ≤ 0))) ∧
    (∀ argv fs garbage fuel,
      ((main_sequential argv fs garbage fuel).earlyReturn = true ↔ argv.length < 2)) ∧
    (∀ argv fs garbage io sched fuel,
      ((main_openmp argv fs garbage io sched fuel).earlyReturn = true ↔
        argv.length < 2)) ∧
    (∀ argv fs garbage io sched fuel,
      ((main_opencilk argv fs garbage io sched fuel).earlyReturn = true ↔
        argv.length < 2)) ∧
    (∀ r : MainResult, r.earlyReturn = true → r.exitCode = some 1) ∧
    (∀ argv fs fs2 garbage fuel,
      (main_pthreads argv fs garbage fuel).earlyReturn = true →
        main_pthreads argv fs2 garbage fuel = main_pthreads argv fs garbage fuel) ∧
    (∀ argv fs fs2 garbage fuel,
      (main_sequential argv fs garbage fuel).earlyReturn = true →
        main_sequential argv fs2 garbage fuel = main_sequential argv fs garbage fuel) ∧
    (∀ argv fs fs2 garbage io sched fuel,
      (main_openmp argv fs garbage io sched fuel).earlyReturn = true →
        main_openmp argv fs2 garbage io sched fuel =
          main_openmp argv fs garbage io sched fuel) ∧
    (∀ argv fs fs2 garbage io sched fuel,
      (main_opencilk argv fs garbage io sched fuel).earlyReturn = true →
        main_opencilk argv fs2 garbage io sched fuel =
          main_opencilk argv fs garbage io sched fuel) := by
  refine ⟨main_pthreads_early, main_sequential_early, main_openmp_early,
    main_opencilk_early, ?_, ?_, ?_, ?_, ?_⟩
  · intro r hr
    cases r <;> first | rfl | exact absurd hr Bool.false_ne_true
  · intro argv fs fs2 garbage fuel
    exact (early_return_ignores_files argv fs fs2 garbage (fun _ => []) (fun _ _ => [])
      fuel).1
  · intro argv fs fs2 garbage fuel
    exact (early_return_ignores_files argv fs fs2 garbage (fun _ => []) (fun _ _ => [])
      fuel).2.1
  · intro argv fs fs2 garbage io sched fuel
    exact (early_return_ignores_files argv fs fs2 garbage io sched fuel).2.2.1
  · intro argv fs fs2 garbage io sched fuel
    exact (early_return_ignores_files argv fs fs2 garbage io sched fuel).2.2.2

/-- C15 (witness): the pthreads driver with thread count `0`, and the sequential driver
without a matrix path. -/
theorem usage_errors_return_one_witness :
    (main_pthreads ["cc_pthreads".toList, "g.mtx".toList, "0".toList] (fun _ => none)
      (0, 0, 0) 0).earlyReturn = true ∧
    (main_sequential ["cc_sequential".toList] (fun _ => none) (0, 0, 0) 0).earlyReturn =
      true :=
  ⟨(usage_errors_return_one.1 _ _ _ _).2 (Or.inr (by decide)),
    (usage_errors_return_one.2.1 _ _ _ _).2 (by decide)⟩

/-! ## The loader: files without a header line -/

/-- A line that the header search skips: it starts with `%`. -/
def IsCommentLine (l : List Char) : Prop := l.head? = some '%' ∧ '\n' ∉ l

instance (l : List Char) : Decidable (IsCommentLine l) := by
  unfold IsCommentLine; infer_instance

/-- The text made of the lines `ls`, each ended by a newline, followed by `last`. -/
def linesText (ls : List (List Char)) (last : List Char) : List Char :=
  (ls.map (fun l => l ++ ['\n'])).flatten ++ last

theorem takeLine_append (l r : List Char) (h : '\n' ∉ l) :
    takeLine (l ++ '\n' :: r) = l := by
  induction l with
  | nil => simp [takeLine]
  | cons c cs ih =>
    have hc : c ≠ '\n' := fun hc => h (by simp [hc])
    have hcs : '\n' ∉ cs := fun hm => h (List.mem_cons_of_mem _ hm)
    rw [List.cons_append, takeLine, if_neg hc, ih hcs]

theorem dropLine_append (l r : List Char) (h : '\n' ∉ l) :
    dropLine (l ++ '\n' :: r) = r := by
  induction l with
  | nil => simp [dropLine]
  | cons c cs ih =>
    have hc : c ≠ '\n' := fun hc => h (by simp [hc])
    have hcs : '\n' ∉ cs := fun hm => h (List.mem_cons_of_mem _ hm)
    rw [List.cons_append, dropLine, if_neg hc, ih hcs]

theorem takeLine_of_not_mem (l : List Char) (h : '\n' ∉ l) : takeLine l = l := by
  induction l with
  | nil => rfl
  | cons c cs ih =>
    have hc : c ≠ '\n' := fun hc => h (by simp [hc])
    have hcs : '\n' ∉ cs := fun hm => h (List.mem_cons_of_mem _ hm)
    rw [takeLine, if_neg hc, ih hcs]

theorem dropLine_of_not_mem (l : List Char) (h : '\n' ∉ l) : dropLine l = [] := by
  induction l with
  | nil => rfl
  | cons c cs ih =>
    have hc : c ≠ '\n' := fun hc => h (by simp [hc])
    have hcs : '\n' ∉ cs := fun hm => h (List.mem_cons_of_mem _ hm)
    rw [dropLine, if_neg hc, ih hcs]

theorem findHeader_nil (fuel : Nat) : findHeader fuel [] = .error .fileEndedBeforeHeader := by
  cases fuel <;> rfl

/-- The header search steps over a comment line. -/
theorem findHeader_comment (fuel : Nat) (l r : List Char) (hl : IsCommentLine l) :
    findHeader (fuel + 1) (l ++ '\n' :: r) = findHeader fuel r := by
  obtain ⟨hh, hn⟩ := hl
  have htl := takeLine_append l r hn
  have hdl := dropLine_append l r hn
  obtain ⟨l1, rfl⟩ : ∃ l1, l = '%' :: l1 := by
    cases l with
    | nil => simp at hh
    | cons c cs => exact ⟨cs, by simp at hh; rw [hh]⟩
  rw [List.cons_append] at htl hdl ⊢
  rw [findHeader, getline]
  dsimp only
  rw [htl, hdl]
  simp

/-- A file of comment lines only has no header line. -/
theorem findHeader_comments (ls : List (List Char)) (last : List Char)
    (hls : ∀ l ∈ ls, IsCommentLine l) (hlast : last = [] ∨ IsCommentLine last) :
    ∀ fuel, findHeader fuel (linesText ls last) = .error .fileEndedBeforeHeader := by
  induction ls with
  | nil =>
    intro fuel
    rw [linesText, List.map_nil, List.flatten_nil, List.nil_append]
    rcases hlast with rfl | ⟨hh, hn⟩
    · exact findHeader_nil fuel
    · cases fuel with
      | zero => rfl
      | succ fuel =>
        have htl := takeLine_of_not_mem last hn
        have hdl := dropLine_of_not_mem last hn
        obtain ⟨l1, rfl⟩ : ∃ l1, last = '%' :: l1 := by
          cases last with
          | nil => simp at hh
          | cons c cs => exact ⟨cs, by simp at hh; rw [hh]⟩
        rw [findHeader, getline]
        dsimp only
        rw [htl, hdl]
        simp [findHeader_nil]
  | cons l ls ih =>
    intro fuel
    have hrec := ih (fun x hx => hls x (List.mem_cons_of_mem _ hx))
    have htext : linesText (l :: ls) last = l ++ '\n' :: linesText ls last := by
      simp [linesText]
    rw [htext]
    cases fuel with
    | zero => rfl
    | succ fuel =>
      rw [findHeader_comment fuel l _ (hls l (List.mem_cons_self _ _))]
      exact hrec fuel

/-! ### The fuel of the two reading loops is never exhausted -/

theorem dropLine_length_le (s : List Char) : (dropLine s).length ≤ s.length := by
  induction s with
  | nil => exact le_refl _
  | cons c cs ih =>
    rw [dropLine]
    split_ifs
    · exact Nat.le_succ _
    · exact le_trans ih (Nat.le_succ _)

/-- The result of the header search does not depend on the fuel, once it exceeds the
length of the text. -/
theorem findHeader_fuel (n : Nat) : ∀ (s : List Char) (f1 f2 : Nat), s.length ≤ n →
    s.length < f1 → s.length < f2 → findHeader f1 s = findHeader f2 s := by
  induction n with
  | zero =>
    intro s f1 f2 hn _ _
    have hs : s = [] := List.length_eq_zero.1 (Nat.le_zero.1 hn)
    rw [hs, findHeader_nil, findHeader_nil]
  | succ n ih =>
    intro s f1 f2 hn h1 h2
    cases s with
    | nil => rw [findHeader_nil, findHeader_nil]
    | cons c cs =>
      obtain ⟨g1, rfl⟩ : ∃ g1, f1 = g1 + 1 := ⟨f1 - 1, by omega⟩
      obtain ⟨g2, rfl⟩ : ∃ g2, f2 = g2 + 1 := ⟨f2 - 1, by omega⟩
      have hd : (dropLine (c :: cs)).length ≤ cs.length := by
        rw [dropLine]
        split_ifs
        · exact le_refl _
        · exact dropLine_length_le cs
      simp only [List.length_cons] at hn h1 h2
      rw [findHeader, findHeader, getline]
      dsimp only
      rw [ih (dropLine (c :: cs)) g1 g2 (by omega) (by omega) (by omega)]

theorem skipWs_length_le (s : List Char) : (skipWs s).length ≤ s.length := by
  induction s with
  | nil => exact le_refl _
  | cons c cs ih =>
    rw [skipWs]
    split_ifs
    · exact le_trans ih (Nat.le_succ _)
    · exact le_refl _

theorem readDigits_length_le (s : List Char) :
    ∀ acc, (readDigits acc s).2.length ≤ s.length := by
  induction s with
  | nil => intro acc; exact le_refl _
  | cons c cs ih =>
    intro acc
    rw [readDigits]
    split_ifs
    · exact le_trans (ih _) (Nat.le_succ _)
    · exact le_refl _

/-- A successful extraction consumes at least one character. -/
theorem extractInt_consumes (st : IStream) (old : Int)
    (hok : (extractInt st old).1.fail = false) :
    (extractInt st old).1.chars.length < st.chars.length := by
  have hsk := skipWs_length_le st.chars
  unfold extractInt at hok ⊢
  by_cases hf : st.fail = true
  · rw [if_pos hf] at hok
    exact absurd (hf.symm.trans hok) (by decide)
  · rw [if_neg hf] at hok ⊢
    revert hok
    cases hws : skipWs st.chars with
    | nil => intro hok; exact Bool.noConfusion hok
    | cons c cs =>
      rw [hws] at hsk
      simp only [List.length_cons] at hsk
      dsimp only
      have hbody : (if c = '-' ∨ c = '+' then cs else c :: cs).length ≤ cs.length + 1 := by
        split_ifs
        · exact Nat.le_succ _
        · exact le_refl _
      revert hbody
      cases (if c = '-' ∨ c = '+' then cs else c :: cs) with
      | nil => intro _ hok; exact Bool.noConfusion hok
      | cons d ds =>
        intro hbody
        simp only [List.length_cons] at hbody
        dsimp only
        by_cases hd : d.isDigit = true
        · rw [if_pos hd]
          have hr : (readDigits 0 (d :: ds)).2.length ≤ ds.length := by
            rw [readDigits, if_pos hd]
            exact readDigits_length_le ds _
          split_ifs <;> intro hok <;>
            first
            | exact False.elim hok
            | (show (readDigits 0 (d :: ds)).2.length < st.chars.length; omega)
        · rw [if_neg hd]
          intro hok; exact Bool.noConfusion hok

/-- A successful extraction of a pair consumes at least two characters. -/
theorem pair_consumes (st : IStream)
    (hok2 : (extractInt (extractInt st 0).1 0).1.fail = false) :
    (extractInt (extractInt st 0).1 0).1.chars.length + 2 ≤ st.chars.length := by
  have hc2 := extractInt_consumes _ 0 hok2
  have hok1 : (extractInt st 0).1.fail = false := by
    by_contra hne
    have ht : (extractInt st 0).1.fail = true := by simpa using hne
    have hsame : extractInt (extractInt st 0).1 0 = ((extractInt st 0).1, 0) := by
      rw [extractInt, if_pos ht]
    rw [hsame] at hok2
    exact hne hok2
  have hc1 := extractInt_consumes st 0 hok1
  omega

/-- The pairs read do not depend on the fuel, once it exceeds the length of the
text. -/
theorem readPairs_fuel (n : Nat) : ∀ (st : IStream) (f1 f2 : Nat), st.chars.length ≤ n →
    st.chars.length < f1 → st.chars.length < f2 → readPairs f1 st = readPairs f2 st := by
  induction n with
  | zero =>
    intro st f1 f2 hn h1 h2
    obtain ⟨g1, rfl⟩ : ∃ g1, f1 = g1 + 1 := ⟨f1 - 1, by omega⟩
    obtain ⟨g2, rfl⟩ : ∃ g2, f2 = g2 + 1 := ⟨f2 - 1, by omega⟩
    rw [readPairs, readPairs]
    by_cases hfail : (extractInt (extractInt st 0).1 0).1.fail = true
    · rw [if_pos hfail, if_pos hfail]
    · exfalso
      have hc := pair_consumes st (by simpa using hfail)
      omega
  | succ n ih =>
    intro st f1 f2 hn h1 h2
    obtain ⟨g1, rfl⟩ : ∃ g1, f1 = g1 + 1 := ⟨f1 - 1, by omega⟩
    obtain ⟨g2, rfl⟩ : ∃ g2, f2 = g2 + 1 := ⟨f2 - 1, by omega⟩
    rw [readPairs, readPairs]
    by_cases hfail : (extractInt (extractInt st 0).1 0).1.fail = true
    · rw [if_pos hfail, if_pos hfail]
    · rw [if_neg hfail, if_neg hfail]
      have hc := pair_consumes st (by simpa using hfail)
      rw [ih _ g1 g2 (by omega) (by omega) (by omega)]

/-! ### The claim about malformed headers -/

/-- C14 (counterexample): the malformed header line `3 3 k` is accepted whatever the
initial values of the header variables, and so is the truncated header `3 3` when the
uninitialised `nnz` happens to hold 9.  Nothing checks the state of the string stream
after `ss >> nrows >> ncols >> nnz`: with `3 3 k` the failed extraction writes 0, with
`3 3` the variable `nnz` keeps its initial value, and the loader returns the graph of
the entry lines, from which the driver computes labels. -/
theorem malformed_header_is_accepted :
    (∀ garbage : Int × Int × Int,
      load_mtx_as_csr (some "3 3 k\n1 2\n".toList) garbage =
        .ok ⟨3, [0, 1, 2, 2], [1, 0]⟩) ∧
    main_sequential ["cc_sequential".toList, "g.mtx".toList]
      (fun _ => some "3 3 k\n1 2\n".toList) (7, 8, 9) 10 = .finished [0, 0, 2] 2 ∧
    parseHeader "3 3".toList (7, 8, 9) = (3, 3, 9) ∧
    load_mtx_as_csr (some "3 3\n1 2\n".toList) (7, 8, 9) =
      .ok ⟨3, [0, 1, 2, 2], [1, 0]⟩ ∧
    parseHeader "3 3 k".toList (7, 8, 9) = (3, 3, 0) ∧
    load_mtx_as_csr (some "3 3 k\n1 2\n".toList) (7, 8, 9) =
      .ok ⟨3, [0, 1, 2, 2], [1, 0]⟩ ∧
    main_sequential ["cc_sequential".toList, "g.mtx".toList]
      (fun _ => some "3 3\n1 2\n".toList) (7, 8, 9) 10 = .finished [0, 0, 2] 2 :=
  ⟨fun _ => rfl, rfl, rfl, rfl, rfl, rfl, rfl⟩

/-- C14: when the file cannot be opened, or consists of comment lines only (it ends
before a header line is found), `load_mtx_as_csr` reports the error and ends the process
with `exit(1)` instead of returning a graph, and every driver ends there without a label
array. -/
theorem missing_file_or_header_is_fatal (file : Option (List Char))
    (garbage : Int × Int × Int)
    (h : file = none ∨ ∃ ls last, (∀ l ∈ ls, IsCommentLine l) ∧
      (last = [] ∨ IsCommentLine last) ∧ file = some (linesText ls last)) :
    ∃ e, load_mtx_as_csr file garbage = .error e ∧
      (file = none → e = .cannotOpen) ∧
      (file ≠ none → e = .fileEndedBeforeHeader) ∧
      (MainResult.loadFailed e).exitCode = some 1 ∧
      ∀ (argv : List (List Char)) (fs : List Char → Option (List Char)),
        fs (argv.getD 1 []) = file →
        (2 ≤ argv.length → ∀ fuel, main_sequential argv fs garbage fuel = .loadFailed e) ∧
        (2 ≤ argv.length → ∀ io sched fuel,
          main_openmp argv fs garbage io sched fuel = .loadFailed e) ∧
        (2 ≤ argv.length → ∀ io sched fuel,
          main_opencilk argv fs garbage io sched fuel = .loadFailed e) ∧
        (3 ≤ argv.length → 0 < atoi (argv.getD 2 []) → ∀ fuel,
          main_pthreads argv fs garbage fuel = .loadFailed e) := by
  rcases h with rfl | ⟨ls, last, hls, hlast, rfl⟩
  · refine ⟨.cannotOpen, rfl, fun _ => rfl, fun hne => absurd rfl hne, rfl, ?_⟩
    intro argv fs hfs
    exact mains_of_load_error argv fs garbage .cannotOpen (by rw [hfs]; rfl)
  · have hload : load_mtx_as_csr (some (linesText ls last)) garbage =
        .error .fileEndedBeforeHeader := by
      rw [load_mtx_as_csr]
      dsimp only
      rw [findHeader_comments ls last hls hlast]
    refine ⟨.fileEndedBeforeHeader, hload, fun hn => Option.noConfusion hn, fun _ => rfl,
      rfl, ?_⟩
    intro argv fs hfs
    exact mains_of_load_error argv fs garbage .fileEndedBeforeHeader
      (by rw [hfs]; exact hload)

/-- C14 (witness): a file of two comment lines, the second without a final newline. -/
theorem missing_file_or_header_is_fatal_witness :
    linesText ["% a".toList] "% b".toList = "% a\n% b".toList ∧
    ∃ e, load_mtx_as_csr (some (linesText ["% a".toList] "% b".toList)) (7, 8, 9) =
        .error e ∧
      (some (linesText ["% a".toList] "% b".toList) = none → e = .cannotOpen) ∧
      (some (linesText ["% a".toList] "% b".toList) ≠ none →
        e = .fileEndedBeforeHeader) ∧
      (MainResult.loadFailed e).exitCode = some 1 ∧
      ∀ (argv : List (List Char)) (fs : List Char → Option (List Char)),
        fs (argv.getD 1 []) = some (linesText ["% a".toList] "% b".toList) →
        (2 ≤ argv.length → ∀ fuel,
          main_sequential argv fs (7, 8, 9) fuel = .loadFailed e) ∧
        (2 ≤ argv.length → ∀ io sched fuel,
          main_openmp argv fs (7, 8, 9) io sched fuel = .loadFailed e) ∧
        (2 ≤ argv.length → ∀ io sched fuel,
          main_opencilk argv fs (7, 8, 9) io sched fuel = .loadFailed e) ∧
        (3 ≤ argv.length → 0 < atoi (argv.getD 2 []) → ∀ fuel,
          main_pthreads argv fs (7, 8, 9) fuel = .loadFailed e) :=
  ⟨rfl, missing_file_or_header_is_fatal (some (linesText ["% a".toList] "% b".toList))
    (7, 8, 9) (Or.inr ⟨["% a".toList], "% b".toList, by decide, by decide, rfl⟩)⟩

end CC
